import Mathlib

/-!
Verification development for the segment R-tree library: a shallow embedding of
the core data structures (`Rectangle`, `SegRTree`, `SegmentUnion`, the clipper
and point-in-ring traversals) together with proofs of the specified properties.

Modelling conventions:
* `f64` coordinates are modelled as rationals.  All claims under study concern
  exact comparisons and exact arithmetic on finite inputs; the empty-rectangle
  NaN sentinel is modelled by an explicit `Rect.empty` constructor, whose
  operations reproduce the IEEE behaviour of the source (`NaN` comparisons are
  false, `f64::min`/`f64::max` return the non-NaN argument).
* `Vec` is modelled as `List`, in-place mutation as explicit state passing.
* Fallible operations return `Except`/`Option`.
-/

namespace SegRt

/-- Planar coordinate (`Coordinate` in `coordinate.rs`); the two `f64`
components are modelled as rationals. -/
structure Coordinate where
  x : ℚ
  y : ℚ
deriving DecidableEq, Repr

/-- `Coordinate::new`. -/
def Coordinate.new (x y : ℚ) : Coordinate := ⟨x, y⟩

/-- Axis-aligned rectangle (`Rectangle` in `rectangle.rs`).  The source marks
the empty rectangle by NaN components (`Rectangle::new_empty`, `is_empty`);
reachable rectangles are either all-NaN or all-finite, so the sentinel is
modelled as a separate constructor. -/
inductive Rect where
  | empty : Rect
  | mk (xMin yMin xMax yMax : ℚ) : Rect
deriving DecidableEq, Repr

namespace Rect

/-- `Rectangle::is_empty`: true iff any component is NaN. -/
def isEmpty : Rect → Bool
  | .empty => true
  | .mk _ _ _ _ => false

/-- `Coordinate::envelope`: the degenerate rectangle of a point. -/
def coordRect (c : Coordinate) : Rect := .mk c.x c.y c.x c.y

/-- `Rectangle::new`: componentwise min/max of two coordinates. -/
def new (p1 p2 : Coordinate) : Rect :=
  .mk (min p1.x p2.x) (min p1.y p2.y) (max p1.x p2.x) (max p1.y p2.y)

/-- `Rectangle::intersects` (closed-interval overlap on both axes).  Any
comparison against a NaN component of the empty sentinel is false. -/
def intersects : Rect → Rect → Bool
  | .empty, _ => false
  | .mk _ _ _ _, .empty => false
  | .mk axmin aymin axmax aymax, .mk bxmin bymin bxmax bymax =>
    decide (axmin ≤ bxmax) && decide (axmax ≥ bxmin) &&
    decide (aymin ≤ bymax) && decide (aymax ≥ bymin)

/-- `Rectangle::contains` on a rectangle argument. -/
def containsRect : Rect → Rect → Bool
  | .empty, _ => false
  | .mk _ _ _ _, .empty => false
  | .mk axmin aymin axmax aymax, .mk bxmin bymin bxmax bymax =>
    decide (axmin ≤ bxmin) && decide (axmax ≥ bxmax) &&
    decide (aymin ≤ bymin) && decide (aymax ≥ bymax)

/-- `Rectangle::contains` on a `Coordinate` argument (via its envelope). -/
def containsCoord (r : Rect) (c : Coordinate) : Bool :=
  r.containsRect (coordRect c)

/-- `Rectangle::expand` / `Rectangle::merge`: componentwise `f64::min`/`max`,
which return the non-NaN argument, so the empty sentinel is the identity. -/
def merge : Rect → Rect → Rect
  | .empty, b => b
  | .mk a b c d, .empty => .mk a b c d
  | .mk axmin aymin axmax aymax, .mk bxmin bymin bxmax bymax =>
    .mk (min axmin bxmin) (min aymin bymin) (max axmax bxmax) (max aymax bymax)

/-- `Rectangle::of`: fold of `expand` starting from the empty rectangle. -/
def ofList (l : List Rect) : Rect := l.foldl merge .empty

@[simp] theorem merge_empty_left (r : Rect) : merge .empty r = r := rfl

@[simp] theorem merge_empty_right (r : Rect) : merge r .empty = r := by
  cases r <;> rfl

theorem merge_comm (a b : Rect) : merge a b = merge b a := by
  cases a <;> cases b <;> simp [merge, min_comm, max_comm]

theorem merge_assoc (a b c : Rect) : merge (merge a b) c = merge a (merge b c) := by
  cases a <;> cases b <;> cases c <;> simp [merge, min_assoc, max_assoc]

theorem merge_idem (a : Rect) : merge a a = a := by
  cases a <;> simp [merge]

/-- Absorption: merging a second copy of an already-merged rectangle changes
nothing. -/
theorem merge_absorb (a b : Rect) : merge a (merge a b) = merge a b := by
  rw [← merge_assoc, merge_idem]

@[simp] theorem ofList_nil : ofList [] = .empty := rfl

theorem foldl_merge_eq (l : List Rect) (acc : Rect) :
    l.foldl merge acc = merge acc (ofList l) := by
  induction l generalizing acc with
  | nil => simp [ofList]
  | cons r l ih =>
    simp only [ofList, List.foldl_cons, merge_empty_left]
    rw [ih, ih r, merge_assoc]

theorem ofList_cons (r : Rect) (l : List Rect) :
    ofList (r :: l) = merge r (ofList l) := by
  simp only [ofList, List.foldl_cons, merge_empty_left]
  exact foldl_merge_eq l r

theorem ofList_append (l1 l2 : List Rect) :
    ofList (l1 ++ l2) = merge (ofList l1) (ofList l2) := by
  induction l1 with
  | nil => simp [ofList]
  | cons r l ih => simp [ofList_cons, ih, merge_assoc]

@[simp] theorem ofList_singleton (r : Rect) : ofList [r] = r := by
  simp [ofList_cons]

/-- Monotonicity of `intersects` under `merge` (either argument). -/
theorem intersects_merge_of_left {a q : Rect} (h : intersects a q = true) (b : Rect) :
    intersects (merge a b) q = true := by
  cases a with
  | empty => simp [intersects] at h
  | mk axmin aymin axmax aymax =>
    cases q with
    | empty => simp [intersects] at h
    | mk qxmin qymin qxmax qymax =>
      simp only [intersects, Bool.and_eq_true, decide_eq_true_eq, ge_iff_le] at h
      cases b with
      | empty => simpa [merge, intersects, ge_iff_le] using h
      | mk bxmin bymin bxmax bymax =>
        simp only [merge, intersects, Bool.and_eq_true, decide_eq_true_eq, ge_iff_le]
        obtain ⟨⟨⟨h1, h2⟩, h3⟩, h4⟩ := h
        refine ⟨⟨⟨le_trans (min_le_left _ _) h1, le_trans h2 (le_max_left _ _)⟩, ?_⟩, ?_⟩
        · exact le_trans (min_le_left _ _) h3
        · exact le_trans h4 (le_max_left _ _)

/-- If some member of a list intersects `q`, the bounding box of the list
intersects `q`. -/
theorem intersects_ofList_of_mem {l : List Rect} {a q : Rect}
    (ha : a ∈ l) (h : intersects a q = true) : intersects (ofList l) q = true := by
  induction l with
  | nil => cases ha
  | cons r l ih =>
    rw [ofList_cons]
    rcases List.mem_cons.mp ha with rfl | ha
    · exact intersects_merge_of_left h _
    · rw [merge_comm]
      exact intersects_merge_of_left (ih ha) _

@[simp] theorem intersects_empty_left (q : Rect) : intersects .empty q = false := rfl

@[simp] theorem intersects_empty_right (r : Rect) : intersects r .empty = false := by
  cases r <;> rfl

end Rect

/-! ### Level-index arithmetic (`utils.rs`: `calculate_level_indices`) -/

/-- Ceiling division on naturals, `⌈a / b⌉`. -/
def ceilDivN (a b : ℕ) : ℕ := (a + b - 1) / b

theorem ceilDivN_le_iff {b : ℕ} (hb : 0 < b) {a m : ℕ} :
    ceilDivN a b ≤ m ↔ a ≤ m * b := by
  unfold ceilDivN
  rw [Nat.div_le_iff_le_mul_add_pred hb, Nat.mul_comm]
  omega

theorem lt_ceilDivN_iff {b : ℕ} (hb : 0 < b) {a m : ℕ} :
    m < ceilDivN a b ↔ m * b < a := by
  rw [← Nat.not_le, ← Nat.not_le, not_iff_not]
  exact ceilDivN_le_iff hb

theorem le_ceilDivN_mul {b : ℕ} (hb : 0 < b) (a : ℕ) : a ≤ ceilDivN a b * b :=
  (ceilDivN_le_iff hb).mp le_rfl

theorem ceilDivN_ceilDivN {b c : ℕ} (hb : 0 < b) (hc : 0 < c) (a : ℕ) :
    ceilDivN (ceilDivN a b) c = ceilDivN a (b * c) := by
  refine eq_of_forall_ge_iff fun m => ?_
  rw [ceilDivN_le_iff hc, ceilDivN_le_iff hb, ceilDivN_le_iff (Nat.mul_pos hb hc)]
  rw [Nat.mul_assoc, Nat.mul_comm c b]

@[simp] theorem ceilDivN_one (a : ℕ) : ceilDivN a 1 = a := by
  simp [ceilDivN]

/-- The source computes the least multiple of `degree` that is `≥ level_size`
via `level_size / degree + level_buffer`; that quotient is exactly the ceiling
division. -/
theorem buffer_formula {d : ℕ} (hd : 0 < d) (ls : ℕ) :
    ls / d + (if 0 < ls % d then 1 else 0) = ceilDivN ls d := by
  obtain ⟨q, r, hr, rfl⟩ : ∃ q r, r < d ∧ ls = d * q + r :=
    ⟨ls / d, ls % d, Nat.mod_lt _ hd, (Nat.div_add_mod ls d).symm⟩
  have hq : (d * q + r) / d = q + r / d := Nat.mul_add_div hd q r
  have hr0 : r / d = 0 := Nat.div_eq_of_lt hr
  have hmod : (d * q + r) % d = r := by
    rw [Nat.mul_add_mod, Nat.mod_eq_of_lt hr]
  rcases Nat.eq_zero_or_pos r with rfl | hrpos
  · have h1 : ceilDivN (d * q + 0) d = q := by
      unfold ceilDivN
      have harith : d * q + 0 + d - 1 = d * q + (d - 1) := by omega
      have hdd : (d - 1) / d = 0 := Nat.div_eq_of_lt (by omega)
      rw [harith, Nat.mul_add_div hd, hdd]
      rfl
    rw [h1, hq, hmod]
    simp [hr0]
  · have h1 : ceilDivN (d * q + r) d = q + 1 := by
      unfold ceilDivN
      have harith : d * q + r + d - 1 = d * (q + 1) + (r - 1) := by
        rw [Nat.mul_add, Nat.mul_one]
        omega
      have hdd : (r - 1) / d = 0 := Nat.div_eq_of_lt (by omega)
      rw [harith, Nat.mul_add_div hd, hdd]
    rw [h1, hq, hmod, hr0, if_pos hrpos]

theorem ceilDivN_lt_self {d ls : ℕ} (hd : 2 ≤ d) (hls : 1 < ls) :
    ceilDivN ls d < ls := by
  have h1 : ceilDivN ls d ≤ ls - 1 := by
    rw [ceilDivN_le_iff (by omega)]
    have h2 : (ls - 1) * 2 ≤ (ls - 1) * d := Nat.mul_le_mul_left _ hd
    omega
  omega

/-- The loop body of `calculate_level_indices`.  The source loop runs while
`level_size > 1`; it does not terminate for `degree < 2` (all callers clamp the
degree to at least 2), so the recursion is guarded by `2 ≤ degree` as well. -/
def levelIndicesGo (degree : ℕ) (acc : List ℕ) (last levelSize : ℕ) : List ℕ :=
  if h : 1 < levelSize ∧ 2 ≤ degree then
    let levelBuffer := if 0 < levelSize % degree then 1 else 0
    let levelCapacity := degree * (levelSize / degree + levelBuffer)
    levelIndicesGo degree (acc ++ [last + levelCapacity]) (last + levelCapacity)
      (levelCapacity / degree)
  else acc
termination_by levelSize
decreasing_by
  have hcap : levelCapacity / degree = ceilDivN levelSize degree := by
    show degree * (levelSize / degree + levelBuffer) / degree = _
    rw [Nat.mul_div_cancel_left _ (by omega : 0 < degree)]
    exact buffer_formula (by omega) levelSize
  rw [hcap]
  exact ceilDivN_lt_self h.2 h.1

/-- `utils.rs`: `calculate_level_indices(degree, num_items)`. -/
def calculateLevelIndices (degree numItems : ℕ) : List ℕ :=
  levelIndicesGo degree [0] 0 numItems

/-- Number of real nodes at level `ℓ` of a tree over `n` leaves:
`⌈n / d^ℓ⌉`. -/
def numAt (d n ℓ : ℕ) : ℕ := ceilDivN n (d ^ ℓ)

/-- Number of slots allocated for level `ℓ`: the level capacity
`d ⋅ ⌈n / d^(ℓ+1)⌉`. -/
def capAt (d n ℓ : ℕ) : ℕ := d * numAt d n (ℓ + 1)

/-- Start index of level `ℓ` in the flat rectangle array. -/
def liAt (d n ℓ : ℕ) : ℕ := ∑ j ∈ Finset.range ℓ, capAt d n j

/-- Height of the tree: the number of iterations of the level-index loop. -/
def heightFor (d n : ℕ) : ℕ :=
  if h : 1 < n ∧ 2 ≤ d then heightFor d (ceilDivN n d) + 1 else 0
termination_by n
decreasing_by exact ceilDivN_lt_self h.2 h.1

@[simp] theorem numAt_zero (d n : ℕ) : numAt d n 0 = n := by
  simp [numAt]

theorem numAt_succ {d : ℕ} (hd : 2 ≤ d) (n ℓ : ℕ) :
    numAt d n (ℓ + 1) = ceilDivN (numAt d n ℓ) d := by
  rw [numAt, numAt, ceilDivN_ceilDivN (Nat.pos_pow_of_pos ℓ (by omega)) (by omega),
    pow_succ]

theorem numAt_shift {d : ℕ} (hd : 2 ≤ d) (n ℓ : ℕ) :
    numAt d (ceilDivN n d) ℓ = numAt d n (ℓ + 1) := by
  rw [numAt, numAt, ceilDivN_ceilDivN (by omega) (Nat.pos_pow_of_pos ℓ (by omega)),
    pow_succ, Nat.mul_comm]

theorem lt_numAt_iff {d : ℕ} (hd : 2 ≤ d) {n ℓ o : ℕ} :
    o < numAt d n ℓ ↔ o * d ^ ℓ < n :=
  lt_ceilDivN_iff (Nat.pos_pow_of_pos ℓ (by omega))

theorem numAt_le_iff {d : ℕ} (hd : 2 ≤ d) {n ℓ m : ℕ} :
    numAt d n ℓ ≤ m ↔ n ≤ m * d ^ ℓ :=
  ceilDivN_le_iff (Nat.pos_pow_of_pos ℓ (by omega))

theorem heightFor_le_iff {d : ℕ} (hd : 2 ≤ d) :
    ∀ n m : ℕ, heightFor d n ≤ m ↔ numAt d n m ≤ 1 := by
  intro n
  induction n using Nat.strong_induction_on with
  | _ n ih =>
    intro m
    by_cases hn : 1 < n
    · rw [heightFor, dif_pos ⟨hn, hd⟩]
      cases m with
      | zero =>
        simp only [numAt_zero]
        omega
      | succ m =>
        rw [Nat.add_le_add_iff_right, ih _ (ceilDivN_lt_self hd hn) m,
          numAt_shift hd]
    · rw [heightFor, dif_neg (by omega)]
      have h1 : numAt d n m ≤ 1 := by
        rw [numAt_le_iff hd]
        have : 1 ≤ d ^ m := Nat.one_le_pow _ _ (by omega)
        omega
      simp [h1]

theorem n_le_pow_heightFor {d : ℕ} (hd : 2 ≤ d) (n : ℕ) :
    n ≤ d ^ heightFor d n := by
  have := (heightFor_le_iff hd n (heightFor d n)).mp le_rfl
  rw [numAt_le_iff hd] at this
  omega

theorem liAt_succ (d n ℓ : ℕ) : liAt d n (ℓ + 1) = liAt d n ℓ + capAt d n ℓ :=
  Finset.sum_range_succ _ _

@[simp] theorem liAt_zero (d n : ℕ) : liAt d n 0 = 0 := rfl

theorem capAt_div (d n ℓ : ℕ) (hd : 2 ≤ d) : capAt d n ℓ / d = numAt d n (ℓ + 1) := by
  rw [capAt, Nat.mul_div_cancel_left _ (by omega : 0 < d)]

/-- Closed form of the level-index loop, relative to a fixed leaf count `n`:
starting at stage `m`, the loop appends the start indices of levels
`m+1 .. heightFor d n`. -/
theorem levelIndicesGo_eq {d : ℕ} (hd : 2 ≤ d) (n : ℕ) :
    ∀ k m acc, heightFor d n - m = k →
    levelIndicesGo d acc (liAt d n m) (numAt d n m) =
      acc ++ (List.range' (m + 1) k).map (liAt d n) := by
  intro k
  induction k with
  | zero =>
    intro m acc hk
    have hle : numAt d n m ≤ 1 := (heightFor_le_iff hd n m).mp (by omega)
    rw [levelIndicesGo, dif_neg (by omega)]
    simp
  | succ k ih =>
    intro m acc hk
    have hlt : 1 < numAt d n m := by
      by_contra h
      have := (heightFor_le_iff hd n m).mpr (by omega)
      omega
    rw [levelIndicesGo, dif_pos ⟨hlt, hd⟩]
    have hcap : d * (numAt d n m / d + if 0 < numAt d n m % d then 1 else 0) =
        capAt d n m := by
      rw [buffer_formula (by omega : 0 < d), capAt, numAt_succ hd]
    simp only [hcap]
    have hdiv : capAt d n m / d = numAt d n (m + 1) := capAt_div d n m hd
    have hli : liAt d n m + capAt d n m = liAt d n (m + 1) := (liAt_succ d n m).symm
    rw [hdiv, hli, ih (m + 1) _ (by omega)]
    rw [List.range'_succ, List.map_cons, List.append_assoc]
    rfl

/-- The level-index vector is `[liAt 0, …, liAt h]` where `h = heightFor d n`. -/
theorem calculateLevelIndices_eq {d : ℕ} (hd : 2 ≤ d) (n : ℕ) :
    calculateLevelIndices d n =
      (List.range (heightFor d n + 1)).map (liAt d n) := by
  have hgo := levelIndicesGo_eq hd n (heightFor d n) 0 [0] (by omega)
  rw [numAt_zero, liAt_zero] at hgo
  rw [calculateLevelIndices, hgo, List.range_eq_range', List.range'_succ]
  simp

/-! ### The packed segment R-tree (`seg_rtree/rtree.rs`) -/

/-- `SegRTree`: flat rectangle array plus level bookkeeping. -/
structure SegRTree where
  degree : ℕ
  maxSize : ℕ
  currentSize : ℕ
  currentLevel : ℕ
  levelIndices : List ℕ
  tree : List Rect
deriving DecidableEq, Repr

namespace SegRTree

/-- Modelled from the spec: the slice-copy helper `copy_into_slice(tree, index,
items)` — listed in the spec under "Small support: level-index arithmetic,
slice copy helpers"; its definition is not among the provided sources.  It
overwrites `tree[index .. index + items.len())` with `items`. -/
def copyIntoSlice (tree : List Rect) (index : ℕ) (items : List Rect) : List Rect :=
  tree.take index ++ items ++ tree.drop (index + items.length)

/-- `slice::chunks(size)`: consecutive chunks of length `size`, the last chunk
possibly shorter.  (Rust panics on `size = 0`; all call sites pass the clamped
degree `≥ 2`.) -/
def chunksOf (size : ℕ) (l : List Rect) : List (List Rect) :=
  if h : l = [] ∨ size = 0 then []
  else l.take size :: chunksOf size (l.drop size)
termination_by l.length
decreasing_by
  push_neg at h
  rcases l with _ | ⟨r, l⟩
  · exact absurd rfl h.1
  · simp only [List.length_drop, List.length_cons]
    omega

/-- `SegRTree::get_rectangle(level, offset)`. -/
def getRectangle (t : SegRTree) (level offset : ℕ) : Rect :=
  t.tree.getD (t.levelIndices.getD level 0 + offset) Rect.empty

/-- `SegRTree::height`. -/
def height (t : SegRTree) : ℕ := t.currentLevel

/-- `SegRTree::root`. -/
def root (t : SegRTree) : ℕ × ℕ := (t.currentLevel, 0)

/-- `SegRTree::envelope` (via `HasEnvelope`). -/
def envelope (t : SegRTree) : Rect := getRectangle t t.currentLevel 0

/-- `SegRTree::get_low_high(level, offset)`. -/
def getLowHigh (t : SegRTree) (level offset : ℕ) : ℕ × ℕ :=
  let width := t.degree ^ level
  (width * offset, min t.currentSize (width * (offset + 1)))

/-- `SegRTree::new_empty`. -/
def newEmpty : SegRTree :=
  { degree := 2, maxSize := 0, currentSize := 0, currentLevel := 0,
    levelIndices := [0], tree := [Rect.empty] }

/-- `SegRTree::new(degree, max_size)`: empty tree with capacity. -/
def new (degree0 maxSize : ℕ) : SegRTree :=
  let degree := max degree0 2
  let levelIndices := calculateLevelIndices degree maxSize
  let treeSize := levelIndices.getD (levelIndices.length - 1) 0 + 1
  { degree := degree, maxSize := maxSize, currentSize := 0, currentLevel := 0,
    levelIndices := levelIndices, tree := List.replicate treeSize Rect.empty }

/-- One iteration of the bulk-load level loop in `SegRTree::new_loaded`:
read the previous level's slots, chunk them by `degree`, and write the chunk
unions at the next level's start index. -/
def buildLevel (degree : ℕ) (tr : List Rect) (liPrev liCur : ℕ) : List Rect :=
  let previousItems := (tr.drop liPrev).take (liCur - liPrev)
  let nextItems := (chunksOf degree previousItems).map Rect.ofList
  copyIntoSlice tr liCur nextItems

/-- `SegRTree::new_loaded(degree, rects)`: bulk load. -/
def newLoaded (degree0 : ℕ) (rects : List Rect) : SegRTree :=
  let degree := max degree0 2
  let maxSize := rects.length
  let levelIndices := calculateLevelIndices degree maxSize
  let treeSize := levelIndices.getD (levelIndices.length - 1) 0 + 1
  let tree0 := copyIntoSlice (List.replicate treeSize Rect.empty) 0 rects
  let tree := (List.range' 1 (levelIndices.length - 1)).foldl
    (fun tr level =>
      buildLevel degree tr (levelIndices.getD (level - 1) 0) (levelIndices.getD level 0))
    tree0
  { degree := degree, maxSize := maxSize, currentSize := maxSize,
    currentLevel := levelIndices.length - 1, levelIndices := levelIndices,
    tree := tree }

/-- The ancestor-expansion loop of `SegRTree::add`: starting at the new leaf
slot, expand the slot at each level with the incoming rectangle, pulling in the
already-present sibling when the offset is 1.  Returns the updated array and
the deepest level written.  (The Rust loop does not terminate for a degree
`< 2`; construction clamps the degree, and the recursion is guarded.) -/
def addLoop (degree : ℕ) (levelIndices : List ℕ) (tree : List Rect) (rect : Rect)
    (level offset : ℕ) : List Rect × ℕ :=
  let index := levelIndices.getD level 0 + offset
  let rect1 := rect.merge (tree.getD index Rect.empty)
  let tree1 := tree.set index rect1
  if h : offset = 0 ∨ degree < 2 then (tree1, level)
  else
    let rect2 :=
      if offset = 1 then rect1.merge (tree1.getD (index - 1) Rect.empty) else rect1
    addLoop degree levelIndices tree1 rect2 (level + 1) (offset / degree)
termination_by offset
decreasing_by
  push_neg at h
  exact Nat.div_lt_self (by omega) (by omega)

/-- `SegRTree::add(rect)`: mutating insert; returns the new state together
with the `Result`. -/
def add (t : SegRTree) (rect : Rect) : SegRTree × Except String Unit :=
  if t.maxSize ≤ t.currentSize then
    (t, .error "Exceeded capacity")
  else
    let res := addLoop t.degree t.levelIndices t.tree rect 0 t.currentSize
    ({ t with
        tree := res.1
        currentLevel := res.2
        currentSize := t.currentSize + 1 },
      .ok ())

/-- Fold `add` over a list of rectangles (each `add` mutates the tree; a failed
`add` leaves it unchanged). -/
def addList (t : SegRTree) (rects : List Rect) : SegRTree :=
  rects.foldl (fun tr r => (add tr r).1) t

theorem sum_map_filter_le (l : List (ℕ × ℕ)) (p : ℕ × ℕ → Bool) (f : ℕ × ℕ → ℕ) :
    ((l.filter p).map f).sum ≤ (l.map f).sum := by
  induction l with
  | nil => simp
  | cons a l ih =>
    by_cases hp : p a
    · simp only [List.filter_cons, hp, if_pos, List.map_cons, List.sum_cons]
      omega
    · simp only [List.filter_cons, hp, Bool.false_eq_true, if_neg, not_false_iff,
        List.map_cons, List.sum_cons]
      omega

theorem sum_map_const_range (n c : ℕ) : ((List.range n).map fun _ => c).sum = n * c := by
  induction n with
  | zero => simp
  | succ n ih =>
    rw [List.range_succ, List.map_append, List.sum_append]
    simp [ih, Nat.succ_mul]

/-- The total weight of the `degree` children of an internal node is smaller
than the weight of the node: the work-stack measure of the descent loops. -/
theorem children_weight_lt {d level : ℕ} (hlevel : level ≠ 0)
    (L : List (ℕ × ℕ)) (p : ℕ × ℕ → Bool) (g : ℕ → ℕ × ℕ)
    (hg : ∀ i, (g i).1 = level - 1)
    (hL : L = (List.range d).map g) :
    ((L.filter p).map fun e => (d + 1) ^ e.1).sum < (d + 1) ^ level := by
  have h1 := sum_map_filter_le L p (fun e => (d + 1) ^ e.1)
  have h2 : (L.map fun e => (d + 1) ^ e.1).sum = d * (d + 1) ^ (level - 1) := by
    subst hL
    rw [List.map_map]
    have : ((fun e : ℕ × ℕ => (d + 1) ^ e.1) ∘ g) = fun _ => (d + 1) ^ (level - 1) := by
      funext i
      simp [Function.comp, hg i]
    rw [this, sum_map_const_range]
  have hx : 0 < (d + 1) ^ (level - 1) := Nat.pos_pow_of_pos _ (by omega)
  have h3 : (d + 1) ^ level = (d + 1) ^ (level - 1) * (d + 1) := by
    rw [← pow_succ]
    congr 1
    omega
  have h4 : d * (d + 1) ^ (level - 1) < (d + 1) ^ level := by
    rw [h3, Nat.mul_comm ((d + 1) ^ (level - 1))]
    exact (Nat.mul_lt_mul_right hx).mpr (Nat.lt_succ_self _)
  omega

/-- The descent loop of `SegRTree::query`: explicit work stack of
`(level, offset)` pairs. -/
def queryGo (t : SegRTree) (pred : Rect → Bool) :
    List (ℕ × ℕ) → List ℕ → List ℕ
  | [], results => results
  | (level, offset) :: stack, results =>
    if level = 0 then
      queryGo t pred stack (results ++ [offset])
    else
      let childLevel := level - 1
      let firstChildOffset := t.degree * offset
      let children := (List.range t.degree).map fun i => (childLevel, firstChildOffset + i)
      let kept := children.filter fun c => pred (getRectangle t c.1 c.2)
      queryGo t pred (kept.reverse ++ stack) results
termination_by stack _ => (stack.map fun e => (t.degree + 1) ^ e.1).sum
decreasing_by
  all_goals simp only [List.map_cons, List.sum_cons, List.map_append, List.sum_append,
    List.map_reverse, List.sum_reverse]
  · have hp : 0 < (t.degree + 1) ^ level := Nat.pos_pow_of_pos _ (by omega)
    omega
  · rename_i hlevel
    have := SegRTree.children_weight_lt hlevel
      ((List.range t.degree).map fun i => (level - 1, t.degree * offset + i))
      (fun c => pred (getRectangle t c.1 c.2))
      (fun i => (level - 1, t.degree * offset + i)) (fun i => rfl) rfl
    omega

/-- `SegRTree::query(predicate)`. -/
def query (t : SegRTree) (pred : Rect → Bool) : List ℕ :=
  if t.currentSize = 0 then []
  else queryGo t pred (if pred (envelope t) then [root t] else []) []

/-- `SegRTree::query_rect(rect)`. -/
def queryRect (t : SegRTree) (rect : Rect) : List ℕ :=
  query t fun treeRect => treeRect.intersects rect

/-- `SegRTree::query_point(point)`. -/
def queryPoint (t : SegRTree) (point : Coordinate) : List ℕ :=
  query t fun treeRect => treeRect.containsCoord point

theorem mul_pow_pred_lt {d m : ℕ} (hm : m ≠ 0) : d * (d + 1) ^ (m - 1) < (d + 1) ^ m := by
  have hx : 0 < (d + 1) ^ (m - 1) := Nat.pos_pow_of_pos _ (by omega)
  have h3 : (d + 1) ^ m = (d + 1) ^ (m - 1) * (d + 1) := by
    rw [← pow_succ]
    congr 1
    omega
  rw [h3, Nat.mul_comm ((d + 1) ^ (m - 1))]
  exact (Nat.mul_lt_mul_right hx).mpr (Nat.lt_succ_self _)

theorem pushes_weight_lt {d m : ℕ} (hm : m ≠ 0) {α : Type} (g : ℕ → α) (w : α → ℕ)
    (hg : ∀ i, w (g i) = (d + 1) ^ (m - 1)) :
    (((List.range d).map g).map w).sum < (d + 1) ^ m := by
  rw [List.map_map]
  have hcomp : (w ∘ g) = fun _ => (d + 1) ^ (m - 1) := funext fun i => hg i
  rw [hcomp, sum_map_const_range]
  exact mul_pow_pred_lt hm

/-- The double-descent loop of `SegRTree::query_self_intersections`: work stack
of `(level_a, offset_a, level_b, offset_b)` quadruples.  The source asserts
`level_a + 1 == level_b` in its final branch; an assertion failure aborts, so
that (provably unreachable) situation is modelled by dropping the entry. -/
def selfGo (t : SegRTree) : List (ℕ × ℕ × ℕ × ℕ) → List (ℕ × ℕ) → List (ℕ × ℕ)
  | [], results => results
  | (levelA, offsetA, levelB, offsetB) :: stack, results =>
    let rectA := getRectangle t levelA offsetA
    let rectB := getRectangle t levelB offsetB
    if rectA.intersects rectB = false then
      selfGo t stack results
    else if levelA = 0 ∧ levelB = 0 then
      selfGo t stack
        (if offsetA < offsetB then results ++ [(offsetA, offsetB)] else results)
    else if levelA = levelB then
      let childLevel := levelA - 1
      let firstChildOffset := t.degree * offsetA
      let pushes := (List.range t.degree).map fun i =>
        (childLevel, firstChildOffset + i, levelB, offsetB)
      selfGo t (pushes.reverse ++ stack) results
    else if levelA + 1 = levelB then
      let childLevel := levelB - 1
      let firstChildOffset := t.degree * offsetB
      let pushes := (List.range t.degree).map fun i =>
        (levelA, offsetA, childLevel, firstChildOffset + i)
      selfGo t (pushes.reverse ++ stack) results
    else
      selfGo t stack results
termination_by stack _ => (stack.map fun e => (t.degree + 1) ^ (e.1 + e.2.2.1)).sum
decreasing_by
  all_goals simp only [List.map_cons, List.sum_cons, List.map_append, List.sum_append,
    List.map_reverse, List.sum_reverse]
  · have hp : 0 < (t.degree + 1) ^ (levelA + levelB) := Nat.pos_pow_of_pos _ (by omega)
    omega
  · have hp : 0 < (t.degree + 1) ^ (levelA + levelB) := Nat.pos_pow_of_pos _ (by omega)
    omega
  · rename_i hnotleaf hab
    have hm : levelA + levelB ≠ 0 := by
      rcases Nat.eq_zero_or_pos levelA with h0 | h0
      · exact absurd ⟨h0, hab ▸ h0⟩ hnotleaf
      · omega
    have := @pushes_weight_lt t.degree (levelA + levelB) hm _
      (fun i => (levelA - 1, t.degree * offsetA + i, levelB, offsetB))
      (fun e => (t.degree + 1) ^ (e.1 + e.2.2.1))
      (fun i => by
        simp only
        congr 1
        omega)
    omega
  · rename_i hab
    have hm : levelA + levelB ≠ 0 := by omega
    have := @pushes_weight_lt t.degree (levelA + levelB) hm _
      (fun i => (levelA, offsetA, levelB - 1, t.degree * offsetB + i))
      (fun e => (t.degree + 1) ^ (e.1 + e.2.2.1))
      (fun i => by
        simp only
        congr 1
        omega)
    omega

/-- `SegRTree::query_self_intersections()`. -/
def querySelfIntersections (t : SegRTree) : List (ℕ × ℕ) :=
  if t.currentSize = 0 then []
  else selfGo t [(t.currentLevel, 0, t.currentLevel, 0)] []

end SegRTree

/-! ### The sealed-tree invariant and query correctness -/

/-- The rectangles of the leaves covered by node `(ℓ, o)`:
`rects[o·d^ℓ .. min(n, (o+1)·d^ℓ))`. -/
def leafSlice (d : ℕ) (rects : List Rect) (ℓ o : ℕ) : List Rect :=
  (rects.take ((o + 1) * d ^ ℓ)).drop (o * d ^ ℓ)

theorem leafSlice_zero (d : ℕ) (rects : List Rect) (o : ℕ) :
    leafSlice d rects 0 o =
      if o < rects.length then [rects.getD o Rect.empty] else [] := by
  unfold leafSlice
  rw [pow_zero, Nat.mul_one, Nat.mul_one, List.drop_take]
  by_cases h : o < rects.length
  · rw [if_pos h, List.drop_eq_getElem_cons h, List.getD_eq_getElem _ _ h,
      Nat.add_sub_cancel_left]
    rfl
  · rw [if_neg h, List.drop_eq_nil_of_le (by omega), List.take_nil]

theorem leafSlice_eq_nil {d : ℕ} {rects : List Rect} {ℓ o : ℕ}
    (h : rects.length ≤ o * d ^ ℓ) : leafSlice d rects ℓ o = [] := by
  unfold leafSlice
  apply List.drop_eq_nil_of_le
  rw [List.length_take]
  omega

theorem getD_mem_leafSlice {d : ℕ} {rects : List Rect} {ℓ o j : ℕ}
    (hlo : o * d ^ ℓ ≤ j) (hhi : j < (o + 1) * d ^ ℓ) (hj : j < rects.length) :
    rects.getD j Rect.empty ∈ leafSlice d rects ℓ o := by
  unfold leafSlice
  have hlen : j < (rects.take ((o + 1) * d ^ ℓ)).length := by
    rw [List.length_take]
    omega
  have hlen2 : j - o * d ^ ℓ < ((rects.take ((o + 1) * d ^ ℓ)).drop (o * d ^ ℓ)).length := by
    rw [List.length_drop]
    omega
  have hval : ((rects.take ((o + 1) * d ^ ℓ)).drop (o * d ^ ℓ)).get
      ⟨j - o * d ^ ℓ, hlen2⟩ = rects.getD j Rect.empty := by
    rw [List.get_eq_getElem, List.getElem_drop, List.getElem_take]
    have harith : o * d ^ ℓ + (j - o * d ^ ℓ) = j := by omega
    simp only [harith]
    rw [List.getD_eq_getElem _ _ hj]
  rw [← hval]
  exact List.get_mem _ _ _

/-- The well-formedness of a (possibly partially filled) tree over the leaf
rectangles `rects`: every addressable node rectangle is the bounding box of its
leaf span. -/
structure Wf (t : SegRTree) (rects : List Rect) : Prop where
  hdeg : 2 ≤ t.degree
  hsize : t.currentSize = rects.length
  hroot : rects.length ≤ t.degree ^ t.currentLevel
  hrect : ∀ ℓ o, ℓ ≤ t.currentLevel → o < capAt t.degree rects.length ℓ →
    SegRTree.getRectangle t ℓ o = Rect.ofList (leafSlice t.degree rects ℓ o)

/-- Node `(ℓ, o)` covers leaf index `j`. -/
def Covers (d : ℕ) (e : ℕ × ℕ) (j : ℕ) : Prop :=
  e.2 * d ^ e.1 ≤ j ∧ j < (e.2 + 1) * d ^ e.1

theorem n_le_capAt_zero {d : ℕ} (hd : 2 ≤ d) (n : ℕ) : n ≤ capAt d n 0 := by
  rw [capAt, numAt, pow_one, Nat.mul_comm]
  exact le_ceilDivN_mul (by omega) n

theorem capAt_pos {d : ℕ} (hd : 2 ≤ d) {n : ℕ} (hn : 0 < n) (ℓ : ℕ) :
    0 < capAt d n ℓ := by
  rw [capAt]
  have h1 : 0 < numAt d n (ℓ + 1) := by
    rw [lt_numAt_iff hd]
    simpa using hn
  positivity

/-- Leaf index `j` is a leaf, so it satisfies the query predicate or not on its
own rectangle. -/
def OkLeaf (rects : List Rect) (pred : Rect → Bool) (j : ℕ) : Prop :=
  j < rects.length ∧ pred (rects.getD j Rect.empty) = true

theorem covers_zero_iff {d o j : ℕ} : Covers d (0, o) j ↔ j = o := by
  simp only [Covers, pow_zero, Nat.mul_one]
  omega

theorem covers_disjoint {d ℓ o1 o2 : ℕ} (hne : o1 ≠ o2) {j : ℕ}
    (h1 : Covers d (ℓ, o1) j) (h2 : Covers d (ℓ, o2) j) : False := by
  obtain ⟨ha1, ha2⟩ := h1
  obtain ⟨hb1, hb2⟩ := h2
  simp only at ha1 ha2 hb1 hb2
  rcases Nat.lt_or_ge o1 o2 with h | h
  · have := Nat.mul_le_mul_right (d ^ ℓ) (by omega : o1 + 1 ≤ o2)
    omega
  · have := Nat.mul_le_mul_right (d ^ ℓ) (by omega : o2 + 1 ≤ o1)
    omega

theorem covers_mono {d m o c j : ℕ} (hc1 : d * o ≤ c) (hc2 : c < d * o + d)
    (h : Covers d (m, c) j) : Covers d (m + 1, o) j := by
  obtain ⟨h1, h2⟩ := h
  simp only at h1 h2
  constructor
  · show o * d ^ (m + 1) ≤ j
    calc o * d ^ (m + 1) = (d * o) * d ^ m := by ring
      _ ≤ c * d ^ m := Nat.mul_le_mul_right _ hc1
      _ ≤ j := h1
  · show j < (o + 1) * d ^ (m + 1)
    calc j < (c + 1) * d ^ m := h2
      _ ≤ (d * o + d) * d ^ m := Nat.mul_le_mul_right _ (by omega)
      _ = (o + 1) * d ^ (m + 1) := by ring

theorem div_mul_le_and_lt {w j : ℕ} (hw : 0 < w) :
    (j / w) * w ≤ j ∧ j < (j / w + 1) * w := by
  have h1 := Nat.div_add_mod j w
  have h2 := Nat.mod_lt j hw
  constructor
  · rw [Nat.mul_comm]
    omega
  · rw [Nat.add_mul, Nat.one_mul, Nat.mul_comm]
    omega

theorem child_of_covers {d m o j : ℕ} (hd : 0 < d) (h : Covers d (m + 1, o) j) :
    d * o ≤ j / d ^ m ∧ j / d ^ m < d * o + d ∧ Covers d (m, j / d ^ m) j := by
  obtain ⟨h1, h2⟩ := h
  simp only at h1 h2
  have hw : 0 < d ^ m := Nat.pos_pow_of_pos _ hd
  have hle : d * o ≤ j / d ^ m := by
    rw [Nat.le_div_iff_mul_le hw]
    calc d * o * d ^ m = o * d ^ (m + 1) := by ring
      _ ≤ j := h1
  have hlt : j / d ^ m < d * o + d := by
    rw [Nat.div_lt_iff_lt_mul hw]
    calc j < (o + 1) * d ^ (m + 1) := h2
      _ = (d * o + d) * d ^ m := by ring
  exact ⟨hle, hlt, (div_mul_le_and_lt hw).1, (div_mul_le_and_lt hw).2⟩

theorem span_lt_of_pred {t : SegRTree} {rects : List Rect} (hwf : Wf t rects)
    {pred : Rect → Bool} (hpE : pred Rect.empty = false)
    {ℓ o : ℕ} (hℓ : ℓ ≤ t.currentLevel) (ho : o < capAt t.degree rects.length ℓ)
    (hp : pred (SegRTree.getRectangle t ℓ o) = true) :
    o * t.degree ^ ℓ < rects.length := by
  by_contra hcon
  push_neg at hcon
  rw [hwf.hrect ℓ o hℓ ho, leafSlice_eq_nil hcon, Rect.ofList_nil, hpE] at hp
  exact Bool.false_ne_true hp

/-- Span-disjointness of two stack entries. -/
def Disj (d : ℕ) (e1 e2 : ℕ × ℕ) : Prop :=
  ∀ j, Covers d e1 j → ¬ Covers d e2 j

theorem disj_symm {d : ℕ} {e1 e2 : ℕ × ℕ} (h : Disj d e1 e2) : Disj d e2 e1 :=
  fun j h2 h1 => h j h1 h2

/-- Main loop invariant of the query descent: provided every stack entry is an
addressable node whose rectangle satisfies the predicate and entry spans are
pairwise disjoint, the loop emits exactly the still-covered leaves that satisfy
the predicate, each exactly once. -/
theorem queryGo_spec (t : SegRTree) (rects : List Rect) (pred : Rect → Bool)
    (hwf : Wf t rects) (hpE : pred Rect.empty = false)
    (hpUp : ∀ (r : Rect) (l : List Rect), r ∈ l → pred r = true →
      pred (Rect.ofList l) = true) :
    ∀ (stack : List (ℕ × ℕ)) (results : List ℕ),
    (∀ e ∈ stack, e.1 ≤ t.currentLevel ∧ e.2 < capAt t.degree rects.length e.1 ∧
      pred (SegRTree.getRectangle t e.1 e.2) = true) →
    stack.Pairwise (Disj t.degree) →
    results.Nodup →
    (∀ j ∈ results, ∀ e ∈ stack, ¬ Covers t.degree e j) →
    (SegRTree.queryGo t pred stack results).Nodup ∧
      ∀ j, j ∈ SegRTree.queryGo t pred stack results ↔
        j ∈ results ∨ ∃ e ∈ stack, Covers t.degree e j ∧ OkLeaf rects pred j := by
  intro stack results
  induction stack, results using SegRTree.queryGo.induct t pred with
  | case1 results =>
    intro _ _ hnd _
    refine ⟨by simpa [SegRTree.queryGo] using hnd, fun j => ?_⟩
    simp [SegRTree.queryGo]
  | case2 offset stack results ih =>
    intro hstack hdisj hnd hres
    obtain ⟨hlev0, hcap0, hpred0⟩ := hstack (0, offset) (List.mem_cons_self _ _)
    have hofflt := span_lt_of_pred hwf hpE hlev0 hcap0 hpred0
    have hoff : offset < rects.length := by simpa using hofflt
    have hrect0 : SegRTree.getRectangle t 0 offset = rects.getD offset Rect.empty := by
      rw [hwf.hrect 0 offset hlev0 hcap0, leafSlice_zero, if_pos hoff,
        Rect.ofList_singleton]
    have hok : OkLeaf rects pred offset := ⟨hoff, by rw [← hrect0]; exact hpred0⟩
    have hcovhead : ∀ e ∈ stack, ¬ Covers t.degree e offset := fun e he =>
      (List.rel_of_pairwise_cons hdisj he) offset (covers_zero_iff.mpr rfl)
    have hnotmem : offset ∉ results := fun hmem =>
      hres offset hmem (0, offset) (List.mem_cons_self _ _) (covers_zero_iff.mpr rfl)
    have hstep : SegRTree.queryGo t pred ((0, offset) :: stack) results =
        SegRTree.queryGo t pred stack (results ++ [offset]) := by
      rw [SegRTree.queryGo, if_pos rfl]
    obtain ⟨ihnd, ihmem⟩ := ih (fun e he => hstack e (List.mem_cons_of_mem _ he))
      (List.pairwise_cons.mp hdisj).2
      (by
        rw [List.nodup_append]
        refine ⟨hnd, List.nodup_singleton _, ?_⟩
        intro a ha hb
        rw [List.mem_singleton] at hb
        subst hb
        exact hnotmem ha)
      (by
        intro j hj e he
        rcases List.mem_append.mp hj with hj | hj
        · exact hres j hj e (List.mem_cons_of_mem _ he)
        · rw [List.mem_singleton] at hj
          subst hj
          exact hcovhead e he)
    rw [hstep]
    refine ⟨ihnd, fun j => ?_⟩
    rw [ihmem j]
    simp only [List.mem_append, List.mem_cons, List.not_mem_nil, or_false]
    constructor
    · rintro ((hj | rfl) | ⟨e, he, hc, hokk⟩)
      · exact Or.inl hj
      · exact Or.inr ⟨(0, j), Or.inl rfl, covers_zero_iff.mpr rfl, hok⟩
      · exact Or.inr ⟨e, Or.inr he, hc, hokk⟩
    · rintro (hj | ⟨e, (rfl | he), hc, hokk⟩)
      · exact Or.inl (Or.inl hj)
      · exact Or.inl (Or.inr (covers_zero_iff.mp hc))
      · exact Or.inr ⟨e, he, hc, hokk⟩
  | case3 level offset stack results hlevel _cL _fO _ch _kp ih =>
    intro hstack hdisj hnd hres
    obtain ⟨m, rfl⟩ : ∃ m, level = m + 1 := ⟨level - 1, by omega⟩
    have hkp : _kp = (((List.range t.degree).map fun i => (m, t.degree * offset + i)).filter
        fun c => pred (SegRTree.getRectangle t c.1 c.2)) := rfl
    rw [hkp] at ih
    obtain ⟨hlevle, hcap, hpred⟩ := hstack (m + 1, offset) (List.mem_cons_self _ _)
    have hdeg2 := hwf.hdeg
    have hspan := span_lt_of_pred hwf hpE hlevle hcap hpred
    have hoffn : offset < numAt t.degree rects.length (m + 1) :=
      (lt_numAt_iff hwf.hdeg).mpr hspan
    have hcapm : t.degree * (offset + 1) ≤ capAt t.degree rects.length m := by
      rw [capAt]
      exact Nat.mul_le_mul_left _ hoffn
    have hdistrib : t.degree * (offset + 1) = t.degree * offset + t.degree := by ring
    set kept := (((List.range t.degree).map fun i => (m, t.degree * offset + i)).filter
      fun c => pred (SegRTree.getRectangle t c.1 c.2)) with hkept
    have hmem_kept : ∀ c ∈ kept, (∃ i < t.degree, c = (m, t.degree * offset + i)) ∧
        pred (SegRTree.getRectangle t c.1 c.2) = true := by
      intro c hc
      rw [hkept, List.mem_filter, List.mem_map] at hc
      obtain ⟨⟨i, hi, rfl⟩, hcp⟩ := hc
      exact ⟨⟨i, List.mem_range.mp hi, rfl⟩, hcp⟩
    have hchildgood : ∀ c ∈ kept, c.1 ≤ t.currentLevel ∧
        c.2 < capAt t.degree rects.length c.1 ∧
        pred (SegRTree.getRectangle t c.1 c.2) = true := by
      intro c hc
      obtain ⟨⟨i, hi, rfl⟩, hcp⟩ := hmem_kept c hc
      exact ⟨by omega, by simp only; omega, hcp⟩
    have hbridge : ∀ j, (Covers t.degree (m + 1, offset) j ∧ OkLeaf rects pred j) ↔
        ∃ c ∈ kept, Covers t.degree c j ∧ OkLeaf rects pred j := by
      intro j
      constructor
      · rintro ⟨hcov, hokj⟩
        obtain ⟨hc1, hc2, hcovc⟩ := child_of_covers (show 0 < t.degree by omega) hcov
        refine ⟨(m, j / t.degree ^ m), ?_, hcovc, hokj⟩
        rw [hkept, List.mem_filter]
        constructor
        · rw [List.mem_map]
          refine ⟨j / t.degree ^ m - t.degree * offset, List.mem_range.mpr (by omega), ?_⟩
          have : t.degree * offset + (j / t.degree ^ m - t.degree * offset) =
              j / t.degree ^ m := by omega
          rw [this]
        · have hcapc : j / t.degree ^ m < capAt t.degree rects.length m := by omega
          show pred (SegRTree.getRectangle t m (j / t.degree ^ m)) = true
          rw [hwf.hrect m _ (by omega) hcapc]
          exact hpUp (rects.getD j Rect.empty) _
            (getD_mem_leafSlice hcovc.1 hcovc.2 hokj.1) hokj.2
      · rintro ⟨c, hc, hcov, hokj⟩
        obtain ⟨⟨i, hi, rfl⟩, _⟩ := hmem_kept c hc
        exact ⟨covers_mono (by omega) (by omega) hcov, hokj⟩
    have hpw : (kept.reverse ++ stack).Pairwise (Disj t.degree) := by
      rw [List.pairwise_append]
      refine ⟨?_, (List.pairwise_cons.mp hdisj).2, ?_⟩
      · rw [List.pairwise_reverse]
        have hpwc : kept.Pairwise (Disj t.degree) := by
          rw [hkept]
          apply List.Pairwise.sublist (List.filter_sublist _)
          rw [List.pairwise_map]
          have hrange : (List.range t.degree).Pairwise (· < ·) := List.pairwise_lt_range _
          apply hrange.imp
          intro a b hab j hja hjb
          exact covers_disjoint (by omega) hja hjb
        exact hpwc.imp (fun h => disj_symm h)
      · intro a ha b hb
        rw [List.mem_reverse] at ha
        obtain ⟨⟨i, hi, rfl⟩, _⟩ := hmem_kept a ha
        intro j hja
        exact (List.rel_of_pairwise_cons hdisj hb) j (covers_mono (by omega) (by omega) hja)
    have hres2 : ∀ j ∈ results, ∀ e ∈ kept.reverse ++ stack, ¬ Covers t.degree e j := by
      intro j hj e he
      rcases List.mem_append.mp he with he | he
      · rw [List.mem_reverse] at he
        obtain ⟨⟨i, hi, rfl⟩, _⟩ := hmem_kept e he
        intro hcov
        exact hres j hj (m + 1, offset) (List.mem_cons_self _ _)
          (covers_mono (by omega) (by omega) hcov)
      · exact hres j hj e (List.mem_cons_of_mem _ he)
    have hgood2 : ∀ e ∈ kept.reverse ++ stack, e.1 ≤ t.currentLevel ∧
        e.2 < capAt t.degree rects.length e.1 ∧
        pred (SegRTree.getRectangle t e.1 e.2) = true := by
      intro e he
      rcases List.mem_append.mp he with he | he
      · exact hchildgood e (List.mem_reverse.mp he)
      · exact hstack e (List.mem_cons_of_mem _ he)
    have hstep : SegRTree.queryGo t pred ((m + 1, offset) :: stack) results =
        SegRTree.queryGo t pred (kept.reverse ++ stack) results := by
      rw [SegRTree.queryGo, if_neg hlevel]
      exact rfl
    obtain ⟨ihnd, ihmem⟩ := ih hgood2 hpw hnd hres2
    rw [hstep]
    refine ⟨ihnd, fun j => ?_⟩
    rw [ihmem j]
    constructor
    · rintro (hj | ⟨e, he, hc, hokk⟩)
      · exact Or.inl hj
      · rcases List.mem_append.mp he with he | he
        · rw [List.mem_reverse] at he
          obtain ⟨hcov, hokj⟩ := (hbridge j).mpr ⟨e, he, hc, hokk⟩
          exact Or.inr ⟨(m + 1, offset), List.mem_cons_self _ _, hcov, hokj⟩
        · exact Or.inr ⟨e, List.mem_cons_of_mem _ he, hc, hokk⟩
    · rintro (hj | ⟨e, he, hc, hokk⟩)
      · exact Or.inl hj
      · rcases List.mem_cons.mp he with rfl | he
        · obtain ⟨c, hcm, hcc, hco⟩ := (hbridge j).mp ⟨hc, hokk⟩
          exact Or.inr ⟨c, List.mem_append.mpr (Or.inl (List.mem_reverse.mpr hcm)), hcc, hco⟩
        · exact Or.inr ⟨e, List.mem_append.mpr (Or.inr he), hc, hokk⟩

/-- A well-formed tree's query returns exactly the set of leaves whose own
rectangle satisfies the predicate, without duplicates. -/
theorem query_spec (t : SegRTree) (rects : List Rect) (pred : Rect → Bool)
    (hwf : Wf t rects) (hpE : pred Rect.empty = false)
    (hpUp : ∀ (r : Rect) (l : List Rect), r ∈ l → pred r = true →
      pred (Rect.ofList l) = true) :
    (SegRTree.query t pred).Nodup ∧
      ∀ j, j ∈ SegRTree.query t pred ↔ OkLeaf rects pred j := by
  unfold SegRTree.query
  by_cases hempty : t.currentSize = 0
  · rw [if_pos hempty]
    refine ⟨List.nodup_nil, fun j => ?_⟩
    simp only [List.not_mem_nil, false_iff]
    rintro ⟨hj, _⟩
    rw [hwf.hsize] at hempty
    omega
  · rw [if_neg hempty]
    have hn : 0 < rects.length := by
      rw [← hwf.hsize]
      omega
    have hcap0 : (0 : ℕ) < capAt t.degree rects.length t.currentLevel :=
      capAt_pos hwf.hdeg hn _
    have henv : SegRTree.envelope t = Rect.ofList rects := by
      rw [SegRTree.envelope, hwf.hrect _ 0 le_rfl hcap0]
      congr 1
      unfold leafSlice
      rw [Nat.zero_mul, List.drop_zero, Nat.one_mul]
      exact List.take_of_length_le hwf.hroot
    by_cases hp : pred (SegRTree.envelope t) = true
    · rw [if_pos hp]
      obtain ⟨hnd, hmem⟩ := queryGo_spec t rects pred hwf hpE hpUp
        [SegRTree.root t] []
        (by
          intro e he
          rw [List.mem_singleton] at he
          subst he
          exact ⟨le_rfl, hcap0, hp⟩)
        (List.pairwise_singleton _ _) List.nodup_nil (by simp)
      refine ⟨hnd, fun j => ?_⟩
      rw [hmem j]
      simp only [List.not_mem_nil, false_or]
      constructor
      · rintro ⟨e, he, hcov, hok⟩
        exact hok
      · intro hok
        refine ⟨SegRTree.root t, List.mem_singleton.mpr rfl, ⟨?_, ?_⟩, hok⟩
        · simp [SegRTree.root]
        · show j < (0 + 1) * t.degree ^ t.currentLevel
          rw [Nat.zero_add, Nat.one_mul]
          exact lt_of_lt_of_le hok.1 hwf.hroot
    · rw [if_neg hp]
      refine ⟨by simp [SegRTree.queryGo], fun j => ?_⟩
      simp only [SegRTree.queryGo, List.not_mem_nil, false_iff]
      rintro ⟨hj, hpj⟩
      have hmem : rects.getD j Rect.empty ∈ rects := by
        rw [List.getD_eq_getElem _ _ hj]
        exact List.getElem_mem _
      exact hp (henv ▸ hpUp _ _ hmem hpj)

/-! ### The bulk-loaded tree satisfies the invariant -/

theorem liAt_mono {d n : ℕ} : ∀ {a b : ℕ}, a ≤ b → liAt d n a ≤ liAt d n b := by
  intro a b hab
  unfold liAt
  exact Finset.sum_le_sum_of_subset (Finset.range_subset.mpr hab)

theorem getD_map_range {α : Type} (f : ℕ → α) (d0 : α) {i k : ℕ} (hik : i < k) :
    ((List.range k).map f).getD i d0 = f i := by
  rw [List.getD_eq_getElem _ _ (by simpa using hik)]
  simp

theorem copyIntoSlice_length {tree items : List Rect} {idx : ℕ}
    (h : idx + items.length ≤ tree.length) :
    (SegRTree.copyIntoSlice tree idx items).length = tree.length := by
  unfold SegRTree.copyIntoSlice
  rw [List.length_append, List.length_append, List.length_take, List.length_drop]
  omega

theorem copyIntoSlice_getD_lt {tree items : List Rect} {idx p : ℕ}
    (hfit : idx + items.length ≤ tree.length) (h : p < idx) :
    (SegRTree.copyIntoSlice tree idx items).getD p Rect.empty = tree.getD p Rect.empty := by
  unfold SegRTree.copyIntoSlice
  rw [List.append_assoc, List.getD_append _ _ _ _ (by rw [List.length_take]; omega)]
  rw [List.getD_eq_getElem _ _ (by rw [List.length_take]; omega),
    List.getElem_take, List.getD_eq_getElem _ _ (by omega)]

theorem copyIntoSlice_getD_mid {tree items : List Rect} {idx p : ℕ}
    (hfit : idx + items.length ≤ tree.length) (h1 : idx ≤ p) (h2 : p < idx + items.length) :
    (SegRTree.copyIntoSlice tree idx items).getD p Rect.empty =
      items.getD (p - idx) Rect.empty := by
  unfold SegRTree.copyIntoSlice
  rw [List.append_assoc, List.getD_append_right _ _ _ _ (by rw [List.length_take]; omega)]
  rw [List.length_take, min_eq_left (by omega)]
  rw [List.getD_append _ _ _ _ (by omega)]

theorem copyIntoSlice_getD_ge {tree items : List Rect} {idx p : ℕ}
    (hfit : idx + items.length ≤ tree.length) (h : idx + items.length ≤ p) :
    (SegRTree.copyIntoSlice tree idx items).getD p Rect.empty = tree.getD p Rect.empty := by
  unfold SegRTree.copyIntoSlice
  rw [List.append_assoc, List.getD_append_right _ _ _ _ (by rw [List.length_take]; omega)]
  rw [List.length_take, min_eq_left (by omega)]
  rw [List.getD_append_right _ _ _ _ (by omega)]
  rw [List.getD_eq_getD_get? , List.getD_eq_getD_get?]
  congr 1
  rw [List.get?_drop]
  congr 1
  omega

theorem slice_concat (l : List Rect) {a b c : ℕ} (hab : a ≤ b) (hbc : b ≤ c) :
    (l.take b).drop a ++ (l.take c).drop b = (l.take c).drop a := by
  have h1 : l.take b = (l.take c).take b := by
    rw [List.take_take, min_eq_left hbc]
  rw [h1, List.drop_take]
  have h2 : (l.take c).drop b = ((l.take c).drop a).drop (b - a) := by
    rw [List.drop_drop]
    congr 1
    omega
  rw [h2, List.take_append_drop]

theorem chunksOf_eq {d : ℕ} (hd : 0 < d) :
    ∀ (k : ℕ) (l : List Rect), l.length = d * k →
    SegRTree.chunksOf d l = (List.range k).map fun o => (l.drop (d * o)).take d := by
  intro k
  induction k with
  | zero =>
    intro l hl
    have : l = [] := List.eq_nil_of_length_eq_zero (by omega)
    subst this
    rw [SegRTree.chunksOf, dif_pos (Or.inl rfl)]
    simp
  | succ k ih =>
    intro l hl
    have hlen : (l.drop d).length = d * k := by
      rw [List.length_drop, hl, Nat.mul_succ]
      omega
    have hlpos : l ≠ [] := by
      apply List.ne_nil_of_length_pos
      rw [hl]
      positivity
    rw [SegRTree.chunksOf, dif_neg (by push_neg; exact ⟨hlpos, by omega⟩), ih _ hlen]
    rw [List.range_succ_eq_map, List.map_cons, List.map_map]
    have hfun : (fun o => ((l.drop d).drop (d * o)).take d) =
        ((fun o => (l.drop (d * o)).take d) ∘ Nat.succ) := by
      funext o
      simp only [Function.comp]
      rw [List.drop_drop]
      congr 2
      rw [Nat.mul_succ]
      omega
    rw [hfun]
    rfl

/-- Folding the bounding boxes of `d` consecutive nodes of one level yields the
bounding box of the parent's leaf span. -/
theorem ofList_chunk_slices {d : ℕ} (rects : List Rect) (s o : ℕ) :
    Rect.ofList ((List.range d).map fun i => Rect.ofList (leafSlice d rects s (d * o + i))) =
      Rect.ofList (leafSlice d rects (s + 1) o) := by
  suffices h : ∀ k, Rect.ofList ((List.range k).map fun i =>
      Rect.ofList (leafSlice d rects s (d * o + i))) =
      Rect.ofList ((rects.take ((d * o + k) * d ^ s)).drop ((d * o) * d ^ s)) by
    rw [h d]
    have e1 : (d * o) * d ^ s = o * d ^ (s + 1) := by
      rw [pow_succ]
      ring
    have e2 : (d * o + d) * d ^ s = (o + 1) * d ^ (s + 1) := by
      rw [pow_succ]
      ring
    simp only [leafSlice]
    rw [← e1, ← e2]
  intro k
  induction k with
  | zero =>
    simp only [List.range_zero, List.map_nil, Rect.ofList_nil, Nat.add_zero]
    rw [List.drop_take, Nat.sub_self, List.take_zero, Rect.ofList_nil]
  | succ k ih =>
    rw [List.range_succ, List.map_append, Rect.ofList_append, ih]
    simp only [List.map_cons, List.map_nil, Rect.ofList_singleton]
    rw [← Rect.ofList_append]
    have hsw : leafSlice d rects s (d * o + k) =
        (rects.take ((d * o + k + 1) * d ^ s)).drop ((d * o + k) * d ^ s) := rfl
    rw [hsw, slice_concat rects (Nat.mul_le_mul_right _ (by omega))
      (Nat.mul_le_mul_right _ (by omega))]
    rfl

theorem getD_replicate_empty {k p : ℕ} :
    (List.replicate k Rect.empty).getD p Rect.empty = Rect.empty := by
  by_cases h : p < k
  · rw [List.getD_eq_getElem _ _ (by simpa using h)]
    exact List.getElem_replicate _ _
  · rw [List.getD_eq_default _ _ (by simpa using h)]

theorem numAt_le_capAt {d : ℕ} (hd : 2 ≤ d) (n ℓ : ℕ) :
    numAt d n ℓ ≤ capAt d n ℓ := by
  rw [capAt, numAt_le_iff hd]
  have h1 : n ≤ numAt d n (ℓ + 1) * d ^ (ℓ + 1) :=
    le_ceilDivN_mul (Nat.pos_pow_of_pos _ (by omega)) n
  calc n ≤ numAt d n (ℓ + 1) * d ^ (ℓ + 1) := h1
    _ = d * numAt d n (ℓ + 1) * d ^ ℓ := by rw [pow_succ]; ring

theorem n_le_numAt_mul {d : ℕ} (hd : 2 ≤ d) (n ℓ : ℕ) :
    n ≤ numAt d n ℓ * d ^ ℓ :=
  le_ceilDivN_mul (Nat.pos_pow_of_pos _ (by omega)) n

theorem numAt_height_eq_one {d n : ℕ} (hd : 2 ≤ d) (hh : 1 ≤ heightFor d n) :
    numAt d n (heightFor d n) = 1 := by
  have h1 : numAt d n (heightFor d n) ≤ 1 := (heightFor_le_iff hd n _).mp le_rfl
  have h2 : 1 < n := by
    by_contra hc
    rw [heightFor, dif_neg (by omega)] at hh
    omega
  have h3 : 0 < numAt d n (heightFor d n) := by
    rw [lt_numAt_iff hd]
    simpa using (by omega : 0 < n)
  omega

/-- The stage invariant of the bulk-load level loop: after the levels
`0 .. s` have been written, every written slot holds the bounding box of its
leaf span and every other slot is still empty. -/
structure BInv (d : ℕ) (rects : List Rect) (s : ℕ) (tr : List Rect) : Prop where
  hlen : tr.length = liAt d rects.length (heightFor d rects.length) + 1
  hw : ∀ ℓ, ℓ ≤ s → ∀ o, o < numAt d rects.length ℓ →
    tr.getD (liAt d rects.length ℓ + o) Rect.empty = Rect.ofList (leafSlice d rects ℓ o)
  he : ∀ p, (∀ ℓ, ℓ ≤ s →
      ¬(liAt d rects.length ℓ ≤ p ∧ p < liAt d rects.length ℓ + numAt d rects.length ℓ)) →
    tr.getD p Rect.empty = Rect.empty

theorem written_le_next {d : ℕ} (hd : 2 ≤ d) (n ℓ : ℕ) :
    liAt d n ℓ + numAt d n ℓ ≤ liAt d n (ℓ + 1) := by
  rw [liAt_succ]
  have := numAt_le_capAt hd n ℓ
  omega

theorem n_le_size {d : ℕ} (hd : 2 ≤ d) (n : ℕ) :
    n ≤ liAt d n (heightFor d n) + 1 := by
  by_cases hn : n ≤ 1
  · omega
  · have hh : 1 ≤ heightFor d n := by
      rw [heightFor, dif_pos ⟨by omega, hd⟩]
      omega
    have h1 : n ≤ capAt d n 0 := n_le_capAt_zero hd n
    have h2 : liAt d n 1 = capAt d n 0 := by
      rw [liAt_succ, liAt_zero, Nat.zero_add]
    have h3 : liAt d n 1 ≤ liAt d n (heightFor d n) := liAt_mono hh
    omega

theorem bulk_base {d : ℕ} (hd : 2 ≤ d) (rects : List Rect) :
    BInv d rects 0 (SegRTree.copyIntoSlice
      (List.replicate (liAt d rects.length (heightFor d rects.length) + 1) Rect.empty)
      0 rects) := by
  have hfit0 := n_le_size hd rects.length
  have htree0 : SegRTree.copyIntoSlice
      (List.replicate (liAt d rects.length (heightFor d rects.length) + 1) Rect.empty)
      0 rects =
      rects ++ List.replicate
        (liAt d rects.length (heightFor d rects.length) + 1 - rects.length) Rect.empty := by
    unfold SegRTree.copyIntoSlice
    rw [List.take_zero, List.nil_append, Nat.zero_add, List.drop_replicate]
  rw [htree0]
  refine ⟨?_, ?_, ?_⟩
  · rw [List.length_append, List.length_replicate]
    omega
  · intro ℓ hℓ o ho
    have hℓ0 : ℓ = 0 := by omega
    subst hℓ0
    rw [numAt_zero] at ho
    rw [liAt_zero, Nat.zero_add, List.getD_append _ _ _ _ (by omega),
      leafSlice_zero, if_pos ho, Rect.ofList_singleton]
  · intro p hp
    have hp0 := hp 0 le_rfl
    rw [liAt_zero, numAt_zero, Nat.zero_add] at hp0
    have hpn : rects.length ≤ p := by omega
    rw [List.getD_append_right _ _ _ _ hpn]
    exact getD_replicate_empty

theorem bulk_step {d : ℕ} (hd : 2 ≤ d) (rects : List Rect) {s : ℕ} {tr : List Rect}
    (hs : s + 1 ≤ heightFor d rects.length) (hinv : BInv d rects s tr) :
    BInv d rects (s + 1)
      (SegRTree.buildLevel d tr (liAt d rects.length s) (liAt d rects.length (s + 1))) := by
  obtain ⟨hlen0, hw0, he0⟩ := hinv
  set n := rects.length with hn
  set h := heightFor d n with hh
  have hli1 : liAt d n s + capAt d n s = liAt d n (s + 1) := (liAt_succ d n s).symm
  have hli2 : liAt d n (s + 1) ≤ liAt d n h := liAt_mono hs
  have hcapnum : capAt d n s = d * numAt d n (s + 1) := rfl
  have hfit : liAt d n (s + 1) + numAt d n (s + 1) ≤ liAt d n h + 1 := by
    rcases Nat.lt_or_ge (s + 1) h with hlt | hge
    · have h1 := written_le_next hd n (s + 1)
      have h2 : liAt d n (s + 1 + 1) ≤ liAt d n h := liAt_mono (by omega)
      omega
    · have hsh : s + 1 = h := by omega
      have h1 : numAt d n (s + 1) = 1 := by
        rw [hsh]
        exact numAt_height_eq_one hd (by omega)
      omega
  -- the previous level's slots
  set prev := (tr.drop (liAt d n s)).take (liAt d n (s + 1) - liAt d n s) with hprev
  have hprevlen : prev.length = capAt d n s := by
    rw [hprev, List.length_take, List.length_drop, hlen0]
    omega
  have hprevget : ∀ c, c < capAt d n s →
      prev.getD c Rect.empty = Rect.ofList (leafSlice d rects s c) := by
    intro c hc
    have hpos : liAt d n s + c < tr.length := by
      rw [hlen0]
      omega
    have hgd : prev.getD c Rect.empty = tr.getD (liAt d n s + c) Rect.empty := by
      rw [hprev]
      rw [List.getD_eq_getElem _ _ (by
        rw [List.length_take, List.length_drop, hlen0]
        omega)]
      rw [List.getElem_take, List.getElem_drop]
      rw [List.getD_eq_getElem _ _ hpos]
    rw [hgd]
    rcases Nat.lt_or_ge c (numAt d n s) with hcs | hcs
    · exact hw0 s le_rfl c hcs
    · have hempty : tr.getD (liAt d n s + c) Rect.empty = Rect.empty := by
        apply he0
        intro ℓ hℓ
        rcases Nat.lt_or_ge ℓ s with hls | hls
        · have h1 := written_le_next hd n ℓ
          have h2 : liAt d n (ℓ + 1) ≤ liAt d n s := liAt_mono hls
          omega
        · have hℓs : ℓ = s := by omega
          subst hℓs
          omega
      rw [hempty, leafSlice_eq_nil ?_, Rect.ofList_nil]
      calc n ≤ numAt d n s * d ^ s := n_le_numAt_mul hd n s
        _ ≤ c * d ^ s := Nat.mul_le_mul_right _ hcs
  -- the next level's values
  have hchunks : SegRTree.chunksOf d prev =
      (List.range (numAt d n (s + 1))).map fun o => (prev.drop (d * o)).take d :=
    chunksOf_eq (by omega) _ prev (by rw [hprevlen, hcapnum])
  set nextItems := (SegRTree.chunksOf d prev).map Rect.ofList with hni
  have hnextlen : nextItems.length = numAt d n (s + 1) := by
    rw [hni, hchunks, List.length_map, List.length_map, List.length_range]
  have hnextget : ∀ o, o < numAt d n (s + 1) →
      nextItems.getD o Rect.empty = Rect.ofList (leafSlice d rects (s + 1) o) := by
    intro o ho
    have hdofit : d * o + d ≤ capAt d n s := by
      rw [hcapnum]
      calc d * o + d = d * (o + 1) := by ring
        _ ≤ d * numAt d n (s + 1) := Nat.mul_le_mul_left _ (by omega)
    have hchunk : (prev.drop (d * o)).take d =
        (List.range d).map fun i => Rect.ofList (leafSlice d rects s (d * o + i)) := by
      apply List.ext_getElem
      · rw [List.length_take, List.length_drop, hprevlen, List.length_map,
          List.length_range]
        omega
      · intro i hi1 hi2
        rw [List.getElem_take, List.getElem_drop]
        have hlt : d * o + i < capAt d n s := by
          rw [List.length_map, List.length_range] at hi2
          omega
        have : prev[d * o + i] = prev.getD (d * o + i) Rect.empty := by
          rw [List.getD_eq_getElem _ _ (by rw [hprevlen]; exact hlt)]
        rw [this, hprevget _ hlt]
        rw [List.getElem_map, List.getElem_range]
    rw [hni, hchunks, List.map_map, getD_map_range _ _ ho]
    simp only [Function.comp]
    rw [hchunk, ofList_chunk_slices]
  -- the copy
  have hbuild : SegRTree.buildLevel d tr (liAt d n s) (liAt d n (s + 1)) =
      SegRTree.copyIntoSlice tr (liAt d n (s + 1)) nextItems := rfl
  have hfit2 : liAt d n (s + 1) + nextItems.length ≤ tr.length := by
    rw [hnextlen, hlen0]
    exact hfit
  rw [hbuild]
  refine ⟨?_, ?_, ?_⟩
  · rw [copyIntoSlice_length hfit2]
    exact hlen0
  · intro ℓ hℓ o ho
    simp only [← hn] at ho ⊢
    rcases Nat.lt_or_ge ℓ (s + 1) with hls | hls
    · have hlt : liAt d n ℓ + o < liAt d n (s + 1) := by
        have h1 := written_le_next hd n ℓ
        have h2 : liAt d n (ℓ + 1) ≤ liAt d n (s + 1) := liAt_mono (by omega)
        omega
      rw [copyIntoSlice_getD_lt hfit2 hlt]
      exact hw0 ℓ (by omega) o ho
    · have hℓs : ℓ = s + 1 := by omega
      subst hℓs
      rw [copyIntoSlice_getD_mid hfit2 (by omega) (by rw [hnextlen]; omega)]
      rw [Nat.add_sub_cancel_left]
      exact hnextget o ho
  · intro p hp
    simp only [← hn] at hp
    rcases Nat.lt_or_ge p (liAt d n (s + 1)) with hlt | hge
    · rw [copyIntoSlice_getD_lt hfit2 hlt]
      exact he0 p (fun ℓ hℓ => hp ℓ (by omega))
    · rcases Nat.lt_or_ge p (liAt d n (s + 1) + numAt d n (s + 1)) with hmid | hbig
      · exact absurd ⟨hge, hmid⟩ (hp (s + 1) le_rfl)
      · rw [copyIntoSlice_getD_ge hfit2 (by rw [hnextlen]; exact hbig)]
        exact he0 p (fun ℓ hℓ => hp ℓ (by omega))

/-- The bulk-loaded tree is well formed. -/
theorem newLoaded_wf (degree0 : ℕ) (rects : List Rect) :
    Wf (SegRTree.newLoaded degree0 rects) rects := by
  have hd : 2 ≤ max degree0 2 := le_max_right _ _
  set d := max degree0 2 with hdd
  set n := rects.length with hn
  set h := heightFor d n with hh
  have hli : calculateLevelIndices d n = (List.range (h + 1)).map (liAt d n) :=
    calculateLevelIndices_eq hd n
  have hlilen : (calculateLevelIndices d n).length = h + 1 := by
    rw [hli, List.length_map, List.length_range]
  have hligd : ∀ ℓ, ℓ ≤ h → (calculateLevelIndices d n).getD ℓ 0 = liAt d n ℓ := by
    intro ℓ hℓ
    rw [hli]
    exact getD_map_range _ _ (by omega)
  have htsz : (calculateLevelIndices d n).getD ((calculateLevelIndices d n).length - 1) 0 + 1
      = liAt d n h + 1 := by
    rw [hlilen, Nat.add_sub_cancel, hligd h le_rfl]
  have hfold : ∀ s, s ≤ h →
      BInv d rects s ((List.range' 1 s).foldl
        (fun tr level => SegRTree.buildLevel d tr
          ((calculateLevelIndices d n).getD (level - 1) 0)
          ((calculateLevelIndices d n).getD level 0))
        (SegRTree.copyIntoSlice (List.replicate (liAt d n h + 1) Rect.empty) 0 rects)) := by
    intro s
    induction s with
    | zero =>
      intro _
      exact bulk_base hd rects
    | succ s ih =>
      intro hs1
      rw [List.range'_concat, List.foldl_append]
      simp only [List.foldl_cons, List.foldl_nil]
      have e2 : 1 + 1 * s = s + 1 := by omega
      rw [e2, Nat.add_sub_cancel, hligd s (Nat.le_of_succ_le hs1), hligd (s + 1) hs1]
      exact bulk_step hd rects hs1 (ih (Nat.le_of_succ_le hs1))
  have hbinv := hfold h le_rfl
  set t := SegRTree.newLoaded degree0 rects with ht
  have hcl : t.currentLevel = h := by
    show (calculateLevelIndices d n).length - 1 = h
    rw [hlilen]
    omega
  have htree : t.tree =
      (List.range' 1 h).foldl
        (fun tr level => SegRTree.buildLevel d tr
          ((calculateLevelIndices d n).getD (level - 1) 0)
          ((calculateLevelIndices d n).getD level 0))
        (SegRTree.copyIntoSlice (List.replicate (liAt d n h + 1) Rect.empty) 0 rects) := by
    show (List.range' 1 ((calculateLevelIndices d n).length - 1)).foldl _
        (SegRTree.copyIntoSlice
          (List.replicate
            ((calculateLevelIndices d n).getD ((calculateLevelIndices d n).length - 1) 0 + 1)
            Rect.empty)
          0 rects) = _
    rw [htsz, hlilen, Nat.add_sub_cancel]
  rw [← htree] at hbinv
  refine ⟨hd, rfl, ?_, ?_⟩
  · show rects.length ≤ t.degree ^ t.currentLevel
    rw [hcl]
    exact n_le_pow_heightFor hd n
  · intro ℓ o hℓ ho
    rw [hcl] at hℓ
    have ho2 : o < capAt d n ℓ := ho
    have hgr : SegRTree.getRectangle t ℓ o = t.tree.getD (liAt d n ℓ + o) Rect.empty := by
      show t.tree.getD ((calculateLevelIndices d n).getD ℓ 0 + o) Rect.empty = _
      rw [hligd ℓ hℓ]
    rw [hgr]
    show t.tree.getD (liAt d n ℓ + o) Rect.empty = Rect.ofList (leafSlice d rects ℓ o)
    rcases Nat.lt_or_ge o (numAt d n ℓ) with h1 | h1
    · exact hbinv.hw ℓ hℓ o h1
    · have hnil : leafSlice d rects ℓ o = [] := by
        apply leafSlice_eq_nil
        calc rects.length ≤ numAt d n ℓ * d ^ ℓ := n_le_numAt_mul hd n ℓ
          _ ≤ o * d ^ ℓ := Nat.mul_le_mul_right _ h1
      have hempty : t.tree.getD (liAt d n ℓ + o) Rect.empty = Rect.empty := by
        apply hbinv.he
        intro m hm
        simp only [← hn]
        rcases lt_trichotomy m ℓ with hc | hc | hc
        · have ha := written_le_next hd n m
          have hb : liAt d n (m + 1) ≤ liAt d n ℓ := liAt_mono (by omega)
          omega
        · subst hc
          omega
        · have ha : liAt d n (ℓ + 1) ≤ liAt d n m := liAt_mono (by omega)
          have hb : liAt d n ℓ + capAt d n ℓ = liAt d n (ℓ + 1) := (liAt_succ d n ℓ).symm
          omega
      rw [hempty, hnil, Rect.ofList_nil]

/-! ### The incrementally filled tree satisfies the invariant -/

/-- The level at which the ancestor-expansion loop of `add` stops when it
starts at leaf offset `k`: the least `j` with `k / d^j = 0`. -/
def pathLevel (d k : ℕ) : ℕ :=
  if h : k = 0 ∨ d < 2 then 0 else pathLevel d (k / d) + 1
termination_by k
decreasing_by
  push_neg at h
  exact Nat.div_lt_self (by omega) (by omega)

theorem pathLevel_le_iff {d : ℕ} (hd : 2 ≤ d) : ∀ k j, pathLevel d k ≤ j ↔ k < d ^ j := by
  intro k
  induction k using Nat.strong_induction_on with
  | _ k ih =>
    intro j
    by_cases hk : k = 0
    · subst hk
      rw [pathLevel, dif_pos (Or.inl rfl)]
      simp [Nat.pos_pow_of_pos j (by omega : 0 < d)]
    · rw [pathLevel, dif_neg (by omega)]
      cases j with
      | zero =>
        simp only [pow_zero]
        omega
      | succ j =>
        rw [Nat.add_le_add_iff_right,
          ih (k / d) (Nat.div_lt_self (by omega) (by omega)) j]
        rw [pow_succ]
        exact Nat.div_lt_iff_lt_mul (by omega)

theorem lt_pow_pathLevel {d : ℕ} (hd : 2 ≤ d) (k : ℕ) : k < d ^ pathLevel d k :=
  (pathLevel_le_iff hd k _).mp le_rfl

theorem pathLevel_mono {d : ℕ} (hd : 2 ≤ d) {k1 k2 : ℕ} (h : k1 ≤ k2) :
    pathLevel d k1 ≤ pathLevel d k2 := by
  rw [pathLevel_le_iff hd]
  exact lt_of_le_of_lt h (lt_pow_pathLevel hd k2)

theorem div_pow_zero_iff {d : ℕ} (hd : 2 ≤ d) (k j : ℕ) :
    k / d ^ j = 0 ↔ pathLevel d k ≤ j := by
  rw [pathLevel_le_iff hd, Nat.div_eq_zero_iff (Nat.pos_pow_of_pos j (by omega))]

theorem heightFor_eq_pathLevel {d : ℕ} (hd : 2 ≤ d) : ∀ n, heightFor d n = pathLevel d (n - 1) := by
  intro n
  induction n using Nat.strong_induction_on with
  | _ n ih =>
    by_cases hn : 1 < n
    · rw [heightFor, dif_pos ⟨hn, hd⟩, ih _ (ceilDivN_lt_self hd hn)]
      have hstep : pathLevel d (n - 1) = pathLevel d ((n - 1) / d) + 1 := by
        rw [pathLevel, dif_neg (by omega)]
      rw [hstep]
      congr 2
      show ceilDivN n d - 1 = (n - 1) / d
      have : n + d - 1 = (n - 1) + d := by omega
      rw [ceilDivN, this, Nat.add_div_right _ (by omega), Nat.add_sub_cancel]
    · rw [heightFor, dif_neg (by omega)]
      have h1 : n - 1 = 0 := by omega
      rw [h1, pathLevel, dif_pos (Or.inl rfl)]

theorem getD_set_self {l : List Rect} {i : ℕ} {a : Rect} (h : i < l.length) :
    (l.set i a).getD i Rect.empty = a := by
  rw [List.getD_eq_getElem _ _ (by rwa [List.length_set]), List.getElem_set_self]

theorem getD_set_ne {l : List Rect} {i p : ℕ} {a : Rect} (h : i ≠ p) :
    (l.set i a).getD p Rect.empty = l.getD p Rect.empty := by
  by_cases hp : p < l.length
  · rw [List.getD_eq_getElem _ _ (by rwa [List.length_set]),
      List.getD_eq_getElem _ _ hp, List.getElem_set_ne h]
  · rw [List.getD_eq_default _ _ (by rw [List.length_set]; omega),
      List.getD_eq_default _ _ (by omega)]

/-- Merging the bounding box of a longer tail absorbs that of a shorter one. -/
theorem ofList_drop_absorb (l : List Rect) {a b : ℕ} (hab : a ≤ b) :
    Rect.merge (Rect.ofList (l.drop b)) (Rect.ofList (l.drop a)) =
      Rect.ofList (l.drop a) := by
  have hsplit : l.drop a = (l.take b).drop a ++ l.drop b := by
    by_cases hbl : b ≤ l.length
    · have h1 := slice_concat l hab hbl
      rw [List.take_length] at h1
      exact h1.symm
    · have e1 : l.drop b = [] := List.drop_eq_nil_of_le (by omega)
      have e2 : l.take b = l := List.take_of_length_le (by omega)
      rw [e1, e2, List.append_nil]
  rw [hsplit, Rect.ofList_append, ← Rect.merge_assoc, Rect.merge_comm (Rect.ofList (l.drop b)),
    Rect.merge_assoc, Rect.merge_idem]

theorem leafSlice_eq_drop {d : ℕ} {rects : List Rect} {ℓ o : ℕ}
    (h : rects.length ≤ (o + 1) * d ^ ℓ) :
    leafSlice d rects ℓ o = rects.drop (o * d ^ ℓ) := by
  unfold leafSlice
  rw [List.take_of_length_le h]

theorem leafSlice_snoc_out {d : ℕ} {rects : List Rect} {r : Rect} {ℓ o : ℕ}
    (h : ¬(o * d ^ ℓ ≤ rects.length ∧ rects.length < (o + 1) * d ^ ℓ)) :
    leafSlice d (rects ++ [r]) ℓ o = leafSlice d rects ℓ o := by
  push_neg at h
  rcases Nat.lt_or_ge rects.length (o * d ^ ℓ) with hc | hc
  · rw [leafSlice_eq_nil (show (rects ++ [r]).length ≤ o * d ^ ℓ by
        rw [List.length_append, List.length_singleton]
        omega),
      leafSlice_eq_nil (by omega)]
  · have h2 := h hc
    unfold leafSlice
    rw [List.take_append_of_le_length (by omega)]

theorem leafSlice_snoc_in {d : ℕ} {rects : List Rect} {r : Rect} {ℓ o : ℕ}
    (h1 : o * d ^ ℓ ≤ rects.length) (h2 : rects.length < (o + 1) * d ^ ℓ) :
    leafSlice d (rects ++ [r]) ℓ o = rects.drop (o * d ^ ℓ) ++ [r] := by
  rw [leafSlice_eq_drop (by rw [List.length_append]; simp; omega)]
  rw [List.drop_append_of_le_length h1]

theorem slot_position_ne {d c ℓ o j oj : ℕ} (hd : 2 ≤ d)
    (ho : o < capAt d c ℓ) (hoj : oj < capAt d c j) (hne : ℓ ≠ j ∨ o ≠ oj) :
    liAt d c ℓ + o ≠ liAt d c j + oj := by
  rcases Nat.lt_trichotomy ℓ j with hc | hc | hc
  · have h1 : liAt d c ℓ + capAt d c ℓ = liAt d c (ℓ + 1) := (liAt_succ d c ℓ).symm
    have h2 : liAt d c (ℓ + 1) ≤ liAt d c j := liAt_mono hc
    omega
  · subst hc
    rcases hne with hne | hne
    · omega
    · omega
  · have h1 : liAt d c j + capAt d c j = liAt d c (j + 1) := (liAt_succ d c j).symm
    have h2 : liAt d c (j + 1) ≤ liAt d c ℓ := liAt_mono hc
    omega

/-- Mid-loop slot values during `add`: levels below `j` already include the new
leaf, levels from `j` on still hold the old state. -/
def MidVal (d : ℕ) (rects : List Rect) (r : Rect) (clOld j ℓ o : ℕ) : Rect :=
  if ℓ < j then Rect.ofList (leafSlice d (rects ++ [r]) ℓ o)
  else if ℓ ≤ clOld then Rect.ofList (leafSlice d rects ℓ o)
  else Rect.empty

theorem addLoop_zero (D : ℕ) (li : List ℕ) (tree : List Rect) (rect : Rect) (level : ℕ) :
    SegRTree.addLoop D li tree rect level 0 =
      (tree.set (li.getD level 0 + 0)
        (rect.merge (tree.getD (li.getD level 0 + 0) Rect.empty)), level) := by
  rw [SegRTree.addLoop, dif_pos (Or.inl rfl)]

theorem addLoop_succ {D : ℕ} (hD : 2 ≤ D) (li : List ℕ) (tree : List Rect) (rect : Rect)
    (level : ℕ) {offset : ℕ} (ho : offset ≠ 0) :
    SegRTree.addLoop D li tree rect level offset =
      SegRTree.addLoop D li
        (tree.set (li.getD level 0 + offset)
          (rect.merge (tree.getD (li.getD level 0 + offset) Rect.empty)))
        (if offset = 1 then
          (rect.merge (tree.getD (li.getD level 0 + offset) Rect.empty)).merge
            ((tree.set (li.getD level 0 + offset)
              (rect.merge (tree.getD (li.getD level 0 + offset) Rect.empty))).getD
              (li.getD level 0 + offset - 1) Rect.empty)
        else rect.merge (tree.getD (li.getD level 0 + offset) Rect.empty))
        (level + 1) (offset / D) := by
  rw [SegRTree.addLoop, dif_neg (by omega)]

theorem calcLi_getD {d : ℕ} (hd : 2 ≤ d) (n ℓ : ℕ) (hℓ : ℓ ≤ heightFor d n) :
    (calculateLevelIndices d n).getD ℓ 0 = liAt d n ℓ := by
  rw [calculateLevelIndices_eq hd n]
  exact getD_map_range _ _ (by omega)

theorem merge_inc_absorb (l : List Rect) (r : Rect) {a b : ℕ} (hab : a ≤ b) :
    Rect.merge (Rect.merge (Rect.ofList (l.drop b)) r) (Rect.ofList (l.drop a)) =
      Rect.merge (Rect.ofList (l.drop a)) r := by
  rw [Rect.merge_assoc, Rect.merge_comm r, ← Rect.merge_assoc, ofList_drop_absorb l hab]

/-- The expansion loop of `add`, run from level `j` upward, turns the old slot
values into the new ones and stops at `pathLevel`. -/
theorem addLoop_spec {D c : ℕ} (hD : 2 ≤ D) (rects : List Rect) (r : Rect)
    (hkc : rects.length < c) :
    ∀ (jrem j : ℕ) (tree : List Rect) (inc : Rect) (b : ℕ),
      pathLevel D rects.length - j = jrem →
      j ≤ pathLevel D rects.length →
      tree.length = liAt D c (heightFor D c) + 1 →
      (∀ ℓ o, ℓ ≤ heightFor D c → o < capAt D c ℓ →
        tree.getD (liAt D c ℓ + o) Rect.empty =
          MidVal D rects r (pathLevel D (rects.length - 1)) j ℓ o) →
      inc = Rect.merge (Rect.ofList (rects.drop b)) r →
      (rects.length / D ^ j) * D ^ j ≤ b →
      (pathLevel D (rects.length - 1) < j → b = 0) →
      (SegRTree.addLoop D (calculateLevelIndices D c) tree inc j
          (rects.length / D ^ j)).2 = pathLevel D rects.length ∧
      (SegRTree.addLoop D (calculateLevelIndices D c) tree inc j
          (rects.length / D ^ j)).1.length = liAt D c (heightFor D c) + 1 ∧
      (∀ ℓ o, ℓ ≤ heightFor D c → o < capAt D c ℓ →
        (SegRTree.addLoop D (calculateLevelIndices D c) tree inc j
            (rects.length / D ^ j)).1.getD (liAt D c ℓ + o) Rect.empty =
          MidVal D rects r (pathLevel D (rects.length - 1))
            (pathLevel D rects.length + 1) ℓ o) := by
  have hHc : heightFor D c = pathLevel D (c - 1) := heightFor_eq_pathLevel hD c
  have hplH : pathLevel D rects.length ≤ heightFor D c := by
    rw [hHc]
    exact pathLevel_mono hD (by omega)
  have hc0 : 0 < c := by omega
  have hclle : pathLevel D (rects.length - 1) ≤ pathLevel D rects.length :=
    pathLevel_mono hD (by omega)
  intro jrem
  induction jrem with
  | zero =>
    intro j tree inc b hrem hj hlen hmid hinc hb hb0
    have hjeq : j = pathLevel D rects.length := by omega
    subst hjeq
    have hoz : rects.length / D ^ pathLevel D rects.length = 0 :=
      (div_pow_zero_iff hD _ _).mpr le_rfl
    rw [hoz, addLoop_zero]
    have hgd : (calculateLevelIndices D c).getD (pathLevel D rects.length) 0 =
        liAt D c (pathLevel D rects.length) := calcLi_getD hD c _ hplH
    simp only [hgd]
    have hpow := lt_pow_pathLevel hD rects.length
    have hposlt : liAt D c (pathLevel D rects.length) + 0 < tree.length := by
      have := @liAt_mono D c _ _ hplH
      omega
    have hcap0 : (0 : ℕ) < capAt D c (pathLevel D rects.length) := capAt_pos hD hc0 _
    have hstored : tree.getD (liAt D c (pathLevel D rects.length) + 0) Rect.empty =
        MidVal D rects r (pathLevel D (rects.length - 1)) (pathLevel D rects.length)
          (pathLevel D rects.length) 0 := hmid _ 0 hplH hcap0
    refine ⟨trivial, by rw [List.length_set]; exact hlen, ?_⟩
    intro ℓ o hℓ ho
    by_cases hlo : ℓ = pathLevel D rects.length ∧ o = 0
    · obtain ⟨rfl, rfl⟩ := hlo
      rw [getD_set_self hposlt, hstored]
      have hsliceall : leafSlice D (rects ++ [r]) (pathLevel D rects.length) 0 =
          rects ++ [r] := by
        rw [leafSlice_eq_drop (by
          rw [List.length_append, List.length_singleton]
          omega)]
        rw [Nat.zero_mul, List.drop_zero]
      have hR : MidVal D rects r (pathLevel D (rects.length - 1))
          (pathLevel D rects.length + 1) (pathLevel D rects.length) 0 =
          Rect.merge (Rect.ofList rects) r := by
        unfold MidVal
        rw [if_pos (by omega), hsliceall, Rect.ofList_append, Rect.ofList_singleton]
      rw [hR]
      unfold MidVal
      rw [if_neg (by omega)]
      by_cases hcl : pathLevel D rects.length ≤ pathLevel D (rects.length - 1)
      · rw [if_pos hcl]
        have hsl : leafSlice D rects (pathLevel D rects.length) 0 = rects := by
          rw [leafSlice_eq_drop (by omega), Nat.zero_mul, List.drop_zero]
        rw [hsl, hinc]
        have h := merge_inc_absorb rects r (Nat.zero_le b)
        rw [List.drop_zero] at h
        exact h
      · rw [if_neg hcl, Rect.merge_empty_right, hinc, hb0 (by omega), List.drop_zero]
    · have hne : ℓ ≠ pathLevel D rects.length ∨ o ≠ 0 := by tauto
      have hpos2 := slot_position_ne hD ho hcap0 hne
      rw [getD_set_ne (Ne.symm hpos2), hmid ℓ o hℓ ho]
      by_cases hℓlt : ℓ < pathLevel D rects.length
      · unfold MidVal
        rw [if_pos hℓlt, if_pos (by omega)]
      · by_cases hℓeq : ℓ = pathLevel D rects.length
        · have honz : o ≠ 0 := fun h0 => hlo ⟨hℓeq, h0⟩
          have h1x : 1 * D ^ ℓ ≤ o * D ^ ℓ := Nat.mul_le_mul_right _ (by omega)
          have hkD : rects.length < D ^ ℓ := by
            rw [hℓeq]
            exact hpow
          have hsn : leafSlice D (rects ++ [r]) ℓ o = [] := leafSlice_eq_nil (by
            rw [List.length_append, List.length_singleton]
            omega)
          have hso : leafSlice D rects ℓ o = [] := leafSlice_eq_nil (by omega)
          have hR : MidVal D rects r (pathLevel D (rects.length - 1))
              (pathLevel D rects.length + 1) ℓ o = Rect.empty := by
            unfold MidVal
            rw [if_pos (by omega), hsn, Rect.ofList_nil]
          have hL : MidVal D rects r (pathLevel D (rects.length - 1))
              (pathLevel D rects.length) ℓ o = Rect.empty := by
            unfold MidVal
            rw [if_neg (by omega), hso, Rect.ofList_nil, ite_self]
          rw [hL, hR]
        · have hR : MidVal D rects r (pathLevel D (rects.length - 1))
              (pathLevel D rects.length + 1) ℓ o = Rect.empty := by
            unfold MidVal
            rw [if_neg (by omega), if_neg (by omega)]
          have hL : MidVal D rects r (pathLevel D (rects.length - 1))
              (pathLevel D rects.length) ℓ o = Rect.empty := by
            unfold MidVal
            rw [if_neg (by omega), if_neg (by omega)]
          rw [hL, hR]
  | succ jrem ih =>
    intro j tree inc b hrem hj hlen hmid hinc hb hb0
    have hjlt : j < pathLevel D rects.length := by omega
    have hjH : j ≤ heightFor D c := by omega
    have hj1H : j + 1 ≤ heightFor D c := by omega
    have hDj : 0 < D ^ j := Nat.pos_pow_of_pos j (by omega)
    have honz : rects.length / D ^ j ≠ 0 := fun h0 =>
      absurd ((div_pow_zero_iff hD _ _).mp h0) (by omega)
    have hgdj : (calculateLevelIndices D c).getD j 0 = liAt D c j := calcLi_getD hD c j hjH
    obtain ⟨hlow, hhigh⟩ := @div_mul_le_and_lt (D ^ j) rects.length hDj
    have hocap : rects.length / D ^ j < capAt D c j := by
      have h1 : rects.length / D ^ j < numAt D c j := by
        rw [lt_numAt_iff hD]
        omega
      exact lt_of_lt_of_le h1 (numAt_le_capAt hD c j)
    have hjcl : j ≤ pathLevel D (rects.length - 1) := by
      rcases Nat.eq_zero_or_pos j with hj0 | hj1
      · omega
      · by_contra hcon
        push_neg at hcon
        have h1 : pathLevel D (rects.length - 1) ≤ j - 1 := by omega
        have h2 : rects.length - 1 < D ^ (j - 1) := (pathLevel_le_iff hD _ _).mp h1
        have h3 : D ^ j ≤ rects.length := by
          have h4 : ¬ (rects.length < D ^ j) := fun hc =>
            absurd ((pathLevel_le_iff hD _ _).mpr hc) (by omega)
          omega
        have h5 : D ^ j = D ^ (j - 1) * D := by
          rw [← pow_succ]
          congr 1
          omega
        have h6 : 0 < D ^ (j - 1) := Nat.pos_pow_of_pos _ (by omega)
        have h9 : D ^ (j - 1) * 2 ≤ D ^ (j - 1) * D := Nat.mul_le_mul_left _ hD
        omega
    have hstored : tree.getD (liAt D c j + rects.length / D ^ j) Rect.empty =
        Rect.ofList (rects.drop (rects.length / D ^ j * D ^ j)) := by
      rw [hmid j _ hjH hocap]
      unfold MidVal
      rw [if_neg (by omega), if_pos hjcl, leafSlice_eq_drop (by omega)]
    rw [addLoop_succ hD (calculateLevelIndices D c) tree inc j honz]
    simp only [hgdj]
    have hv : Rect.merge inc (tree.getD (liAt D c j + rects.length / D ^ j) Rect.empty) =
        Rect.merge (Rect.ofList (rects.drop (rects.length / D ^ j * D ^ j))) r := by
      rw [hstored, hinc]
      exact merge_inc_absorb rects r hb
    rw [hv]
    have hlen1 : (tree.set (liAt D c j + rects.length / D ^ j)
        (Rect.merge (Rect.ofList (rects.drop (rects.length / D ^ j * D ^ j))) r)).length =
        liAt D c (heightFor D c) + 1 := by
      rw [List.length_set]
      exact hlen
    have hmid1 : ∀ ℓ o, ℓ ≤ heightFor D c → o < capAt D c ℓ →
        (tree.set (liAt D c j + rects.length / D ^ j)
          (Rect.merge (Rect.ofList (rects.drop (rects.length / D ^ j * D ^ j))) r)).getD
          (liAt D c ℓ + o) Rect.empty =
        MidVal D rects r (pathLevel D (rects.length - 1)) (j + 1) ℓ o := by
      intro ℓ o hℓ ho
      by_cases hsame : ℓ = j ∧ o = rects.length / D ^ j
      · obtain ⟨h1eq, h2eq⟩ := hsame
        rw [h1eq, h2eq]
        have hposP : liAt D c j + rects.length / D ^ j < tree.length := by
          have e1 : liAt D c j + capAt D c j = liAt D c (j + 1) := (liAt_succ D c j).symm
          have e2 : liAt D c (j + 1) ≤ liAt D c (heightFor D c) := liAt_mono hj1H
          omega
        rw [getD_set_self hposP]
        unfold MidVal
        rw [if_pos (by omega), leafSlice_snoc_in hlow hhigh, Rect.ofList_append,
          Rect.ofList_singleton]
      · have hne : ℓ ≠ j ∨ o ≠ rects.length / D ^ j := by tauto
        have hpos2 := slot_position_ne hD ho hocap hne
        rw [getD_set_ne (Ne.symm hpos2), hmid ℓ o hℓ ho]
        by_cases hℓlt : ℓ < j
        · unfold MidVal
          rw [if_pos hℓlt, if_pos (by omega)]
        · by_cases hℓeq : ℓ = j
          · have honeq : o ≠ rects.length / D ^ j := fun h0 => hsame ⟨hℓeq, h0⟩
            have hout : leafSlice D (rects ++ [r]) ℓ o = leafSlice D rects ℓ o := by
              apply leafSlice_snoc_out
              intro hcon2
              have hoeq : rects.length / D ^ ℓ = o :=
                Nat.div_eq_of_lt_le hcon2.1 hcon2.2
              rw [hℓeq] at hoeq
              exact honeq hoeq.symm
            have hR : MidVal D rects r (pathLevel D (rects.length - 1)) (j + 1) ℓ o =
                Rect.ofList (leafSlice D rects ℓ o) := by
              unfold MidVal
              rw [if_pos (by omega), hout]
            have hL : MidVal D rects r (pathLevel D (rects.length - 1)) j ℓ o =
                Rect.ofList (leafSlice D rects ℓ o) := by
              unfold MidVal
              rw [if_neg (by omega), if_pos (by omega)]
            rw [hL, hR]
          · have hR : MidVal D rects r (pathLevel D (rects.length - 1)) (j + 1) ℓ o =
                (if ℓ ≤ pathLevel D (rects.length - 1) then
                  Rect.ofList (leafSlice D rects ℓ o) else Rect.empty) := by
              unfold MidVal
              rw [if_neg (by omega)]
            have hL : MidVal D rects r (pathLevel D (rects.length - 1)) j ℓ o =
                (if ℓ ≤ pathLevel D (rects.length - 1) then
                  Rect.ofList (leafSlice D rects ℓ o) else Rect.empty) := by
              unfold MidVal
              rw [if_neg (by omega)]
            rw [hL, hR]
    have hdiv : rects.length / D ^ j / D = rects.length / D ^ (j + 1) := by
      rw [Nat.div_div_eq_div_mul, ← pow_succ]
    by_cases ho1 : rects.length / D ^ j = 1
    · rw [if_pos ho1]
      have hcap0j : (0 : ℕ) < capAt D c j := capAt_pos hD hc0 j
      have hne2 : liAt D c j + rects.length / D ^ j ≠ liAt D c j + 0 :=
        slot_position_ne hD hocap hcap0j (Or.inr honz)
      have hsl0 : leafSlice D rects j 0 = rects.take (D ^ j) := by
        unfold leafSlice
        have e1 : (0 + 1) * D ^ j = D ^ j := by omega
        rw [e1, Nat.zero_mul, List.drop_zero]
      have hsib : (tree.set (liAt D c j + rects.length / D ^ j)
          (Rect.merge (Rect.ofList (rects.drop (rects.length / D ^ j * D ^ j))) r)).getD
          (liAt D c j + rects.length / D ^ j - 1) Rect.empty =
          Rect.ofList (rects.take (D ^ j)) := by
        have e : liAt D c j + rects.length / D ^ j - 1 = liAt D c j + 0 := by
          rw [ho1, Nat.add_sub_cancel, Nat.add_zero]
        rw [e, getD_set_ne hne2, hmid j 0 hjH hcap0j]
        unfold MidVal
        rw [if_neg (by omega), if_pos hjcl, hsl0]
      have hrect2 : Rect.merge
          (Rect.merge (Rect.ofList (rects.drop (rects.length / D ^ j * D ^ j))) r)
          ((tree.set (liAt D c j + rects.length / D ^ j)
            (Rect.merge (Rect.ofList (rects.drop (rects.length / D ^ j * D ^ j))) r)).getD
            (liAt D c j + rects.length / D ^ j - 1) Rect.empty) =
          Rect.merge (Rect.ofList (rects.drop 0)) r := by
        rw [hsib, List.drop_zero]
        have e2 : rects.length / D ^ j * D ^ j = D ^ j := by
          rw [ho1, Nat.one_mul]
        rw [e2, Rect.merge_assoc, Rect.merge_comm r, ← Rect.merge_assoc,
          Rect.merge_comm (Rect.ofList (rects.drop (D ^ j))) (Rect.ofList (rects.take (D ^ j))),
          ← Rect.ofList_append, List.take_append_drop]
      have hnext0 : rects.length / D ^ (j + 1) = 0 := by
        rw [← hdiv, ho1]
        exact Nat.div_eq_of_lt (by omega)
      rw [hrect2, hdiv]
      exact ih (j + 1)
        (tree.set (liAt D c j + rects.length / D ^ j)
          (Rect.merge (Rect.ofList (rects.drop (rects.length / D ^ j * D ^ j))) r))
        (Rect.merge (Rect.ofList (rects.drop 0)) r) 0 (by omega) (by omega) hlen1 hmid1 rfl
        (by rw [hnext0]; omega) (fun _ => rfl)
    · rw [if_neg ho1, hdiv]
      refine ih (j + 1)
        (tree.set (liAt D c j + rects.length / D ^ j)
          (Rect.merge (Rect.ofList (rects.drop (rects.length / D ^ j * D ^ j))) r))
        (Rect.merge (Rect.ofList (rects.drop (rects.length / D ^ j * D ^ j))) r)
        (rects.length / D ^ j * D ^ j) (by omega) (by omega) hlen1 hmid1 rfl ?_ ?_
      · have h1 : rects.length / D ^ (j + 1) * D ≤ rects.length / D ^ j := by
          rw [← hdiv]
          exact Nat.div_mul_le_self _ _
        have h2 : rects.length / D ^ (j + 1) * D ^ (j + 1) =
            rects.length / D ^ (j + 1) * D * D ^ j := by
          rw [pow_succ]
          ring
        rw [h2]
        exact Nat.mul_le_mul_right _ h1
      · intro hcon
        exfalso
        have hcj : pathLevel D (rects.length - 1) = j := by omega
        have h3 : rects.length - 1 < D ^ j := by
          rw [← hcj]
          exact lt_pow_pathLevel hD _
        have h7 : 1 ≤ rects.length / D ^ j := Nat.one_le_iff_ne_zero.mpr honz
        have h4 : 1 * D ^ j ≤ rects.length / D ^ j * D ^ j :=
          Nat.mul_le_mul_right _ h7
        have h5 : rects.length = D ^ j := by omega
        have h6 : rects.length / D ^ j = 1 := by
          rw [h5]
          exact Nat.div_self hDj
        exact ho1 h6

theorem pathLevel_zero (d : ℕ) : pathLevel d 0 = 0 := by
  rw [pathLevel, dif_pos (Or.inl rfl)]

theorem calcLi_length {d : ℕ} (hd : 2 ≤ d) (n : ℕ) :
    (calculateLevelIndices d n).length = heightFor d n + 1 := by
  rw [calculateLevelIndices_eq hd n]
  simp

theorem calcLi_last {d : ℕ} (hd : 2 ≤ d) (n : ℕ) :
    (calculateLevelIndices d n).getD ((calculateLevelIndices d n).length - 1) 0 =
      liAt d n (heightFor d n) := by
  rw [calcLi_length hd n, Nat.add_sub_cancel]
  exact calcLi_getD hd n _ le_rfl

theorem numAt_mono_n {d : ℕ} (hd : 2 ≤ d) {n1 n2 : ℕ} (h : n1 ≤ n2) (ℓ : ℕ) :
    numAt d n1 ℓ ≤ numAt d n2 ℓ := by
  rw [numAt_le_iff hd]
  exact le_trans h (n_le_numAt_mul hd n2 ℓ)

theorem capAt_mono_n {d : ℕ} (hd : 2 ≤ d) {n1 n2 : ℕ} (h : n1 ≤ n2) (ℓ : ℕ) :
    capAt d n1 ℓ ≤ capAt d n2 ℓ := by
  rw [capAt, capAt]
  exact Nat.mul_le_mul_left d (numAt_mono_n hd h (ℓ + 1))

/-- Invariant of a tree built by `new` followed by a sequence of successful
`add`s of `rects`, with capacity `c`. -/
structure AInv (d0 c : ℕ) (t : SegRTree) (rects : List Rect) : Prop where
  hdg : t.degree = max d0 2
  hmx : t.maxSize = c
  hsz : t.currentSize = rects.length
  hlv : t.currentLevel = pathLevel (max d0 2) (rects.length - 1)
  hlif : t.levelIndices = calculateLevelIndices (max d0 2) c
  hlnf : t.tree.length = liAt (max d0 2) c (heightFor (max d0 2) c) + 1
  hvalf : ∀ ℓ o, ℓ ≤ heightFor (max d0 2) c → o < capAt (max d0 2) c ℓ →
    t.tree.getD (liAt (max d0 2) c ℓ + o) Rect.empty =
      if ℓ ≤ pathLevel (max d0 2) (rects.length - 1) then
        Rect.ofList (leafSlice (max d0 2) rects ℓ o)
      else Rect.empty

theorem new_ainv (d0 c : ℕ) : AInv d0 c (SegRTree.new d0 c) [] := by
  have hD : 2 ≤ max d0 2 := le_max_right _ _
  refine ⟨rfl, rfl, rfl, ?_, rfl, ?_, ?_⟩
  · show (0 : ℕ) = pathLevel (max d0 2) (List.length ([] : List Rect) - 1)
    rw [List.length_nil, Nat.zero_sub, pathLevel_zero]
  · show (List.replicate ((calculateLevelIndices (max d0 2) c).getD
        ((calculateLevelIndices (max d0 2) c).length - 1) 0 + 1) Rect.empty).length =
        liAt (max d0 2) c (heightFor (max d0 2) c) + 1
    rw [List.length_replicate, calcLi_last hD c]
  · intro ℓ o hℓ ho
    have h1 : (SegRTree.new d0 c).tree.getD (liAt (max d0 2) c ℓ + o) Rect.empty =
        Rect.empty := getD_replicate_empty
    rw [h1]
    have hnil : leafSlice (max d0 2) [] ℓ o = [] := leafSlice_eq_nil (by simp)
    rw [hnil, Rect.ofList_nil, ite_self]

theorem add_ainv {d0 c : ℕ} {t : SegRTree} {rects : List Rect}
    (hinv : AInv d0 c t rects) (r : Rect) (hkc : rects.length < c) :
    AInv d0 c (SegRTree.add t r).1 (rects ++ [r]) := by
  obtain ⟨hdg, hmx, hsz, hlv, hlif, hlnf, hvalf⟩ := hinv
  have hD : 2 ≤ max d0 2 := le_max_right _ _
  have hclle : pathLevel (max d0 2) (rects.length - 1) ≤ pathLevel (max d0 2) rects.length :=
    pathLevel_mono hD (by omega)
  have hadd : (SegRTree.add t r).1 =
      { t with
          tree := (SegRTree.addLoop t.degree t.levelIndices t.tree r 0 t.currentSize).1
          currentLevel := (SegRTree.addLoop t.degree t.levelIndices t.tree r 0 t.currentSize).2
          currentSize := t.currentSize + 1 } := by
    rw [SegRTree.add, if_neg (by omega)]
  have h00 : rects.length / (max d0 2) ^ 0 = rects.length := by
    rw [pow_zero, Nat.div_one]
  have hmid0 : ∀ ℓ o, ℓ ≤ heightFor (max d0 2) c → o < capAt (max d0 2) c ℓ →
      t.tree.getD (liAt (max d0 2) c ℓ + o) Rect.empty =
        MidVal (max d0 2) rects r (pathLevel (max d0 2) (rects.length - 1)) 0 ℓ o := by
    intro ℓ o hℓ ho
    have hM : MidVal (max d0 2) rects r (pathLevel (max d0 2) (rects.length - 1)) 0 ℓ o =
        (if ℓ ≤ pathLevel (max d0 2) (rects.length - 1) then
          Rect.ofList (leafSlice (max d0 2) rects ℓ o) else Rect.empty) := by
      unfold MidVal
      rw [if_neg (by omega)]
    rw [hvalf ℓ o hℓ ho, hM]
  have hspec := addLoop_spec hD rects r hkc (pathLevel (max d0 2) rects.length) 0
      t.tree r rects.length (by omega) (Nat.zero_le _) hlnf hmid0
      (by rw [List.drop_length, Rect.ofList_nil, Rect.merge_empty_left])
      (Nat.div_mul_le_self rects.length ((max d0 2) ^ 0))
      (fun h => absurd h (Nat.not_lt_zero _))
  rw [h00] at hspec
  obtain ⟨hs2, hs1, hs3⟩ := hspec
  rw [hadd]
  refine ⟨hdg, hmx, ?_, ?_, hlif, ?_, ?_⟩
  · show t.currentSize + 1 = (rects ++ [r]).length
    rw [hsz, List.length_append, List.length_singleton]
  · show (SegRTree.addLoop t.degree t.levelIndices t.tree r 0 t.currentSize).2 =
        pathLevel (max d0 2) ((rects ++ [r]).length - 1)
    rw [hdg, hlif, hsz, hs2, List.length_append, List.length_singleton,
      Nat.add_sub_cancel]
  · show (SegRTree.addLoop t.degree t.levelIndices t.tree r 0 t.currentSize).1.length =
        liAt (max d0 2) c (heightFor (max d0 2) c) + 1
    rw [hdg, hlif, hsz]
    exact hs1
  · intro ℓ o hℓ ho
    show (SegRTree.addLoop t.degree t.levelIndices t.tree r 0 t.currentSize).1.getD
        (liAt (max d0 2) c ℓ + o) Rect.empty = _
    rw [hdg, hlif, hsz, hs3 ℓ o hℓ ho, List.length_append, List.length_singleton,
      Nat.add_sub_cancel]
    by_cases hc2 : ℓ ≤ pathLevel (max d0 2) rects.length
    · unfold MidVal
      rw [if_pos (by omega), if_pos hc2]
    · unfold MidVal
      rw [if_neg (by omega), if_neg (by omega), if_neg hc2]

theorem addList_ainv {d0 c : ℕ} (rects : List Rect) :
    rects.length ≤ c → AInv d0 c (SegRTree.addList (SegRTree.new d0 c) rects) rects := by
  induction rects using List.reverseRecOn with
  | nil => exact fun _ => new_ainv d0 c
  | append_singleton rs r ih =>
    intro hle
    rw [List.length_append, List.length_singleton] at hle
    unfold SegRTree.addList
    rw [List.foldl_append]
    simp only [List.foldl_cons, List.foldl_nil]
    exact add_ainv (ih (by omega)) r (by omega)

theorem ainv_wf {d0 c : ℕ} {t : SegRTree} {rects : List Rect} (hinv : AInv d0 c t rects)
    (hlc : rects.length ≤ c) : Wf t rects := by
  obtain ⟨hdg, hmx, hsz, hlv, hlif, hlnf, hvalf⟩ := hinv
  have hD : 2 ≤ max d0 2 := le_max_right _ _
  refine ⟨by rw [hdg]; exact hD, hsz, ?_, ?_⟩
  · rw [hdg, hlv]
    have := lt_pow_pathLevel hD (rects.length - 1)
    omega
  · intro ℓ o hℓ ho
    have hplH : pathLevel (max d0 2) (rects.length - 1) ≤ heightFor (max d0 2) c := by
      rw [heightFor_eq_pathLevel hD]
      exact pathLevel_mono hD (by omega)
    have hℓp : ℓ ≤ pathLevel (max d0 2) (rects.length - 1) := by
      rw [hlv] at hℓ
      exact hℓ
    have hℓH : ℓ ≤ heightFor (max d0 2) c := le_trans hℓp hplH
    have ho2 : o < capAt (max d0 2) c ℓ := by
      rw [hdg] at ho
      exact lt_of_lt_of_le ho (capAt_mono_n hD hlc ℓ)
    show t.tree.getD (t.levelIndices.getD ℓ 0 + o) Rect.empty =
        Rect.ofList (leafSlice t.degree rects ℓ o)
    rw [hlif, calcLi_getD hD c ℓ hℓH, hvalf ℓ o hℓH ho2, if_pos hℓp, hdg]

/-- A tree built by `new` + repeated `add` satisfies the structural invariant. -/
theorem addList_wf {d0 c : ℕ} (rects : List Rect) (h : rects.length ≤ c) :
    Wf (SegRTree.addList (SegRTree.new d0 c) rects) rects :=
  ainv_wf (addList_ainv rects h) h

/-- C1: for every packed R-tree — any requested degree, any number of leaves,
bulk-loaded (`new_loaded`) or built incrementally to capacity (`new` + `add`) —
and every rectangle `Q`, `query_rect(Q)` returns exactly the set of leaf
indices whose leaf rectangle intersects `Q`: sound, complete, duplicate-free. -/
theorem C1_query_rect_exact (degree0 : ℕ) (rects : List Rect) (Q : Rect) :
    ((SegRTree.queryRect (SegRTree.newLoaded degree0 rects) Q).Nodup ∧
      ∀ j, j ∈ SegRTree.queryRect (SegRTree.newLoaded degree0 rects) Q ↔
        j < rects.length ∧ (rects.getD j Rect.empty).intersects Q = true) ∧
    ((SegRTree.queryRect
        (SegRTree.addList (SegRTree.new degree0 rects.length) rects) Q).Nodup ∧
      ∀ j, j ∈ SegRTree.queryRect
          (SegRTree.addList (SegRTree.new degree0 rects.length) rects) Q ↔
        j < rects.length ∧ (rects.getD j Rect.empty).intersects Q = true) := by
  constructor
  · exact query_spec _ rects _ (newLoaded_wf degree0 rects) rfl
      (fun r l hm hp => Rect.intersects_ofList_of_mem hm hp)
  · exact query_spec _ rects _ (addList_wf rects le_rfl) rfl
      (fun r l hm hp => Rect.intersects_ofList_of_mem hm hp)

/-- C9: on a partially filled incremental tree (capacity `c`, only
`rects.length ≤ c` leaves added so far), `query_rect` is already exact:
each `add` expands every ancestor slot of the new leaf, so the unsealed tree
answers queries correctly. -/
theorem C9_partial_tree_query (degree0 c : ℕ) (rects : List Rect) (Q : Rect)
    (h : rects.length ≤ c) :
    (SegRTree.queryRect (SegRTree.addList (SegRTree.new degree0 c) rects) Q).Nodup ∧
    ∀ j, j ∈ SegRTree.queryRect (SegRTree.addList (SegRTree.new degree0 c) rects) Q ↔
      j < rects.length ∧ (rects.getD j Rect.empty).intersects Q = true :=
  query_spec _ rects _ (addList_wf rects h) rfl
    (fun r l hm hp => Rect.intersects_ofList_of_mem hm hp)

theorem C9_partial_tree_query_witness :
    ([Rect.mk 0 0 1 1, Rect.mk 2 2 3 3] : List Rect).length ≤ 5 ∧
    ((SegRTree.queryRect
        (SegRTree.addList (SegRTree.new 16 5) [Rect.mk 0 0 1 1, Rect.mk 2 2 3 3])
        (Rect.mk 0 0 1 1)).Nodup ∧
      ∀ j, j ∈ SegRTree.queryRect
          (SegRTree.addList (SegRTree.new 16 5) [Rect.mk 0 0 1 1, Rect.mk 2 2 3 3])
          (Rect.mk 0 0 1 1) ↔
        j < ([Rect.mk 0 0 1 1, Rect.mk 2 2 3 3] : List Rect).length ∧
          (([Rect.mk 0 0 1 1, Rect.mk 2 2 3 3] : List Rect).getD j
            Rect.empty).intersects (Rect.mk 0 0 1 1) = true) :=
  ⟨by decide,
    C9_partial_tree_query 16 5 [Rect.mk 0 0 1 1, Rect.mk 2 2 3 3] (Rect.mk 0 0 1 1)
      (by decide)⟩

/-- C10: calling `add` on a tree whose leaf count equals its capacity returns
the capacity-exceeded error and leaves the tree — hence every later query —
completely unchanged. -/
theorem C10_add_at_capacity (t : SegRTree) (r : Rect) (h : t.currentSize = t.maxSize) :
    (SegRTree.add t r).2 = Except.error "Exceeded capacity" ∧
    (SegRTree.add t r).1 = t ∧
    ∀ pred, SegRTree.query (SegRTree.add t r).1 pred = SegRTree.query t pred := by
  have h1 : SegRTree.add t r = (t, Except.error "Exceeded capacity") := by
    rw [SegRTree.add, if_pos (by omega)]
  rw [h1]
  exact ⟨rfl, rfl, fun _ => rfl⟩

theorem C10_add_at_capacity_witness :
    (SegRTree.new 16 0).currentSize = (SegRTree.new 16 0).maxSize ∧
    ((SegRTree.add (SegRTree.new 16 0) (Rect.mk 0 0 1 1)).2 =
        Except.error "Exceeded capacity" ∧
      (SegRTree.add (SegRTree.new 16 0) (Rect.mk 0 0 1 1)).1 = SegRTree.new 16 0 ∧
      ∀ pred, SegRTree.query (SegRTree.add (SegRTree.new 16 0) (Rect.mk 0 0 1 1)).1 pred =
        SegRTree.query (SegRTree.new 16 0) pred) :=
  ⟨rfl, C10_add_at_capacity (SegRTree.new 16 0) (Rect.mk 0 0 1 1) rfl⟩

theorem intersects_true_comm {a b : Rect} (h : Rect.intersects a b = true) :
    Rect.intersects b a = true := by
  cases a <;> cases b <;> simp_all [Rect.intersects, ge_iff_le] <;> tauto

theorem intersects_ofList_both {l1 l2 : List Rect} {a b : Rect}
    (ha : a ∈ l1) (hb : b ∈ l2) (h : Rect.intersects a b = true) :
    Rect.intersects (Rect.ofList l1) (Rect.ofList l2) = true := by
  have h1 : Rect.intersects (Rect.ofList l1) b = true :=
    Rect.intersects_ofList_of_mem ha h
  have h2 : Rect.intersects b (Rect.ofList l1) = true := intersects_true_comm h1
  have h3 : Rect.intersects (Rect.ofList l2) (Rect.ofList l1) = true :=
    Rect.intersects_ofList_of_mem hb h2
  exact intersects_true_comm h3

/-- Both components of an ordered leaf pair are under the respective nodes of a
self-scan stack entry. -/
def CoversP (d : ℕ) (e : ℕ × ℕ × ℕ × ℕ) (p : ℕ × ℕ) : Prop :=
  Covers d (e.1, e.2.1) p.1 ∧ Covers d (e.2.2.1, e.2.2.2) p.2

/-- An ordered leaf pair the self-intersection scan must emit. -/
def OkPair (rects : List Rect) (p : ℕ × ℕ) : Prop :=
  p.1 < p.2 ∧ p.2 < rects.length ∧
    (rects.getD p.1 Rect.empty).intersects (rects.getD p.2 Rect.empty) = true

/-- Pair-span disjointness of two self-scan stack entries. -/
def DisjP (d : ℕ) (e1 e2 : ℕ × ℕ × ℕ × ℕ) : Prop :=
  ∀ p : ℕ × ℕ, CoversP d e1 p → ¬ CoversP d e2 p

theorem disjP_symm {d : ℕ} {e1 e2 : ℕ × ℕ × ℕ × ℕ} (h : DisjP d e1 e2) : DisjP d e2 e1 :=
  fun p h2 h1 => h p h1 h2

/-- Addressability and shape of a self-scan stack entry. -/
def GoodEntry (t : SegRTree) (n : ℕ) (e : ℕ × ℕ × ℕ × ℕ) : Prop :=
  (e.1 = e.2.2.1 ∨ e.1 + 1 = e.2.2.1) ∧ e.1 ≤ t.currentLevel ∧
    e.2.2.1 ≤ t.currentLevel ∧ e.2.1 < capAt t.degree n e.1 ∧
    e.2.2.2 < capAt t.degree n e.2.2.1

theorem selfGo_cons (t : SegRTree) (la oa lb ob : ℕ) (stack : List (ℕ × ℕ × ℕ × ℕ))
    (results : List (ℕ × ℕ)) :
    SegRTree.selfGo t ((la, oa, lb, ob) :: stack) results =
      if (SegRTree.getRectangle t la oa).intersects (SegRTree.getRectangle t lb ob)
          = false then
        SegRTree.selfGo t stack results
      else if la = 0 ∧ lb = 0 then
        SegRTree.selfGo t stack
          (if oa < ob then results ++ [(oa, ob)] else results)
      else if la = lb then
        SegRTree.selfGo t
          (((List.range t.degree).map fun i =>
            (la - 1, t.degree * oa + i, lb, ob)).reverse ++ stack) results
      else if la + 1 = lb then
        SegRTree.selfGo t
          (((List.range t.degree).map fun i =>
            (la, oa, lb - 1, t.degree * ob + i)).reverse ++ stack) results
      else SegRTree.selfGo t stack results := by
  rw [SegRTree.selfGo]

/-- Main loop invariant of the self-intersection descent: given well-shaped,
addressable, pairwise pair-disjoint stack entries, the loop emits exactly the
still-covered ordered pairs `(i, j)` with `i < j` and intersecting leaf
rectangles, each exactly once. -/
theorem selfGo_spec (t : SegRTree) (rects : List Rect) (hwf : Wf t rects) :
    ∀ (stack : List (ℕ × ℕ × ℕ × ℕ)) (results : List (ℕ × ℕ)),
    (∀ e ∈ stack, GoodEntry t rects.length e) →
    stack.Pairwise (DisjP t.degree) →
    results.Nodup →
    (∀ p ∈ results, ∀ e ∈ stack, ¬ CoversP t.degree e p) →
    (SegRTree.selfGo t stack results).Nodup ∧
      ∀ p : ℕ × ℕ, p ∈ SegRTree.selfGo t stack results ↔
        p ∈ results ∨ ∃ e ∈ stack, CoversP t.degree e p ∧ OkPair rects p := by
  intro stack results
  induction stack, results using SegRTree.selfGo.induct t with
  | case1 results =>
    intro _ _ hnd _
    refine ⟨by simpa [SegRTree.selfGo] using hnd, fun p => ?_⟩
    simp [SegRTree.selfGo]
  | case2 la oa lb ob stack results _rA _rB hfalse ih =>
    intro hstack hdisj hnd hres
    have hfe : (SegRTree.getRectangle t la oa).intersects (SegRTree.getRectangle t lb ob)
        = false := hfalse
    rw [selfGo_cons, if_pos hfe]
    obtain ⟨hsh, hla, hlb, hoa, hob⟩ := hstack (la, oa, lb, ob) (List.mem_cons_self _ _)
    replace hla : la ≤ t.currentLevel := hla
    replace hlb : lb ≤ t.currentLevel := hlb
    replace hoa : oa < capAt t.degree rects.length la := hoa
    replace hob : ob < capAt t.degree rects.length lb := hob
    have hdead : ∀ p : ℕ × ℕ, CoversP t.degree (la, oa, lb, ob) p →
        ¬ OkPair rects p := by
      intro p hcov hok
      obtain ⟨hc1, hc2⟩ := hcov
      obtain ⟨hij, hjn, hint⟩ := hok
      have hin : p.1 < rects.length := by omega
      have hma : rects.getD p.1 Rect.empty ∈ leafSlice t.degree rects la oa :=
        getD_mem_leafSlice hc1.1 hc1.2 hin
      have hmb : rects.getD p.2 Rect.empty ∈ leafSlice t.degree rects lb ob :=
        getD_mem_leafSlice hc2.1 hc2.2 hjn
      have hup := intersects_ofList_both hma hmb hint
      rw [← hwf.hrect la oa hla hoa, ← hwf.hrect lb ob hlb hob, hfe] at hup
      exact Bool.false_ne_true hup
    obtain ⟨ihnd, ihmem⟩ := ih (fun e he => hstack e (List.mem_cons_of_mem _ he))
      (List.pairwise_cons.mp hdisj).2 hnd
      (fun p hp e he => hres p hp e (List.mem_cons_of_mem _ he))
    refine ⟨ihnd, fun p => ?_⟩
    rw [ihmem p]
    constructor
    · rintro (hp | ⟨e, he, hc, hok⟩)
      · exact Or.inl hp
      · exact Or.inr ⟨e, List.mem_cons_of_mem _ he, hc, hok⟩
    · rintro (hp | ⟨e, he, hc, hok⟩)
      · exact Or.inl hp
      · rcases List.mem_cons.mp he with rfl | he
        · exact absurd hok (hdead p hc)
        · exact Or.inr ⟨e, he, hc, hok⟩
  | case3 la oa lb ob stack results _rA _rB hT h00 ih =>
    intro hstack hdisj hnd hres
    obtain ⟨h0a, h0b⟩ := h00
    subst h0a
    subst h0b
    have hTe : ¬ (SegRTree.getRectangle t 0 oa).intersects (SegRTree.getRectangle t 0 ob)
        = false := hT
    rw [selfGo_cons, if_neg hTe, if_pos ⟨rfl, rfl⟩]
    obtain ⟨hsh, hla, hlb, hoa, hob⟩ := hstack (0, oa, 0, ob) (List.mem_cons_self _ _)
    replace hla : 0 ≤ t.currentLevel := hla
    replace hlb : 0 ≤ t.currentLevel := hlb
    replace hoa : oa < capAt t.degree rects.length 0 := hoa
    replace hob : ob < capAt t.degree rects.length 0 := hob
    have hTt : (SegRTree.getRectangle t 0 oa).intersects (SegRTree.getRectangle t 0 ob)
        = true := by
      cases hbool : (SegRTree.getRectangle t 0 oa).intersects (SegRTree.getRectangle t 0 ob)
      · exact absurd hbool hTe
      · rfl
    have hoan : oa < rects.length := by
      have hs := @span_lt_of_pred t rects hwf
        (fun r => r.intersects (SegRTree.getRectangle t 0 ob)) rfl 0 oa hla hoa hTt
      simpa using hs
    have hobn : ob < rects.length := by
      have hs := @span_lt_of_pred t rects hwf
        (fun r => (SegRTree.getRectangle t 0 oa).intersects r)
        (Rect.intersects_empty_right _) 0 ob hlb hob hTt
      simpa using hs
    have hrA : SegRTree.getRectangle t 0 oa = rects.getD oa Rect.empty := by
      rw [hwf.hrect 0 oa hla hoa, leafSlice_zero, if_pos hoan, Rect.ofList_singleton]
    have hrB : SegRTree.getRectangle t 0 ob = rects.getD ob Rect.empty := by
      rw [hwf.hrect 0 ob hlb hob, leafSlice_zero, if_pos hobn, Rect.ofList_singleton]
    have hintab : (rects.getD oa Rect.empty).intersects (rects.getD ob Rect.empty)
        = true := by
      rw [← hrA, ← hrB]
      exact hTt
    have hcovp : ∀ p : ℕ × ℕ, CoversP t.degree (0, oa, 0, ob) p ↔ p = (oa, ob) := by
      intro p
      constructor
      · rintro ⟨h1, h2⟩
        have e1 := covers_zero_iff.mp h1
        have e2 := covers_zero_iff.mp h2
        cases p
        simp_all
      · rintro rfl
        exact ⟨covers_zero_iff.mpr rfl, covers_zero_iff.mpr rfl⟩
    by_cases hab : oa < ob
    · rw [if_pos hab]
      rw [dif_pos hab] at ih
      have hok : OkPair rects (oa, ob) := ⟨hab, hobn, hintab⟩
      have hnotmem : (oa, ob) ∉ results := fun hmem =>
        hres (oa, ob) hmem (0, oa, 0, ob) (List.mem_cons_self _ _) ((hcovp _).mpr rfl)
      have hcovtail : ∀ e ∈ stack, ¬ CoversP t.degree e (oa, ob) := fun e he =>
        (List.rel_of_pairwise_cons hdisj he) (oa, ob) ((hcovp _).mpr rfl)
      obtain ⟨ihnd, ihmem⟩ := ih (fun e he => hstack e (List.mem_cons_of_mem _ he))
        (List.pairwise_cons.mp hdisj).2
        (by
          rw [List.nodup_append]
          refine ⟨hnd, List.nodup_singleton _, ?_⟩
          intro a ha hb
          rw [List.mem_singleton] at hb
          subst hb
          exact hnotmem ha)
        (by
          intro p hp e he
          rcases List.mem_append.mp hp with hp | hp
          · exact hres p hp e (List.mem_cons_of_mem _ he)
          · rw [List.mem_singleton] at hp
            subst hp
            exact hcovtail e he)
      refine ⟨ihnd, fun p => ?_⟩
      rw [ihmem p]
      simp only [List.mem_append, List.mem_singleton]
      constructor
      · rintro ((hp | rfl) | ⟨e, he, hc, hokk⟩)
        · exact Or.inl hp
        · exact Or.inr ⟨(0, oa, 0, ob), List.mem_cons_self _ _, (hcovp _).mpr rfl, hok⟩
        · exact Or.inr ⟨e, List.mem_cons_of_mem _ he, hc, hokk⟩
      · rintro (hp | ⟨e, he, hc, hokk⟩)
        · exact Or.inl (Or.inl hp)
        · rcases List.mem_cons.mp he with rfl | he
          · exact Or.inl (Or.inr ((hcovp p).mp hc))
          · exact Or.inr ⟨e, he, hc, hokk⟩
    · rw [if_neg hab]
      rw [dif_neg hab] at ih
      have hdeadp : ∀ p : ℕ × ℕ, CoversP t.degree (0, oa, 0, ob) p →
          ¬ OkPair rects p := by
        intro p hc hok
        have hpe := (hcovp p).mp hc
        subst hpe
        exact hab hok.1
      obtain ⟨ihnd, ihmem⟩ := ih (fun e he => hstack e (List.mem_cons_of_mem _ he))
        (List.pairwise_cons.mp hdisj).2 hnd
        (fun p hp e he => hres p hp e (List.mem_cons_of_mem _ he))
      refine ⟨ihnd, fun p => ?_⟩
      rw [ihmem p]
      constructor
      · rintro (hp | ⟨e, he, hc, hok⟩)
        · exact Or.inl hp
        · exact Or.inr ⟨e, List.mem_cons_of_mem _ he, hc, hok⟩
      · rintro (hp | ⟨e, he, hc, hok⟩)
        · exact Or.inl hp
        · rcases List.mem_cons.mp he with rfl | he
          · exact absurd hok (hdeadp p hc)
          · exact Or.inr ⟨e, he, hc, hok⟩
  | case4 oa lb ob stack results _rB _fCO _rA hT hnotleaf _cL _pushes ih =>
    intro hstack hdisj hnd hres
    have hTe : ¬ (SegRTree.getRectangle t lb oa).intersects (SegRTree.getRectangle t lb ob)
        = false := hT
    have hpev : _pushes = (List.range t.degree).map
        (fun i => (lb - 1, t.degree * oa + i, lb, ob)) := rfl
    rw [hpev] at ih
    have hm1 : 1 ≤ lb := by
      by_contra h0
      push_neg at h0
      exact hnotleaf ⟨by omega, by omega⟩
    obtain ⟨m, rfl⟩ : ∃ m, lb = m + 1 := ⟨lb - 1, by omega⟩
    simp only [Nat.add_sub_cancel] at ih
    rw [selfGo_cons, if_neg hTe, if_neg (by omega : ¬ (m + 1 = 0 ∧ m + 1 = 0)),
      if_pos rfl]
    simp only [Nat.add_sub_cancel]
    obtain ⟨hsh, hla, hlb, hoa, hob⟩ :=
      hstack (m + 1, oa, m + 1, ob) (List.mem_cons_self _ _)
    replace hla : m + 1 ≤ t.currentLevel := hla
    replace hlb : m + 1 ≤ t.currentLevel := hlb
    replace hoa : oa < capAt t.degree rects.length (m + 1) := hoa
    replace hob : ob < capAt t.degree rects.length (m + 1) := hob
    have hd2 := hwf.hdeg
    have hTt : (SegRTree.getRectangle t (m + 1) oa).intersects
        (SegRTree.getRectangle t (m + 1) ob) = true := by
      cases hbool : (SegRTree.getRectangle t (m + 1) oa).intersects
          (SegRTree.getRectangle t (m + 1) ob)
      · exact absurd hbool hTe
      · rfl
    have hspanA := @span_lt_of_pred t rects hwf
      (fun r => r.intersects (SegRTree.getRectangle t (m + 1) ob)) rfl (m + 1) oa
      hla hoa hTt
    have hoffn : oa < numAt t.degree rects.length (m + 1) := (lt_numAt_iff hd2).mpr hspanA
    have hcapm : t.degree * (oa + 1) ≤ capAt t.degree rects.length m := by
      rw [capAt]
      exact Nat.mul_le_mul_left _ hoffn
    have hdistrib : t.degree * (oa + 1) = t.degree * oa + t.degree := by ring
    have hmem_push : ∀ c ∈ (List.range t.degree).map
        (fun i => (m, t.degree * oa + i, m + 1, ob)),
        ∃ i < t.degree, c = (m, t.degree * oa + i, m + 1, ob) := by
      intro c hc
      rw [List.mem_map] at hc
      obtain ⟨i, hi, rfl⟩ := hc
      exact ⟨i, List.mem_range.mp hi, rfl⟩
    have hgoodc : ∀ c ∈ (List.range t.degree).map
        (fun i => (m, t.degree * oa + i, m + 1, ob)), GoodEntry t rects.length c := by
      intro c hc
      obtain ⟨i, hi, rfl⟩ := hmem_push c hc
      refine ⟨Or.inr rfl, ?_, hlb, ?_, hob⟩
      · show m ≤ t.currentLevel
        omega
      · show t.degree * oa + i < capAt t.degree rects.length m
        omega
    have hbridgeA : ∀ p : ℕ × ℕ,
        (CoversP t.degree (m + 1, oa, m + 1, ob) p ∧ OkPair rects p) ↔
        ∃ c ∈ (List.range t.degree).map (fun i => (m, t.degree * oa + i, m + 1, ob)),
          CoversP t.degree c p ∧ OkPair rects p := by
      intro p
      constructor
      · rintro ⟨hcp, hok⟩
        have hcA : Covers t.degree (m + 1, oa) p.1 := hcp.1
        have hcB : Covers t.degree (m + 1, ob) p.2 := hcp.2
        obtain ⟨hc1, hc2, hcovc⟩ := child_of_covers (show 0 < t.degree by omega) hcA
        refine ⟨(m, p.1 / t.degree ^ m, m + 1, ob), ?_, ⟨hcovc, hcB⟩, hok⟩
        rw [List.mem_map]
        refine ⟨p.1 / t.degree ^ m - t.degree * oa, List.mem_range.mpr (by omega), ?_⟩
        have heqi : t.degree * oa + (p.1 / t.degree ^ m - t.degree * oa) =
            p.1 / t.degree ^ m := by omega
        rw [heqi]
      · rintro ⟨c, hc, hcp, hok⟩
        obtain ⟨i, hi, rfl⟩ := hmem_push c hc
        have hcA : Covers t.degree (m, t.degree * oa + i) p.1 := hcp.1
        have hcB : Covers t.degree (m + 1, ob) p.2 := hcp.2
        have hup : Covers t.degree (m + 1, oa) p.1 := covers_mono (by omega) (by omega) hcA
        exact ⟨⟨hup, hcB⟩, hok⟩
    have hpw : (((List.range t.degree).map
        (fun i => (m, t.degree * oa + i, m + 1, ob))).reverse ++ stack).Pairwise
        (DisjP t.degree) := by
      rw [List.pairwise_append]
      refine ⟨?_, (List.pairwise_cons.mp hdisj).2, ?_⟩
      · rw [List.pairwise_reverse]
        have hpwc : ((List.range t.degree).map
            (fun i => (m, t.degree * oa + i, m + 1, ob))).Pairwise (DisjP t.degree) := by
          rw [List.pairwise_map]
          have hrange : (List.range t.degree).Pairwise (· < ·) := List.pairwise_lt_range _
          apply hrange.imp
          intro a b hab p hpa hpb
          have h1 : Covers t.degree (m, t.degree * oa + a) p.1 := hpa.1
          have h2 : Covers t.degree (m, t.degree * oa + b) p.1 := hpb.1
          exact covers_disjoint (by omega) h1 h2
        exact hpwc.imp (fun h => disjP_symm h)
      · intro a ha b hb
        rw [List.mem_reverse] at ha
        obtain ⟨i, hi, rfl⟩ := hmem_push a ha
        intro p hpa
        have h1 : Covers t.degree (m, t.degree * oa + i) p.1 := hpa.1
        have h2 : Covers t.degree (m + 1, ob) p.2 := hpa.2
        have hup : Covers t.degree (m + 1, oa) p.1 := covers_mono (by omega) (by omega) h1
        exact (List.rel_of_pairwise_cons hdisj hb) p ⟨hup, h2⟩
    have hres2 : ∀ p ∈ results, ∀ e ∈ ((List.range t.degree).map
        (fun i => (m, t.degree * oa + i, m + 1, ob))).reverse ++ stack,
        ¬ CoversP t.degree e p := by
      intro p hp e he
      rcases List.mem_append.mp he with he | he
      · rw [List.mem_reverse] at he
        obtain ⟨i, hi, rfl⟩ := hmem_push e he
        intro hcov
        have h1 : Covers t.degree (m, t.degree * oa + i) p.1 := hcov.1
        have h2 : Covers t.degree (m + 1, ob) p.2 := hcov.2
        have hup : Covers t.degree (m + 1, oa) p.1 := covers_mono (by omega) (by omega) h1
        exact hres p hp (m + 1, oa, m + 1, ob) (List.mem_cons_self _ _) ⟨hup, h2⟩
      · exact hres p hp e (List.mem_cons_of_mem _ he)
    have hgood2 : ∀ e ∈ ((List.range t.degree).map
        (fun i => (m, t.degree * oa + i, m + 1, ob))).reverse ++ stack,
        GoodEntry t rects.length e := by
      intro e he
      rcases List.mem_append.mp he with he | he
      · exact hgoodc e (List.mem_reverse.mp he)
      · exact hstack e (List.mem_cons_of_mem _ he)
    obtain ⟨ihnd, ihmem⟩ := ih hgood2 hpw hnd hres2
    refine ⟨ihnd, fun p => ?_⟩
    rw [ihmem p]
    constructor
    · rintro (hp | ⟨e, he, hc, hok⟩)
      · exact Or.inl hp
      · rcases List.mem_append.mp he with he | he
        · rw [List.mem_reverse] at he
          obtain ⟨hcov2, hok2⟩ := (hbridgeA p).mpr ⟨e, he, hc, hok⟩
          exact Or.inr ⟨(m + 1, oa, m + 1, ob), List.mem_cons_self _ _, hcov2, hok2⟩
        · exact Or.inr ⟨e, List.mem_cons_of_mem _ he, hc, hok⟩
    · rintro (hp | ⟨e, he, hc, hok⟩)
      · exact Or.inl hp
      · rcases List.mem_cons.mp he with rfl | he
        · obtain ⟨c, hcm, hcc, hco⟩ := (hbridgeA p).mp ⟨hc, hok⟩
          exact Or.inr ⟨c, List.mem_append.mpr (Or.inl (List.mem_reverse.mpr hcm)),
            hcc, hco⟩
        · exact Or.inr ⟨e, List.mem_append.mpr (Or.inr he), hc, hok⟩
  | case5 la oa ob stack results _rA _fCO _rB hT hnl hne _cL _pushes ih =>
    intro hstack hdisj hnd hres
    have hTe : ¬ (SegRTree.getRectangle t la oa).intersects
        (SegRTree.getRectangle t (la + 1) ob) = false := hT
    have hpev : _pushes = (List.range t.degree).map
        (fun i => (la, oa, la + 1 - 1, t.degree * ob + i)) := rfl
    rw [hpev] at ih
    simp only [Nat.add_sub_cancel] at ih
    rw [selfGo_cons, if_neg hTe, if_neg (show ¬ (la = 0 ∧ la + 1 = 0) from hnl),
      if_neg (show ¬ la = la + 1 from hne), if_pos rfl]
    simp only [Nat.add_sub_cancel]
    obtain ⟨hsh, hla, hlb, hoa, hob⟩ :=
      hstack (la, oa, la + 1, ob) (List.mem_cons_self _ _)
    replace hla : la ≤ t.currentLevel := hla
    replace hlb : la + 1 ≤ t.currentLevel := hlb
    replace hoa : oa < capAt t.degree rects.length la := hoa
    replace hob : ob < capAt t.degree rects.length (la + 1) := hob
    have hd2 := hwf.hdeg
    have hTt : (SegRTree.getRectangle t la oa).intersects
        (SegRTree.getRectangle t (la + 1) ob) = true := by
      cases hbool : (SegRTree.getRectangle t la oa).intersects
          (SegRTree.getRectangle t (la + 1) ob)
      · exact absurd hbool hTe
      · rfl
    have hspanB := @span_lt_of_pred t rects hwf
      (fun r => (SegRTree.getRectangle t la oa).intersects r)
      (Rect.intersects_empty_right _) (la + 1) ob hlb hob hTt
    have hoffn : ob < numAt t.degree rects.length (la + 1) := (lt_numAt_iff hd2).mpr hspanB
    have hcapm : t.degree * (ob + 1) ≤ capAt t.degree rects.length la := by
      rw [capAt]
      exact Nat.mul_le_mul_left _ hoffn
    have hdistrib : t.degree * (ob + 1) = t.degree * ob + t.degree := by ring
    have hmem_push : ∀ c ∈ (List.range t.degree).map
        (fun i => (la, oa, la, t.degree * ob + i)),
        ∃ i < t.degree, c = (la, oa, la, t.degree * ob + i) := by
      intro c hc
      rw [List.mem_map] at hc
      obtain ⟨i, hi, rfl⟩ := hc
      exact ⟨i, List.mem_range.mp hi, rfl⟩
    have hgoodc : ∀ c ∈ (List.range t.degree).map
        (fun i => (la, oa, la, t.degree * ob + i)), GoodEntry t rects.length c := by
      intro c hc
      obtain ⟨i, hi, rfl⟩ := hmem_push c hc
      refine ⟨Or.inl rfl, hla, hla, hoa, ?_⟩
      show t.degree * ob + i < capAt t.degree rects.length la
      omega
    have hbridgeB : ∀ p : ℕ × ℕ,
        (CoversP t.degree (la, oa, la + 1, ob) p ∧ OkPair rects p) ↔
        ∃ c ∈ (List.range t.degree).map (fun i => (la, oa, la, t.degree * ob + i)),
          CoversP t.degree c p ∧ OkPair rects p := by
      intro p
      constructor
      · rintro ⟨hcp, hok⟩
        have hcA : Covers t.degree (la, oa) p.1 := hcp.1
        have hcB : Covers t.degree (la + 1, ob) p.2 := hcp.2
        obtain ⟨hc1, hc2, hcovc⟩ := child_of_covers (show 0 < t.degree by omega) hcB
        refine ⟨(la, oa, la, p.2 / t.degree ^ la), ?_, ⟨hcA, hcovc⟩, hok⟩
        rw [List.mem_map]
        refine ⟨p.2 / t.degree ^ la - t.degree * ob, List.mem_range.mpr (by omega), ?_⟩
        have heqi : t.degree * ob + (p.2 / t.degree ^ la - t.degree * ob) =
            p.2 / t.degree ^ la := by omega
        rw [heqi]
      · rintro ⟨c, hc, hcp, hok⟩
        obtain ⟨i, hi, rfl⟩ := hmem_push c hc
        have hcA : Covers t.degree (la, oa) p.1 := hcp.1
        have hcB : Covers t.degree (la, t.degree * ob + i) p.2 := hcp.2
        have hup : Covers t.degree (la + 1, ob) p.2 := covers_mono (by omega) (by omega) hcB
        exact ⟨⟨hcA, hup⟩, hok⟩
    have hpw : (((List.range t.degree).map
        (fun i => (la, oa, la, t.degree * ob + i))).reverse ++ stack).Pairwise
        (DisjP t.degree) := by
      rw [List.pairwise_append]
      refine ⟨?_, (List.pairwise_cons.mp hdisj).2, ?_⟩
      · rw [List.pairwise_reverse]
        have hpwc : ((List.range t.degree).map
            (fun i => (la, oa, la, t.degree * ob + i))).Pairwise (DisjP t.degree) := by
          rw [List.pairwise_map]
          have hrange : (List.range t.degree).Pairwise (· < ·) := List.pairwise_lt_range _
          apply hrange.imp
          intro a b hab p hpa hpb
          have h1 : Covers t.degree (la, t.degree * ob + a) p.2 := hpa.2
          have h2 : Covers t.degree (la, t.degree * ob + b) p.2 := hpb.2
          exact covers_disjoint (by omega) h1 h2
        exact hpwc.imp (fun h => disjP_symm h)
      · intro a ha b hb
        rw [List.mem_reverse] at ha
        obtain ⟨i, hi, rfl⟩ := hmem_push a ha
        intro p hpa
        have h1 : Covers t.degree (la, oa) p.1 := hpa.1
        have h2 : Covers t.degree (la, t.degree * ob + i) p.2 := hpa.2
        have hup : Covers t.degree (la + 1, ob) p.2 := covers_mono (by omega) (by omega) h2
        exact (List.rel_of_pairwise_cons hdisj hb) p ⟨h1, hup⟩
    have hres2 : ∀ p ∈ results, ∀ e ∈ ((List.range t.degree).map
        (fun i => (la, oa, la, t.degree * ob + i))).reverse ++ stack,
        ¬ CoversP t.degree e p := by
      intro p hp e he
      rcases List.mem_append.mp he with he | he
      · rw [List.mem_reverse] at he
        obtain ⟨i, hi, rfl⟩ := hmem_push e he
        intro hcov
        have h1 : Covers t.degree (la, oa) p.1 := hcov.1
        have h2 : Covers t.degree (la, t.degree * ob + i) p.2 := hcov.2
        have hup : Covers t.degree (la + 1, ob) p.2 := covers_mono (by omega) (by omega) h2
        exact hres p hp (la, oa, la + 1, ob) (List.mem_cons_self _ _) ⟨h1, hup⟩
      · exact hres p hp e (List.mem_cons_of_mem _ he)
    have hgood2 : ∀ e ∈ ((List.range t.degree).map
        (fun i => (la, oa, la, t.degree * ob + i))).reverse ++ stack,
        GoodEntry t rects.length e := by
      intro e he
      rcases List.mem_append.mp he with he | he
      · exact hgoodc e (List.mem_reverse.mp he)
      · exact hstack e (List.mem_cons_of_mem _ he)
    obtain ⟨ihnd, ihmem⟩ := ih hgood2 hpw hnd hres2
    refine ⟨ihnd, fun p => ?_⟩
    rw [ihmem p]
    constructor
    · rintro (hp | ⟨e, he, hc, hok⟩)
      · exact Or.inl hp
      · rcases List.mem_append.mp he with he | he
        · rw [List.mem_reverse] at he
          obtain ⟨hcov2, hok2⟩ := (hbridgeB p).mpr ⟨e, he, hc, hok⟩
          exact Or.inr ⟨(la, oa, la + 1, ob), List.mem_cons_self _ _, hcov2, hok2⟩
        · exact Or.inr ⟨e, List.mem_cons_of_mem _ he, hc, hok⟩
    · rintro (hp | ⟨e, he, hc, hok⟩)
      · exact Or.inl hp
      · rcases List.mem_cons.mp he with rfl | he
        · obtain ⟨c, hcm, hcc, hco⟩ := (hbridgeB p).mp ⟨hc, hok⟩
          exact Or.inr ⟨c, List.mem_append.mpr (Or.inl (List.mem_reverse.mpr hcm)),
            hcc, hco⟩
        · exact Or.inr ⟨e, List.mem_append.mpr (Or.inr he), hc, hok⟩
  | case6 la oa lb ob stack results _rA _rB hT hnl hne hne1 ih =>
    intro hstack hdisj hnd hres
    obtain ⟨hsh, _⟩ := hstack (la, oa, lb, ob) (List.mem_cons_self _ _)
    rcases hsh with h | h
    · exact absurd h hne
    · exact absurd h hne1

theorem querySelfIntersections_spec (t : SegRTree) (rects : List Rect) (hwf : Wf t rects) :
    (SegRTree.querySelfIntersections t).Nodup ∧
      ∀ p : ℕ × ℕ, p ∈ SegRTree.querySelfIntersections t ↔ OkPair rects p := by
  unfold SegRTree.querySelfIntersections
  by_cases hempty : t.currentSize = 0
  · rw [if_pos hempty]
    refine ⟨List.nodup_nil, fun p => ?_⟩
    simp only [List.not_mem_nil, false_iff]
    rintro ⟨h1, h2, _⟩
    rw [hwf.hsize] at hempty
    omega
  · rw [if_neg hempty]
    have hn : 0 < rects.length := by
      rw [← hwf.hsize]
      omega
    have hcap : 0 < capAt t.degree rects.length t.currentLevel := capAt_pos hwf.hdeg hn _
    obtain ⟨hnd, hmem⟩ := selfGo_spec t rects hwf [(t.currentLevel, 0, t.currentLevel, 0)] []
      (by
        intro e he
        rw [List.mem_singleton] at he
        subst he
        exact ⟨Or.inl rfl, le_rfl, le_rfl, hcap, hcap⟩)
      (List.pairwise_singleton _ _)
      List.nodup_nil
      (by
        intro p hp
        simp at hp)
    refine ⟨hnd, fun p => ?_⟩
    rw [hmem p]
    simp only [List.not_mem_nil, false_or]
    constructor
    · rintro ⟨e, he, _, hok⟩
      exact hok
    · intro hok
      have hroot := hwf.hroot
      have hp1 : p.1 < rects.length := by
        have hx := hok.1
        have hy := hok.2.1
        omega
      refine ⟨(t.currentLevel, 0, t.currentLevel, 0), List.mem_singleton.mpr rfl,
        ⟨?_, ?_⟩, hok⟩
      · exact ⟨by simp, by simpa using lt_of_lt_of_le hp1 hroot⟩
      · exact ⟨by simp, by simpa using lt_of_lt_of_le hok.2.1 hroot⟩

/-- C2: for every packed R-tree (bulk-loaded or built incrementally to
capacity), `query_self_intersections()` equals, as a duplicate-free list, the
set of pairs `(i, j)` with `i < j` and intersecting leaf rectangles; in
particular no `(i, i)` pair and each unordered pair at most once. -/
theorem C2_self_intersections_exact (degree0 : ℕ) (rects : List Rect) :
    ((SegRTree.querySelfIntersections (SegRTree.newLoaded degree0 rects)).Nodup ∧
      ∀ p : ℕ × ℕ,
        p ∈ SegRTree.querySelfIntersections (SegRTree.newLoaded degree0 rects) ↔
          p.1 < p.2 ∧ p.2 < rects.length ∧
            (rects.getD p.1 Rect.empty).intersects (rects.getD p.2 Rect.empty) = true) ∧
    ((SegRTree.querySelfIntersections
        (SegRTree.addList (SegRTree.new degree0 rects.length) rects)).Nodup ∧
      ∀ p : ℕ × ℕ,
        p ∈ SegRTree.querySelfIntersections
            (SegRTree.addList (SegRTree.new degree0 rects.length) rects) ↔
          p.1 < p.2 ∧ p.2 < rects.length ∧
            (rects.getD p.1 Rect.empty).intersects (rects.getD p.2 Rect.empty) = true) :=
  ⟨querySelfIntersections_spec _ rects (newLoaded_wf degree0 rects),
   querySelfIntersections_spec _ rects (addList_wf rects le_rfl)⟩

/-- One Liang-Barsky side update of the clip interval `(t0, t1)`; `none` is the
early `return None`.  The source computes `r = q / p` before testing `p == 0`,
but only reads `r` when `p < 0` or `p > 0`, so the rational division (`q / 0 =
0`) is never read where the float division would give `inf`/`NaN`. -/
def clipUpdate (p q t0 t1 : ℚ) : Option (ℚ × ℚ) :=
  let r := q / p
  if p = 0 ∧ q < 0 then none
  else if p < 0 then
    if r > t1 then none else if r > t0 then some (r, t1) else some (t0, t1)
  else if p > 0 then
    if r < t0 then none else if r < t1 then some (t0, r) else some (t0, t1)
  else some (t0, t1)

/-- `Rectangle::intersect_segment(start, end)` (Liang-Barsky).  For the empty
(all-NaN) rectangle every `q` is NaN, so no side test fires and the loop falls
through with `t0 = 0`, `t1 = 1`; the `.empty` branch reproduces that. -/
def Rect.intersectSegment (rect : Rect) (s e : Coordinate) :
    Option (Coordinate × Coordinate) :=
  if rect.containsCoord s && rect.containsCoord e then some (s, e)
  else if s = e then none
  else
    let xDelta := e.x - s.x
    let yDelta := e.y - s.y
    match rect with
    | .empty =>
      some (Coordinate.new (s.x + 0 * xDelta) (s.y + 0 * yDelta),
        Coordinate.new (s.x + 1 * xDelta) (s.y + 1 * yDelta))
    | .mk xMin yMin xMax yMax =>
      let sides := [(-xDelta, -(xMin - s.x)), (xDelta, xMax - s.x),
        (-yDelta, -(yMin - s.y)), (yDelta, yMax - s.y)]
      match sides.foldl
          (fun acc pq => acc.bind fun tt => clipUpdate pq.1 pq.2 tt.1 tt.2)
          (some ((0 : ℚ), (1 : ℚ))) with
      | none => none
      | some (t0, t1) =>
        some (Coordinate.new (s.x + t0 * xDelta) (s.y + t0 * yDelta),
          Coordinate.new (s.x + t1 * xDelta) (s.y + t1 * yDelta))

/-- C3: if the rectangle contains both endpoints, `intersect_segment` returns
the literal input pair; a degenerate segment (`start == end`) outside the
rectangle returns nothing. -/
theorem C3_intersect_segment_corners (R : Rect) (s e : Coordinate) :
    (R.containsCoord s = true → R.containsCoord e = true →
      Rect.intersectSegment R s e = some (s, e)) ∧
    (s = e → R.containsCoord s = false →
      Rect.intersectSegment R s e = none) := by
  constructor
  · intro h1 h2
    unfold Rect.intersectSegment
    rw [h1, h2]
    rfl
  · intro hse hc
    unfold Rect.intersectSegment
    rw [hc]
    rw [if_neg (by simp), if_pos hse]

theorem C3_intersect_segment_corners_witness :
    ((Rect.mk 0 0 1 1).containsCoord (Coordinate.new (1/4) (1/4)) = true ∧
      (Rect.mk 0 0 1 1).containsCoord (Coordinate.new (3/4) (3/4)) = true ∧
      Rect.intersectSegment (Rect.mk 0 0 1 1) (Coordinate.new (1/4) (1/4))
          (Coordinate.new (3/4) (3/4)) =
        some (Coordinate.new (1/4) (1/4), Coordinate.new (3/4) (3/4))) ∧
    ((Rect.mk 0 0 1 1).containsCoord (Coordinate.new 2 2) = false ∧
      Rect.intersectSegment (Rect.mk 0 0 1 1) (Coordinate.new 2 2)
          (Coordinate.new 2 2) = none) := by
  have hca : (Rect.mk 0 0 1 1).containsCoord (Coordinate.new (1/4) (1/4)) = true := by
    norm_num [Rect.containsCoord, Rect.containsRect, Rect.coordRect, Coordinate.new]
  have hcb : (Rect.mk 0 0 1 1).containsCoord (Coordinate.new (3/4) (3/4)) = true := by
    norm_num [Rect.containsCoord, Rect.containsRect, Rect.coordRect, Coordinate.new]
  have hcc : (Rect.mk 0 0 1 1).containsCoord (Coordinate.new 2 2) = false := by
    norm_num [Rect.containsCoord, Rect.containsRect, Rect.coordRect, Coordinate.new]
  exact ⟨⟨hca, hcb,
    (C3_intersect_segment_corners (Rect.mk 0 0 1 1) (Coordinate.new (1/4) (1/4))
      (Coordinate.new (3/4) (3/4))).1 hca hcb⟩,
   ⟨hcc,
    (C3_intersect_segment_corners (Rect.mk 0 0 1 1) (Coordinate.new 2 2)
      (Coordinate.new 2 2)).2 rfl hcc⟩⟩

/-- `ValidationError` (`errors.rs`). -/
inductive ValidationError where
  | nonFiniteCoordinate
  | singlePathCoordinate
  | degenerateSegment (index : ℕ) (position : Coordinate)
  | overlappingSegments (firstIndex secondIndex : ℕ) (start stop : Coordinate)
  | selfIntersection (firstIndex secondIndex : ℕ) (position : Coordinate)
  | notARing
  | holeNotValid
  | multipleIntersections
  | interiorDisconnected
  | tooFewCoordinates
  | notClosed
deriving DecidableEq, Repr

/-- `LineString::validate_ring` (`linear_ring.rs`): note the guard is
`len < 3`, while the `TooFewCoordinates` message in `errors.rs` reads "Rings
must have at least 4 coordinates." -/
def validateRing (coords : List Coordinate) : Except ValidationError Unit :=
  if coords.length < 3 then .error .tooFewCoordinates
  else if coords.head? ≠ coords.getLast? then .error .notClosed
  else .ok ()

/-- C6: the claim says every path with fewer than 4 coordinates fails with the
too-few-coordinates error.  The code checks `len < 3` instead: a 3-coordinate
open path fails with `NotClosed` (not `TooFewCoordinates`), and a 3-coordinate
closed path passes `validate_ring` outright. -/
theorem C6_validate_ring_behaviour :
    validateRing [Coordinate.new 0 0, Coordinate.new 1 0, Coordinate.new 2 1] =
      Except.error ValidationError.notClosed ∧
    validateRing [Coordinate.new 0 0, Coordinate.new 1 0, Coordinate.new 2 1] ≠
      Except.error ValidationError.tooFewCoordinates ∧
    validateRing [Coordinate.new 0 0, Coordinate.new 1 1, Coordinate.new 0 0] =
      Except.ok () ∧
    ([Coordinate.new 0 0, Coordinate.new 1 0, Coordinate.new 2 1] :
      List Coordinate).length < 4 := by
  have h1 : validateRing [Coordinate.new 0 0, Coordinate.new 1 0, Coordinate.new 2 1] =
      Except.error ValidationError.notClosed := by
    unfold validateRing
    rw [if_neg (by norm_num), if_pos]
    show some (Coordinate.new 0 0) ≠ some (Coordinate.new 2 1)
    intro hco
    have hco2 := Option.some.inj hco
    have hx := congrArg Coordinate.x hco2
    norm_num [Coordinate.new] at hx
  have h2 : validateRing [Coordinate.new 0 0, Coordinate.new 1 1, Coordinate.new 0 0] =
      Except.ok () := by
    unfold validateRing
    rw [if_neg (by norm_num), if_neg]
    show ¬ some (Coordinate.new 0 0) ≠ some (Coordinate.new 0 0)
    exact fun h => h rfl
  refine ⟨h1, ?_, h2, by norm_num⟩
  rw [h1]
  intro hcon
  exact absurd (Except.error.inj hcon) (by
    intro hco
    cases hco)

/-- `ContainRelation` (`point_in_polygon.rs`). -/
inductive ContainRelation where
  | exterior
  | boundary
  | interior
deriving DecidableEq, Repr

/-- Winding classification; `WindingPosition` and the variant of
`winding_number` used by `point_in_polygon.rs` are imported from `utils` but
are not among the provided sources. -/
inductive WindingPosition where
  | on
  | left
  | right
  | off
deriving DecidableEq, Repr

/-- Modelled from the spec: "evaluate each crossing as left/right/on/off" — an
upward crossing (half-open rule `s.y ≤ p.y < e.y`) with the point strictly
left of the segment is `left`, the symmetric downward crossing is `right`,
`on` when the point lies on the segment, otherwise `off`.  The cross-product
halves `lx`, `rx` follow the numeric `winding_number` of `utils.rs`. -/
def windingNumber (p s e : Coordinate) : WindingPosition :=
  let lx := (e.x - s.x) * (p.y - s.y)
  let rx := (e.y - s.y) * (p.x - s.x)
  if lx = rx ∧ min s.x e.x ≤ p.x ∧ p.x ≤ max s.x e.x ∧
      min s.y e.y ≤ p.y ∧ p.y ≤ max s.y e.y then .on
  else if s.y ≤ p.y then
    if e.y > p.y ∧ lx > rx then .left else .off
  else
    if e.y ≤ p.y ∧ lx < rx then .right else .off

/-- `check_point_rect(point, rect)`: the point is in the rectangle or strictly
to its left.  All comparisons against the NaN sentinel are false. -/
def checkPointRect (point : Coordinate) : Rect → Bool
  | .empty => false
  | .mk _ yMin xMax yMax =>
    decide (point.x ≤ xMax) && decide (point.y ≥ yMin) && decide (point.y ≤ yMax)

/-- The predicate `P(ℓ, o)` as the SPEC states it (for comparison with the
code's `check_point_rect`): `x_min(rect) ≤ point.x ∧ y_min(rect) ≤ point.y ≤
y_max(rect)`. -/
def specCheckPointRect (point : Coordinate) : Rect → Bool
  | .empty => false
  | .mk xMin yMin _ yMax =>
    decide (xMin ≤ point.x) && decide (yMin ≤ point.y) && decide (point.y ≤ yMax)

/-- The span-shortcut test `rect.x_min > point.x` (false on the NaN sentinel). -/
def xMinGtX (r : Rect) (point : Coordinate) : Bool :=
  match r with
  | .empty => false
  | .mk xMin _ _ _ => decide (xMin > point.x)

/-- `rectangles_from_coordinates` (`utils.rs`): one rectangle per adjacent
coordinate pair. -/
def rectanglesFromCoordinates : List Coordinate → List Rect
  | a :: b :: rest => Rect.new a b :: rectanglesFromCoordinates (b :: rest)
  | _ => []

/-- The loop of `point_in_loop`, with the list of processed nodes as a ghost
second component; `none` models the `unreachable!()` panic on an `On` span
contribution. -/
def piGo (t : SegRTree) (coords : List Coordinate) (point : Coordinate) :
    List (ℕ × ℕ) → ℤ → List (ℕ × ℕ) → Option (ContainRelation × List (ℕ × ℕ))
  | [], wn, visited =>
    some (if wn ≠ 0 then ContainRelation.interior else ContainRelation.exterior,
      visited)
  | (level, offset) :: stack, wn, visited =>
    if xMinGtX (SegRTree.getRectangle t level offset) point then
      match windingNumber point
          (coords.getD (SegRTree.getLowHigh t level offset).1 (Coordinate.new 0 0))
          (coords.getD (SegRTree.getLowHigh t level offset).2 (Coordinate.new 0 0)) with
      | .on => none
      | .left => piGo t coords point stack (wn + 1) (visited ++ [(level, offset)])
      | .right => piGo t coords point stack (wn - 1) (visited ++ [(level, offset)])
      | .off => piGo t coords point stack wn (visited ++ [(level, offset)])
    else if level = 0 then
      match windingNumber point (coords.getD offset (Coordinate.new 0 0))
          (coords.getD (offset + 1) (Coordinate.new 0 0)) with
      | .on => some (ContainRelation.boundary, visited ++ [(level, offset)])
      | .left => piGo t coords point stack (wn + 1) (visited ++ [(level, offset)])
      | .right => piGo t coords point stack (wn - 1) (visited ++ [(level, offset)])
      | .off => piGo t coords point stack wn (visited ++ [(level, offset)])
    else
      let childLevel := level - 1
      let firstChildOffset := t.degree * offset
      let children := (List.range t.degree).map fun i =>
        (childLevel, firstChildOffset + i)
      let pushes := children.filter fun c =>
        checkPointRect point (SegRTree.getRectangle t c.1 c.2)
      piGo t coords point (pushes.reverse ++ stack) wn (visited ++ [(level, offset)])
termination_by stack _ _ => (stack.map fun e => (t.degree + 1) ^ e.1).sum
decreasing_by
  all_goals simp only [List.map_cons, List.sum_cons, List.map_append, List.sum_append,
    List.map_reverse, List.sum_reverse]
  · have hp : 0 < (t.degree + 1) ^ level := Nat.pos_pow_of_pos _ (by omega)
    omega
  · have hp : 0 < (t.degree + 1) ^ level := Nat.pos_pow_of_pos _ (by omega)
    omega
  · have hp : 0 < (t.degree + 1) ^ level := Nat.pos_pow_of_pos _ (by omega)
    omega
  · have hp : 0 < (t.degree + 1) ^ level := Nat.pos_pow_of_pos _ (by omega)
    omega
  · have hp : 0 < (t.degree + 1) ^ level := Nat.pos_pow_of_pos _ (by omega)
    omega
  · have hp : 0 < (t.degree + 1) ^ level := Nat.pos_pow_of_pos _ (by omega)
    omega
  · rename_i hlevel
    have := SegRTree.children_weight_lt hlevel
      ((List.range t.degree).map fun i => (level - 1, t.degree * offset + i))
      (fun c => checkPointRect point (SegRTree.getRectangle t c.1 c.2))
      (fun i => (level - 1, t.degree * offset + i)) (fun i => rfl) rfl
    omega

/-- `point_in_loop(point, path)`, returning the classification together with
the ghost list of processed tree nodes. -/
def pointInLoop (t : SegRTree) (coords : List Coordinate) (point : Coordinate) :
    Option (ContainRelation × List (ℕ × ℕ)) :=
  if (SegRTree.envelope t).containsCoord point = false then
    some (ContainRelation.exterior, [])
  else
    piGo t coords point
      (if checkPointRect point (SegRTree.getRectangle t t.currentLevel 0) then
        [(t.currentLevel, 0)]
      else []) 0 []

/-- Descent reachability of the point-in-ring traversal: from `e`, step to a
child of a non-shortcut internal node exactly when the child's rectangle
passes the code's `check_point_rect`. -/
inductive Desc (t : SegRTree) (point : Coordinate) : ℕ × ℕ → ℕ × ℕ → Prop where
  | refl (e : ℕ × ℕ) : Desc t point e e
  | step {e : ℕ × ℕ} {level offset i : ℕ} :
      Desc t point e (level + 1, offset) →
      xMinGtX (SegRTree.getRectangle t (level + 1) offset) point = false →
      i < t.degree →
      checkPointRect point (SegRTree.getRectangle t level (t.degree * offset + i))
        = true →
      Desc t point e (level, t.degree * offset + i)

theorem desc_trans {t : SegRTree} {point : Coordinate} {a b c : ℕ × ℕ}
    (h1 : Desc t point a b) (h2 : Desc t point b c) : Desc t point a c := by
  induction h2 with
  | refl => exact h1
  | step hpar hsx hi hcp ih => exact Desc.step ih hsx hi hcp

theorem desc_of_shortcut {t : SegRTree} {point : Coordinate} {e v : ℕ × ℕ}
    (h : xMinGtX (SegRTree.getRectangle t e.1 e.2) point = true)
    (hd : Desc t point e v) : v = e := by
  induction hd with
  | refl => rfl
  | @step level offset i hpar hsx hi hcp ih =>
    exfalso
    have h1 : level + 1 = e.1 := congrArg Prod.fst ih
    have h2 : offset = e.2 := congrArg Prod.snd ih
    rw [h1, h2] at hsx
    rw [hsx] at h
    exact Bool.false_ne_true h

theorem desc_of_leaf {t : SegRTree} {point : Coordinate} {e v : ℕ × ℕ}
    (h : e.1 = 0) (hd : Desc t point e v) : v = e := by
  induction hd with
  | refl => rfl
  | @step level offset i hpar hsx hi hcp ih =>
    exfalso
    have h1 : level + 1 = e.1 := congrArg Prod.fst ih
    omega

theorem desc_internal_iff {t : SegRTree} {point : Coordinate} {m offset : ℕ}
    {v : ℕ × ℕ}
    (hsx : xMinGtX (SegRTree.getRectangle t (m + 1) offset) point = false) :
    Desc t point (m + 1, offset) v ↔
      v = (m + 1, offset) ∨
        ∃ i < t.degree,
          checkPointRect point
            (SegRTree.getRectangle t m (t.degree * offset + i)) = true ∧
          Desc t point (m, t.degree * offset + i) v := by
  constructor
  · intro hd
    induction hd with
    | refl => exact Or.inl rfl
    | @step level offset2 i hpar hsx2 hi hcp ih =>
      rcases ih with heq | ⟨j, hj, hcpj, hdj⟩
      · have h1 : level + 1 = m + 1 := congrArg Prod.fst heq
        have h2 : offset2 = offset := congrArg Prod.snd heq
        have h3 : level = m := by omega
        subst h3
        subst h2
        exact Or.inr ⟨i, hi, hcp, Desc.refl _⟩
      · exact Or.inr ⟨j, hj, hcpj, Desc.step hdj hsx2 hi hcp⟩
  · rintro (rfl | ⟨i, hi, hcp, hd⟩)
    · exact Desc.refl _
    · exact desc_trans (Desc.step (Desc.refl _) hsx hi hcp) hd

theorem piGo_cons (t : SegRTree) (coords : List Coordinate) (point : Coordinate)
    (level offset : ℕ) (stack : List (ℕ × ℕ)) (wn : ℤ) (visited : List (ℕ × ℕ)) :
    piGo t coords point ((level, offset) :: stack) wn visited =
      if xMinGtX (SegRTree.getRectangle t level offset) point then
        match windingNumber point
            (coords.getD (SegRTree.getLowHigh t level offset).1 (Coordinate.new 0 0))
            (coords.getD (SegRTree.getLowHigh t level offset).2 (Coordinate.new 0 0)) with
        | .on => none
        | .left => piGo t coords point stack (wn + 1) (visited ++ [(level, offset)])
        | .right => piGo t coords point stack (wn - 1) (visited ++ [(level, offset)])
        | .off => piGo t coords point stack wn (visited ++ [(level, offset)])
      else if level = 0 then
        match windingNumber point (coords.getD offset (Coordinate.new 0 0))
            (coords.getD (offset + 1) (Coordinate.new 0 0)) with
        | .on => some (ContainRelation.boundary, visited ++ [(level, offset)])
        | .left => piGo t coords point stack (wn + 1) (visited ++ [(level, offset)])
        | .right => piGo t coords point stack (wn - 1) (visited ++ [(level, offset)])
        | .off => piGo t coords point stack wn (visited ++ [(level, offset)])
      else
        piGo t coords point
          ((((List.range t.degree).map fun i => (level - 1, t.degree * offset + i)).filter
            fun c => checkPointRect point (SegRTree.getRectangle t c.1 c.2)).reverse
            ++ stack) wn (visited ++ [(level, offset)]) := by
  rw [piGo]

/-- Loop invariant of the point-in-ring descent: a completed, non-boundary run
processes exactly the already-recorded nodes plus the nodes descent-reachable
from the stack under the code's push predicate. -/
theorem piGo_spec (t : SegRTree) (coords : List Coordinate) (point : Coordinate) :
    ∀ (stack : List (ℕ × ℕ)) (wn : ℤ) (visited : List (ℕ × ℕ))
      (res : ContainRelation × List (ℕ × ℕ)),
      piGo t coords point stack wn visited = some res →
      res.1 ≠ ContainRelation.boundary →
      ∀ v, v ∈ res.2 ↔ v ∈ visited ∨ ∃ e ∈ stack, Desc t point e v := by
  intro stack wn visited
  induction stack, wn, visited using piGo.induct t coords point with
  | case1 wn visited =>
    intro res hrun hnb v
    rw [piGo] at hrun
    have h1 := Option.some.inj hrun
    rw [← h1]
    simp
  | case2 level offset stack wn visited hsx hw =>
    intro res hrun hnb v
    rw [piGo_cons, if_pos hsx, hw] at hrun
    exact Option.noConfusion hrun
  | case3 level offset stack wn visited hsx hw ih =>
    intro res hrun hnb v
    rw [piGo_cons, if_pos hsx, hw] at hrun
    rw [ih res hrun hnb v]
    simp only [List.mem_append, List.mem_singleton, List.mem_cons,
      List.not_mem_nil, or_false]
    constructor
    · rintro ((hv | rfl) | ⟨e, he, hd⟩)
      · exact Or.inl hv
      · exact Or.inr ⟨(level, offset), Or.inl rfl, Desc.refl _⟩
      · exact Or.inr ⟨e, Or.inr he, hd⟩
    · rintro (hv | ⟨e, (rfl | he), hd⟩)
      · exact Or.inl (Or.inl hv)
      · exact Or.inl (Or.inr (desc_of_shortcut hsx hd))
      · exact Or.inr ⟨e, he, hd⟩
  | case4 level offset stack wn visited hsx hw ih =>
    intro res hrun hnb v
    rw [piGo_cons, if_pos hsx, hw] at hrun
    rw [ih res hrun hnb v]
    simp only [List.mem_append, List.mem_singleton, List.mem_cons,
      List.not_mem_nil, or_false]
    constructor
    · rintro ((hv | rfl) | ⟨e, he, hd⟩)
      · exact Or.inl hv
      · exact Or.inr ⟨(level, offset), Or.inl rfl, Desc.refl _⟩
      · exact Or.inr ⟨e, Or.inr he, hd⟩
    · rintro (hv | ⟨e, (rfl | he), hd⟩)
      · exact Or.inl (Or.inl hv)
      · exact Or.inl (Or.inr (desc_of_shortcut hsx hd))
      · exact Or.inr ⟨e, he, hd⟩
  | case5 level offset stack wn visited hsx hw ih =>
    intro res hrun hnb v
    rw [piGo_cons, if_pos hsx, hw] at hrun
    rw [ih res hrun hnb v]
    simp only [List.mem_append, List.mem_singleton, List.mem_cons,
      List.not_mem_nil, or_false]
    constructor
    · rintro ((hv | rfl) | ⟨e, he, hd⟩)
      · exact Or.inl hv
      · exact Or.inr ⟨(level, offset), Or.inl rfl, Desc.refl _⟩
      · exact Or.inr ⟨e, Or.inr he, hd⟩
    · rintro (hv | ⟨e, (rfl | he), hd⟩)
      · exact Or.inl (Or.inl hv)
      · exact Or.inl (Or.inr (desc_of_shortcut hsx hd))
      · exact Or.inr ⟨e, he, hd⟩
  | case6 offset stack wn visited hw hns =>
    intro res hrun hnb v
    rw [piGo_cons, if_neg hns, if_pos rfl, hw] at hrun
    have h1 := Option.some.inj hrun
    rw [← h1] at hnb
    exact absurd rfl hnb
  | case7 offset stack wn visited hw hns ih =>
    intro res hrun hnb v
    rw [piGo_cons, if_neg hns, if_pos rfl, hw] at hrun
    rw [ih res hrun hnb v]
    simp only [List.mem_append, List.mem_singleton, List.mem_cons,
      List.not_mem_nil, or_false]
    constructor
    · rintro ((hv | rfl) | ⟨e, he, hd⟩)
      · exact Or.inl hv
      · exact Or.inr ⟨(0, offset), Or.inl rfl, Desc.refl _⟩
      · exact Or.inr ⟨e, Or.inr he, hd⟩
    · rintro (hv | ⟨e, (rfl | he), hd⟩)
      · exact Or.inl (Or.inl hv)
      · exact Or.inl (Or.inr (desc_of_leaf rfl hd))
      · exact Or.inr ⟨e, he, hd⟩
  | case8 offset stack wn visited hw hns ih =>
    intro res hrun hnb v
    rw [piGo_cons, if_neg hns, if_pos rfl, hw] at hrun
    rw [ih res hrun hnb v]
    simp only [List.mem_append, List.mem_singleton, List.mem_cons,
      List.not_mem_nil, or_false]
    constructor
    · rintro ((hv | rfl) | ⟨e, he, hd⟩)
      · exact Or.inl hv
      · exact Or.inr ⟨(0, offset), Or.inl rfl, Desc.refl _⟩
      · exact Or.inr ⟨e, Or.inr he, hd⟩
    · rintro (hv | ⟨e, (rfl | he), hd⟩)
      · exact Or.inl (Or.inl hv)
      · exact Or.inl (Or.inr (desc_of_leaf rfl hd))
      · exact Or.inr ⟨e, he, hd⟩
  | case9 offset stack wn visited hw hns ih =>
    intro res hrun hnb v
    rw [piGo_cons, if_neg hns, if_pos rfl, hw] at hrun
    rw [ih res hrun hnb v]
    simp only [List.mem_append, List.mem_singleton, List.mem_cons,
      List.not_mem_nil, or_false]
    constructor
    · rintro ((hv | rfl) | ⟨e, he, hd⟩)
      · exact Or.inl hv
      · exact Or.inr ⟨(0, offset), Or.inl rfl, Desc.refl _⟩
      · exact Or.inr ⟨e, Or.inr he, hd⟩
    · rintro (hv | ⟨e, (rfl | he), hd⟩)
      · exact Or.inl (Or.inl hv)
      · exact Or.inl (Or.inr (desc_of_leaf rfl hd))
      · exact Or.inr ⟨e, he, hd⟩
  | case10 level offset stack wn visited hsx hlv _cL _fCO _ch _pushes ih =>
    intro res hrun hnb v
    have hpev : _pushes = ((List.range t.degree).map
        (fun i => (level - 1, t.degree * offset + i))).filter
        (fun c => checkPointRect point (SegRTree.getRectangle t c.1 c.2)) := rfl
    rw [hpev] at ih
    obtain ⟨m, rfl⟩ : ∃ m, level = m + 1 := ⟨level - 1, by omega⟩
    simp only [Nat.add_sub_cancel] at ih
    rw [piGo_cons, if_neg hsx, if_neg hlv] at hrun
    simp only [Nat.add_sub_cancel] at hrun
    rw [ih res hrun hnb v]
    have hsxf : xMinGtX (SegRTree.getRectangle t (m + 1) offset) point = false := by
      cases hb : xMinGtX (SegRTree.getRectangle t (m + 1) offset) point
      · rfl
      · exact absurd hb hsx
    have hmem_push : ∀ c, c ∈ ((List.range t.degree).map
        (fun i => (m, t.degree * offset + i))).filter
        (fun c => checkPointRect point (SegRTree.getRectangle t c.1 c.2)) ↔
        ∃ i < t.degree, c = (m, t.degree * offset + i) ∧
          checkPointRect point (SegRTree.getRectangle t m (t.degree * offset + i))
            = true := by
      intro c
      rw [List.mem_filter, List.mem_map]
      constructor
      · rintro ⟨⟨i, hi, rfl⟩, hcp⟩
        exact ⟨i, List.mem_range.mp hi, rfl, hcp⟩
      · rintro ⟨i, hi, rfl, hcp⟩
        exact ⟨⟨i, List.mem_range.mpr hi, rfl⟩, hcp⟩
    simp only [List.mem_append, List.mem_singleton, List.mem_cons, List.mem_reverse,
      List.not_mem_nil, or_false]
    constructor
    · rintro ((hv | rfl) | ⟨e, he, hd⟩)
      · exact Or.inl hv
      · exact Or.inr ⟨(m + 1, offset), Or.inl rfl, Desc.refl _⟩
      · rcases he with he | he
        · obtain ⟨i, hi, rfl, hcp⟩ := (hmem_push e).mp he
          exact Or.inr ⟨(m + 1, offset), Or.inl rfl,
            desc_trans (Desc.step (Desc.refl _) hsxf hi hcp) hd⟩
        · exact Or.inr ⟨e, Or.inr he, hd⟩
    · rintro (hv | ⟨e, (rfl | he), hd⟩)
      · exact Or.inl (Or.inl hv)
      · rcases (desc_internal_iff hsxf).mp hd with rfl | ⟨i, hi, hcp, hdc⟩
        · exact Or.inl (Or.inr rfl)
        · exact Or.inr ⟨(m, t.degree * offset + i),
            Or.inl ((hmem_push _).mpr ⟨i, hi, rfl, hcp⟩), hdc⟩
      · exact Or.inr ⟨e, Or.inr he, hd⟩

/-- C7 (amended): on any completed, non-boundary run, the point-in-ring
traversal processes exactly the nodes descent-reachable from the root under
the predicate the code actually uses, `check_point_rect`:
`point.x ≤ x_max(rect) ∧ y_min(rect) ≤ point.y ≤ y_max(rect)` — not the
spec's `x_min(rect) ≤ point.x ∧ ...`. -/
theorem C7_point_in_loop_descent (t : SegRTree) (coords : List Coordinate)
    (point : Coordinate) (res : ContainRelation × List (ℕ × ℕ))
    (hrun : pointInLoop t coords point = some res)
    (hnb : res.1 ≠ ContainRelation.boundary) :
    ∀ v, v ∈ res.2 ↔
      ((SegRTree.envelope t).containsCoord point = true ∧
        checkPointRect point (SegRTree.getRectangle t t.currentLevel 0) = true ∧
        Desc t point (t.currentLevel, 0) v) := by
  intro v
  unfold pointInLoop at hrun
  by_cases hin : (SegRTree.envelope t).containsCoord point = false
  · rw [if_pos hin] at hrun
    have h1 := Option.some.inj hrun
    rw [← h1]
    simp only [List.not_mem_nil, false_iff]
    rintro ⟨hc, _⟩
    rw [hin] at hc
    exact Bool.false_ne_true hc
  · rw [if_neg hin] at hrun
    have hin2 : (SegRTree.envelope t).containsCoord point = true := by
      cases hb : (SegRTree.envelope t).containsCoord point
      · exact absurd hb hin
      · rfl
    by_cases hcp : checkPointRect point (SegRTree.getRectangle t t.currentLevel 0)
        = true
    · rw [if_pos hcp] at hrun
      rw [piGo_spec t coords point _ 0 [] res hrun hnb v]
      simp only [List.not_mem_nil, List.mem_singleton, false_or]
      constructor
      · rintro ⟨e, rfl, hd⟩
        exact ⟨hin2, hcp, hd⟩
      · rintro ⟨_, _, hd⟩
        exact ⟨(t.currentLevel, 0), rfl, hd⟩
    · rw [if_neg hcp] at hrun
      rw [piGo_spec t coords point _ 0 [] res hrun hnb v]
      simp only [List.not_mem_nil, false_or, false_iff]
      constructor
      · rintro ⟨e, he, _⟩
        exact he.elim
      · rintro ⟨_, hc, _⟩
        exact (hcp hc).elim

theorem C7_point_in_loop_descent_witness :
    pointInLoop SegRTree.newEmpty [] (Coordinate.new 3 5) =
      some (ContainRelation.exterior, []) ∧
    (ContainRelation.exterior, ([] : List (ℕ × ℕ))).1 ≠ ContainRelation.boundary ∧
    ∀ v, v ∈ (ContainRelation.exterior, ([] : List (ℕ × ℕ))).2 ↔
      ((SegRTree.envelope SegRTree.newEmpty).containsCoord (Coordinate.new 3 5) = true ∧
        checkPointRect (Coordinate.new 3 5)
          (SegRTree.getRectangle SegRTree.newEmpty
            SegRTree.newEmpty.currentLevel 0) = true ∧
        Desc SegRTree.newEmpty (Coordinate.new 3 5)
          (SegRTree.newEmpty.currentLevel, 0) v) :=
  ⟨rfl, by decide,
    C7_point_in_loop_descent SegRTree.newEmpty [] (Coordinate.new 3 5)
      (ContainRelation.exterior, []) rfl (by decide)⟩

/-- The triangle ring used to compare the code's `check_point_rect` with the
spec's stated descent predicate. -/
def triCoords : List Coordinate :=
  [Coordinate.new 0 0, Coordinate.new 4 0, Coordinate.new 4 4, Coordinate.new 0 0]

def triPoint : Coordinate := Coordinate.new 3 1

/-- The incremental tree `LineString::new_validated` builds over the triangle
ring: degree 16, capacity = number of segments. -/
def triTree : SegRTree :=
  SegRTree.addList (SegRTree.new 16 3) (rectanglesFromCoordinates triCoords)

/-- C7 counterexample: on the triangle ring `(0,0)-(4,0)-(4,4)-(0,0)` with
query point `(3,1)`, the point-in-ring traversal processes node `(0,1)` —
the leaf whose rectangle is `[4,4] x [0,4]` — although that rectangle fails
the spec's predicate `x_min <= point.x AND y_min <= point.y <= y_max`
(here `x_min = 4 > 3`): the code tests `point.x <= x_max`, not
`x_min <= point.x`. -/
theorem C7_spec_predicate_counterexample :
    specCheckPointRect triPoint (SegRTree.getRectangle triTree 0 1) = false ∧
    pointInLoop triTree triCoords triPoint =
      some (ContainRelation.interior, [(1, 0), (0, 2), (0, 1)]) := by
  have hrl : rectanglesFromCoordinates triCoords =
      [Rect.mk 0 0 4 0, Rect.mk 4 0 4 4, Rect.mk 0 0 4 4] := by decide
  have hle : (rectanglesFromCoordinates triCoords).length ≤ 3 := by
    rw [hrl]
    decide
  have hwf : Wf triTree (rectanglesFromCoordinates triCoords) :=
    @addList_wf 16 3 (rectanglesFromCoordinates triCoords) hle
  have hai : AInv 16 3 triTree (rectanglesFromCoordinates triCoords) :=
    @addList_ainv 16 3 (rectanglesFromCoordinates triCoords) hle
  have hD : triTree.degree = 16 := by
    rw [hai.hdg]
    decide
  have hlen3 : (rectanglesFromCoordinates triCoords).length = 3 := by
    rw [hrl]
    decide
  have hpl : pathLevel 16 2 = 1 := by
    have h1 : pathLevel 16 2 ≤ 1 := (pathLevel_le_iff (by omega) 2 1).mpr (by norm_num)
    have h2 : ¬ pathLevel 16 2 ≤ 0 := by
      intro hc
      have h3 := (pathLevel_le_iff (by omega) 2 0).mp hc
      norm_num at h3
    omega
  have hL : triTree.currentLevel = 1 := by
    rw [hai.hlv, hlen3]
    show pathLevel (max 16 2) (3 - 1) = 1
    norm_num [hpl]
  have hsz3 : triTree.currentSize = 3 := by rw [hai.hsz, hlen3]
  have hcap0 : capAt triTree.degree (rectanglesFromCoordinates triCoords).length 0
      = 16 := by
    rw [hD, hlen3]
    decide
  have hcap1 : capAt triTree.degree (rectanglesFromCoordinates triCoords).length 1
      = 16 := by
    rw [hD, hlen3]
    decide
  have hR10 : SegRTree.getRectangle triTree 1 0 = Rect.mk 0 0 4 4 := by
    rw [hwf.hrect 1 0 (by rw [hL]) (by rw [hcap1]; decide), hD, hrl]
    decide
  have hR00 : SegRTree.getRectangle triTree 0 0 = Rect.mk 0 0 4 0 := by
    rw [hwf.hrect 0 0 (Nat.zero_le _) (by rw [hcap0]; decide), hD, hrl]
    decide
  have hR01 : SegRTree.getRectangle triTree 0 1 = Rect.mk 4 0 4 4 := by
    rw [hwf.hrect 0 1 (Nat.zero_le _) (by rw [hcap0]; decide), hD, hrl]
    decide
  have hR02 : SegRTree.getRectangle triTree 0 2 = Rect.mk 0 0 4 4 := by
    rw [hwf.hrect 0 2 (Nat.zero_le _) (by rw [hcap0]; decide), hD, hrl]
    decide
  have hc0 : checkPointRect triPoint (SegRTree.getRectangle triTree 0 0) = false := by
    rw [hR00]
    decide
  have hc1 : checkPointRect triPoint (SegRTree.getRectangle triTree 0 1) = true := by
    rw [hR01]
    decide
  have hc2 : checkPointRect triPoint (SegRTree.getRectangle triTree 0 2) = true := by
    rw [hR02]
    decide
  have hcE : ∀ o, 3 ≤ o → o < 16 →
      checkPointRect triPoint (SegRTree.getRectangle triTree 0 o) = false := by
    intro o h3 h16
    rw [hwf.hrect 0 o (Nat.zero_le _) (by rw [hcap0]; omega),
      leafSlice_eq_nil (by rw [hlen3]; simpa using h3), Rect.ofList_nil]
    rfl
  have hc3 := hcE 3 (by omega) (by omega)
  have hc4 := hcE 4 (by omega) (by omega)
  have hc5 := hcE 5 (by omega) (by omega)
  have hc6 := hcE 6 (by omega) (by omega)
  have hc7 := hcE 7 (by omega) (by omega)
  have hc8 := hcE 8 (by omega) (by omega)
  have hc9 := hcE 9 (by omega) (by omega)
  have hc10 := hcE 10 (by omega) (by omega)
  have hc11 := hcE 11 (by omega) (by omega)
  have hc12 := hcE 12 (by omega) (by omega)
  have hc13 := hcE 13 (by omega) (by omega)
  have hc14 := hcE 14 (by omega) (by omega)
  have hc15 := hcE 15 (by omega) (by omega)
  refine ⟨by rw [hR01]; decide, ?_⟩
  have henv : (SegRTree.envelope triTree).containsCoord triPoint = true := by
    rw [SegRTree.envelope, hL, hR10]
    decide
  rw [pointInLoop, henv, if_neg (by decide : ¬ (true = false))]
  rw [hL, if_pos (by rw [hR10]; decide :
    checkPointRect triPoint (SegRTree.getRectangle triTree 1 0) = true)]
  rw [piGo_cons, if_neg (by rw [hR10]; decide :
    ¬ xMinGtX (SegRTree.getRectangle triTree 1 0) triPoint = true),
    if_neg (by omega : ¬ (1 : ℕ) = 0), hD]
  have hmap : ((List.range 16).map fun i => (1 - 1, 16 * 0 + i)) = [(0, 0), (0, 1), (0, 2), (0, 3), (0, 4), (0, 5), (0, 6), (0, 7), (0, 8), (0, 9), (0, 10), (0, 11), (0, 12), (0, 13), (0, 14), (0, 15)] := by
    decide
  rw [hmap]
  have hfil : List.filter
      (fun c => checkPointRect triPoint (SegRTree.getRectangle triTree c.1 c.2))
      [(0, 0), (0, 1), (0, 2), (0, 3), (0, 4), (0, 5), (0, 6), (0, 7), (0, 8), (0, 9), (0, 10), (0, 11), (0, 12), (0, 13), (0, 14), (0, 15)] = [(0, 1), (0, 2)] := by
    simp [hc0, hc1, hc2, hc3, hc4, hc5, hc6, hc7, hc8, hc9, hc10, hc11, hc12, hc13, hc14, hc15]
  rw [hfil]
  show piGo triTree triCoords triPoint [(0, 2), (0, 1)] 0 [(1, 0)] =
    some (ContainRelation.interior, [(1, 0), (0, 2), (0, 1)])
  rw [piGo_cons, if_neg (by rw [hR02]; decide :
    ¬ xMinGtX (SegRTree.getRectangle triTree 0 2) triPoint = true), if_pos rfl]
  have hw2 : windingNumber triPoint (triCoords.getD 2 (Coordinate.new 0 0))
      (triCoords.getD (2 + 1) (Coordinate.new 0 0)) = WindingPosition.off := by
    show windingNumber triPoint (Coordinate.new 4 4) (Coordinate.new 0 0) =
      WindingPosition.off
    norm_num [windingNumber, Coordinate.new, triPoint]
  rw [hw2]
  show piGo triTree triCoords triPoint [(0, 1)] 0 [(1, 0), (0, 2)] =
    some (ContainRelation.interior, [(1, 0), (0, 2), (0, 1)])
  rw [piGo_cons, if_pos (by rw [hR01]; decide :
    xMinGtX (SegRTree.getRectangle triTree 0 1) triPoint = true)]
  have hlh : SegRTree.getLowHigh triTree 0 1 = (1, 2) := by
    norm_num [SegRTree.getLowHigh, hD, hsz3]
  have hw1 : windingNumber triPoint
      (triCoords.getD (SegRTree.getLowHigh triTree 0 1).1 (Coordinate.new 0 0))
      (triCoords.getD (SegRTree.getLowHigh triTree 0 1).2 (Coordinate.new 0 0)) =
      WindingPosition.left := by
    rw [hlh]
    show windingNumber triPoint (Coordinate.new 4 0) (Coordinate.new 4 4) =
      WindingPosition.left
    norm_num [windingNumber, Coordinate.new, triPoint]
  rw [hw1]
  show piGo triTree triCoords triPoint [] (0 + 1) [(1, 0), (0, 2), (0, 1)] =
    some (ContainRelation.interior, [(1, 0), (0, 2), (0, 1)])
  rw [piGo, if_pos (by decide : ((0 : ℤ) + 1 ≠ 0))]

/-! ### `SegmentUnion` (`seg_rtree/segment_union.rs`)

The `BTreeSet<usize>` is modelled as its strictly increasing listing. -/

/-- Ordered insert into the increasing listing (`BTreeSet::insert`). -/
def suInsert : List ℕ → ℕ → List ℕ
  | [], e => [e]
  | a :: rest, e =>
    if e < a then e :: a :: rest
    else if e = a then a :: rest
    else a :: suInsert rest e

/-- Remove from the listing (`BTreeSet::remove`). -/
def suRemove : List ℕ → ℕ → List ℕ
  | [], _ => []
  | a :: rest, e => if e = a then rest else a :: suRemove rest e

/-- `SegmentUnion::_add`: toggle membership of `entry`. -/
def suAdd1 (s : List ℕ) (entry : ℕ) : List ℕ :=
  if s.contains entry then suRemove s entry else suInsert s entry

/-- `SegmentUnion::add(low, high)`. -/
def suAdd (s : List ℕ) (low high : ℕ) : List ℕ := suAdd1 (suAdd1 s low) high

/-- `SegmentUnion::_pop`: take the smallest element, if any. -/
def suPop1 (s : List ℕ) : Option ℕ × List ℕ :=
  match s.head? with
  | none => (none, s)
  | some a => (some a, suRemove s a)

/-- `SegmentUnion::pop`: two `_pop`s as a low-high pair (the first removal
sticks even if the second `_pop` fails). -/
def suPop (s : List ℕ) : Option (ℕ × ℕ) × List ℕ :=
  match suPop1 s with
  | (none, s1) => (none, s1)
  | (some a, s1) =>
    match suPop1 s1 with
    | (none, s2) => (none, s2)
    | (some b, s2) => (some (a, b), s2)

/-- A `SegmentUnion` operation. -/
inductive SuOp where
  | add (low high : ℕ) : SuOp
  | pop : SuOp
deriving DecidableEq, Repr

def suStep (s : List ℕ) : SuOp → List ℕ
  | .add low high => suAdd s low high
  | .pop => (suPop s).2

/-- The state after a sequence of operations on `SegmentUnion::new()`. -/
def suRun (ops : List SuOp) : List ℕ := ops.foldl suStep []

theorem suInsert_mem {s : List ℕ} {e b : ℕ} (h : b ∈ suInsert s e) :
    b ∈ s ∨ b = e := by
  induction s with
  | nil =>
    rw [suInsert] at h
    rcases List.mem_singleton.mp h with rfl
    exact Or.inr rfl
  | cons a rest ih =>
    rw [suInsert] at h
    by_cases h1 : e < a
    · rw [if_pos h1] at h
      rcases List.mem_cons.mp h with rfl | h2
      · exact Or.inr rfl
      · exact Or.inl h2
    · rw [if_neg h1] at h
      by_cases h2 : e = a
      · rw [if_pos h2] at h
        exact Or.inl h
      · rw [if_neg h2] at h
        rcases List.mem_cons.mp h with rfl | h3
        · exact Or.inl (List.mem_cons_self _ _)
        · rcases ih h3 with h4 | h4
          · exact Or.inl (List.mem_cons_of_mem _ h4)
          · exact Or.inr h4

theorem suInsert_pairwise {s : List ℕ} {e : ℕ} (h : s.Pairwise (· < ·)) :
    (suInsert s e).Pairwise (· < ·) := by
  induction s with
  | nil =>
    rw [suInsert]
    exact List.pairwise_singleton _ _
  | cons a rest ih =>
    rw [suInsert]
    rcases List.pairwise_cons.mp h with ⟨ha, hrest⟩
    by_cases h1 : e < a
    · rw [if_pos h1]
      refine List.pairwise_cons.mpr ⟨?_, h⟩
      intro b hb
      rcases List.mem_cons.mp hb with rfl | h2
      · exact h1
      · exact lt_trans h1 (ha b h2)
    · rw [if_neg h1]
      by_cases h2 : e = a
      · rw [if_pos h2]
        exact h
      · rw [if_neg h2]
        refine List.pairwise_cons.mpr ⟨?_, ih hrest⟩
        intro b hb
        rcases suInsert_mem hb with h3 | rfl
        · exact ha b h3
        · omega

theorem suRemove_sublist (s : List ℕ) (e : ℕ) : (suRemove s e).Sublist s := by
  induction s with
  | nil => exact List.Sublist.refl _
  | cons a rest ih =>
    rw [suRemove]
    by_cases h1 : e = a
    · rw [if_pos h1]
      exact List.sublist_cons_self _ _
    · rw [if_neg h1]
      exact List.Sublist.cons₂ _ ih

theorem suInsert_length {s : List ℕ} {e : ℕ} (h : s.contains e = false) :
    (suInsert s e).length = s.length + 1 := by
  induction s with
  | nil => rfl
  | cons a rest ih =>
    rw [List.contains_cons, Bool.or_eq_false_iff] at h
    have hne : e ≠ a := by
      intro hc
      rw [hc] at h
      simp at h
    rw [suInsert]
    by_cases h1 : e < a
    · rw [if_pos h1]
      rfl
    · rw [if_neg h1, if_neg hne, List.length_cons, List.length_cons,
        ih h.2]

theorem suRemove_length {s : List ℕ} {e : ℕ} (h : s.contains e = true) :
    (suRemove s e).length + 1 = s.length := by
  induction s with
  | nil => simp at h
  | cons a rest ih =>
    rw [List.contains_cons, Bool.or_eq_true] at h
    rw [suRemove]
    by_cases h1 : e = a
    · rw [if_pos h1]
      rfl
    · rw [if_neg h1, List.length_cons, List.length_cons]
      have h2 : rest.contains e = true := by
        rcases h with h | h
        · exact absurd (by simpa using h) h1
        · exact h
      rw [ih h2]

theorem suAdd1_pairwise {s : List ℕ} {e : ℕ} (h : s.Pairwise (· < ·)) :
    (suAdd1 s e).Pairwise (· < ·) := by
  rw [suAdd1]
  by_cases h1 : s.contains e
  · rw [if_pos h1]
    exact h.sublist (suRemove_sublist s e)
  · rw [if_neg h1]
    exact suInsert_pairwise h

theorem suAdd1_length (s : List ℕ) (e : ℕ) :
    (suAdd1 s e).length = s.length + 1 ∨ (suAdd1 s e).length + 1 = s.length := by
  rw [suAdd1]
  by_cases h1 : s.contains e
  · rw [if_pos h1]
    exact Or.inr (suRemove_length h1)
  · rw [if_neg h1]
    exact Or.inl (suInsert_length (by simpa using h1))

theorem suRemove_cons_self (a : ℕ) (l : List ℕ) : suRemove (a :: l) a = l := by
  rw [suRemove, if_pos rfl]

/-- The invariant: strictly sorted listing with an even number of elements,
preserved by every operation. -/
theorem suStep_inv {s : List ℕ} (hp : s.Pairwise (· < ·)) (he : Even s.length)
    (op : SuOp) :
    (suStep s op).Pairwise (· < ·) ∧ Even (suStep s op).length := by
  cases op with
  | add low high =>
    refine ⟨suAdd1_pairwise (suAdd1_pairwise hp), ?_⟩
    rw [Nat.even_iff] at he ⊢
    show (suAdd1 (suAdd1 s low) high).length % 2 = 0
    rcases suAdd1_length (suAdd1 s low) high with h1 | h1 <;>
      rcases suAdd1_length s low with h2 | h2 <;> omega
  | pop =>
    show (suPop s).2.Pairwise (· < ·) ∧ Even (suPop s).2.length
    match s, hp, he with
    | [], _, _ =>
      refine ⟨List.Pairwise.nil, ?_⟩
      show Even (0 : ℕ)
      exact even_zero
    | [a], hp, he => simp at he
    | a :: b :: rest, hp, he =>
      have hq : suPop (a :: b :: rest) = (some (a, b), rest) := by
        rw [suPop, suPop1]
        simp only [List.head?_cons, suRemove_cons_self]
        rw [suPop1]
        simp only [List.head?_cons, suRemove_cons_self]
      rw [hq]
      refine ⟨(List.pairwise_cons.mp
        (List.pairwise_cons.mp hp).2).2, ?_⟩
      rw [List.length_cons, List.length_cons, Nat.even_iff] at he
      show Even rest.length
      rw [Nat.even_iff]
      omega

theorem suRun_inv (ops : List SuOp) :
    (suRun ops).Pairwise (· < ·) ∧ Even (suRun ops).length := by
  rw [suRun]
  have hgen : ∀ s : List ℕ, s.Pairwise (· < ·) → Even s.length →
      (ops.foldl suStep s).Pairwise (· < ·) ∧ Even (ops.foldl suStep s).length := by
    induction ops with
    | nil => exact fun s hp he => ⟨hp, he⟩
    | cons op rest ih =>
      intro s hp he
      rw [List.foldl_cons]
      obtain ⟨hp1, he1⟩ := suStep_inv hp he op
      exact ih _ hp1 he1
  exact hgen [] List.Pairwise.nil (by simpa using even_zero)

/-- C8: after any sequence of `add`/`pop` operations the stored element set
has even size; listed in increasing order its elements form pairs
`(low_0, high_0) < (low_1, high_1) < ...` with `high_i < low_{i+1}` (adjacent
elements strictly increase); and `pop` on a non-empty union removes and
returns the two smallest elements as `(low, high)` with `low < high`. -/
theorem C8_segment_union_invariant (ops : List SuOp) :
    Even (suRun ops).length ∧
    (∀ i, i + 1 < (suRun ops).length →
      (suRun ops).getD i 0 < (suRun ops).getD (i + 1) 0) ∧
    (suRun ops ≠ [] → ∃ low high rest,
      suPop (suRun ops) = (some (low, high), rest) ∧ low < high ∧
      ∀ x ∈ suRun ops, x = low ∨ high ≤ x) := by
  obtain ⟨hp, he⟩ := suRun_inv ops
  refine ⟨he, ?_, ?_⟩
  · intro i hi
    have h1 : i < (suRun ops).length := by omega
    rw [List.getD_eq_getElem _ _ h1, List.getD_eq_getElem _ _ hi]
    exact List.pairwise_iff_getElem.mp hp i (i + 1) h1 hi (by omega)
  · intro hne
    match hs : suRun ops, hp, he, hne with
    | [], _, _, hne => exact absurd rfl hne
    | [a], hp, he, _ => simp at he
    | a :: b :: rest, hp, he, _ =>
      refine ⟨a, b, rest, ?_, ?_, ?_⟩
      · rw [suPop, suPop1]
        simp only [List.head?_cons, suRemove_cons_self]
        rw [suPop1]
        simp only [List.head?_cons, suRemove_cons_self]
      · exact (List.pairwise_cons.mp hp).1 b (List.mem_cons_self _ _)
      · intro x hx
        rcases List.mem_cons.mp hx with rfl | hx1
        · exact Or.inl rfl
        · rcases List.mem_cons.mp hx1 with rfl | hx2
          · exact Or.inr le_rfl
          · exact Or.inr (le_of_lt ((List.pairwise_cons.mp
              (List.pairwise_cons.mp hp).2).1 x hx2))

/-! ### The clipper's `push_intersects` (`algorithms/clip.rs`, `seg_rtree/clip.rs`) -/

/-- `SectionBuilder` (`algorithms/clip.rs`). -/
structure SectionBuilder where
  coordinates : List Coordinate
  indices : List ℕ
deriving DecidableEq, Repr

def SectionBuilder.push (sb : SectionBuilder) (coord : Coordinate) : SectionBuilder :=
  { sb with coordinates := sb.coordinates ++ [coord] }

def SectionBuilder.extend (sb : SectionBuilder) (coords : List Coordinate) :
    SectionBuilder :=
  { sb with coordinates := sb.coordinates ++ coords }

def SectionBuilder.flush (sb : SectionBuilder) : SectionBuilder :=
  { sb with indices := sb.indices ++ [sb.coordinates.length] }

/-- `Clipper::push_intersects` applied to the popped heap pair `(low, high)`:
returns the updated `last_index` together with the updated section builder. -/
def pushIntersects (clipRect : Rect) (coords : List Coordinate)
    (lastIndex : Option ℕ) (sections : SectionBuilder) (low high : ℕ) :
    Option ℕ × SectionBuilder :=
  let segStart := coords.getD low (Coordinate.new 0 0)
  let segEnd := coords.getD high (Coordinate.new 0 0)
  match Rect.intersectSegment clipRect segStart segEnd with
  | none => (lastIndex, sections)
  | some (isxnStart, isxnEnd) =>
    let s1 := if some low ≠ lastIndex then (sections.flush).push isxnStart
      else sections
    let s2 := if isxnEnd ≠ isxnStart then s1.push isxnEnd else s1
    (if isxnEnd = segEnd then some high else lastIndex, s2)

/-- C4 (amended): when the boundary-crossing segment `(low, high)` yields a
clipped interval `(sE, eE)` from `intersect_segment`, `push_intersects` sets
`last_index := some high` exactly when `eE` equals `coords[high]`; otherwise
`last_index` is left unchanged — the code has no branch clearing it. -/
theorem C4_push_intersects_last_index (clipRect : Rect) (coords : List Coordinate)
    (lastIndex : Option ℕ) (sections : SectionBuilder) (low high : ℕ)
    (sE eE : Coordinate)
    (h : Rect.intersectSegment clipRect (coords.getD low (Coordinate.new 0 0))
        (coords.getD high (Coordinate.new 0 0)) = some (sE, eE)) :
    (pushIntersects clipRect coords lastIndex sections low high).1 =
      if eE = coords.getD high (Coordinate.new 0 0) then some high
      else lastIndex := by
  simp only [pushIntersects]
  rw [h]

theorem C4_push_intersects_last_index_witness :
    Rect.intersectSegment (Rect.mk 0 0 4 4)
        (([Coordinate.new 1 1, Coordinate.new 2 2] : List Coordinate).getD 0
          (Coordinate.new 0 0))
        (([Coordinate.new 1 1, Coordinate.new 2 2] : List Coordinate).getD 1
          (Coordinate.new 0 0)) =
      some (Coordinate.new 1 1, Coordinate.new 2 2) ∧
    (pushIntersects (Rect.mk 0 0 4 4) [Coordinate.new 1 1, Coordinate.new 2 2]
        none ⟨[], []⟩ 0 1).1 =
      if Coordinate.new 2 2 =
          ([Coordinate.new 1 1, Coordinate.new 2 2] : List Coordinate).getD 1
            (Coordinate.new 0 0)
        then some 1 else none :=
  ⟨by decide,
    C4_push_intersects_last_index (Rect.mk 0 0 4 4)
      [Coordinate.new 1 1, Coordinate.new 2 2] none ⟨[], []⟩ 0 1
      (Coordinate.new 1 1) (Coordinate.new 2 2) (by decide)⟩

/-- C4 counterexample: segment `(1/2,1/2)-(3/2,1/2)` clipped by the unit
square exits through the side at `(1,1/2) ≠ coords[1]`, and `last_index`
(here `some 5`) is NOT cleared to `none` as the spec claims — it is left
unchanged. -/
theorem C4_last_index_not_cleared_counterexample :
    ∃ sE eE, Rect.intersectSegment (Rect.mk 0 0 1 1)
        (Coordinate.new (1/2) (1/2)) (Coordinate.new (3/2) (1/2)) =
          some (sE, eE) ∧
      eE ≠ Coordinate.new (3/2) (1/2) ∧
      (pushIntersects (Rect.mk 0 0 1 1)
        [Coordinate.new (1/2) (1/2), Coordinate.new (3/2) (1/2)]
        (some 5) ⟨[], []⟩ 0 1).1 = some 5 := by
  have heq : Rect.intersectSegment (Rect.mk 0 0 1 1) (Coordinate.new (1/2) (1/2))
      (Coordinate.new (3/2) (1/2)) =
      some (Coordinate.new (1/2) (1/2), Coordinate.new 1 (1/2)) := by
    norm_num [Rect.intersectSegment, clipUpdate, Rect.containsCoord,
      Rect.containsRect, Rect.coordRect, Coordinate.new]
  have hne : Coordinate.new 1 (1/2) ≠ Coordinate.new (3/2) (1/2) := by
    intro hcon
    have hx := congrArg Coordinate.x hcon
    norm_num [Coordinate.new] at hx
  refine ⟨Coordinate.new (1/2) (1/2), Coordinate.new 1 (1/2), heq, hne, ?_⟩
  simp only [pushIntersects, List.getD_cons_zero, List.getD_cons_succ, heq]
  rw [if_neg hne]

end SegRt